import Mathlib

/-! # Bundle persistence and merge: a shallow embedding

Embedding of
* `enterprise/internal/codeintel/bundles/persistence/sqlite/database.go`
  (`PatchDatabase`, `Close`),
* `enterprise/internal/codeintel/bundles/persistence/sqlite/merge.go` (`MergeDBs`),
* `enterprise/cmd/executor/internal/worker/idset.go` (`IDSet`),
* `enterprise/cmd/lsif-index-tester/range_differ.go` (`DrawLocations`),
* `internal/errutil/combine.go` (`Combine`) and `internal/errutil/match.go` (`Matches`),
* `enterprise/internal/codeintel/gitserver/diff.go` (`DiffFileStatus`),
* `enterprise/cmd/precise-code-intel-bundle-manager/internal/server/merge.go`
  (`DocumentsReferencing`),
* `internal/search/query/predicate.go` (`ParseAsPredicate`, the predicate registry).

Conventions.
* A Go `map[K]V` is the list of its entries in iteration order; reading a missing
  key yields the zero value of `V`. A map that may be `nil` is an `Option` of such
  a list: reading from `nil` yields the zero value, writing to `nil` panics.
* A Go `error` is an `Option GoError`, `none` being `nil`.
* A run-time panic is the `Abort.panic` outcome; it is never an error value.
-/

namespace Bundles

/-! ## Go maps -/

/-- Comma-ok read `v, ok := m[k]`. -/
def mapGet? {K V : Type} [DecidableEq K] (m : List (K × V)) (k : K) : Option V :=
  match m with
  | [] => none
  | (k1, v) :: rest => if k1 = k then some v else mapGet? rest k

/-- Plain read `m[k]`: the zero value when the key is missing. -/
def mapGet {K V : Type} [DecidableEq K] [Inhabited V] (m : List (K × V)) (k : K) : V :=
  (mapGet? m k).getD default

/-- Assignment `m[k] = v`: overwrite in place, or add a new entry. -/
def mapSet {K V : Type} [DecidableEq K] (k : K) (v : V) (m : List (K × V)) : List (K × V) :=
  match m with
  | [] => [(k, v)]
  | (k1, v1) :: rest => if k1 = k then (k, v) :: rest else (k1, v1) :: mapSet k v rest

/-- Builtin `delete(m, k)`. -/
def mapDelete {K V : Type} [DecidableEq K] (k : K) (m : List (K × V)) : List (K × V) :=
  m.filter (fun e => decide (e.1 ≠ k))

/-- Read `m[k]` on a map that may be nil. -/
def nilMapGet {K V : Type} [DecidableEq K] [Inhabited V] (m : Option (List (K × V))) (k : K) : V :=
  match m with
  | none => default
  | some l => mapGet l k

/-! ## Errors and panics -/

/-- A non-nil Go error: an ordinary error, or a `*multierror.Error` holding the
messages of its (flattened) members. -/
inductive GoError where
  | plain (msg : String)
  | multi (errs : List String)
  deriving DecidableEq, Repr

/-- Go `error`: `none` is `nil`. -/
abbrev Error := Option GoError

/-- The members a value contributes when flattened into a multierror. -/
def GoError.members : GoError → List String
  | .plain msg => [msg]
  | .multi errs => errs

/-- Library `multierror.Append(err, e)`: always a non-nil `*multierror.Error`;
a nil `err` contributes nothing, a nil `e` is skipped. -/
def multierrorAppend (err : Error) (e : Error) : GoError :=
  .multi ((match err with | none => [] | some x => x.members) ++
          (match e with | none => [] | some x => x.members))

/-- Run-time panics of the Go runtime that the embedded code can raise. -/
inductive Panic where
  | nilMapWrite
  | indexOutOfRange
  | nilDereference
  | negativeRepeatCount
  | makesliceOutOfRange
  deriving DecidableEq, Repr

/-- Abnormal ends of a function body: a panic, or an early `return err`. -/
inductive Abort where
  | panic (p : Panic)
  | fail (err : GoError)
  deriving DecidableEq, Repr

/-! ## Data model (package `types`) -/

/-- Type `types.ID`, a string. -/
abbrev ID := String

/-- Modelled from the spec: `types.RangeData` is not part of the sources at hand.
A range is a span of zero-based positions plus its `DefinitionResultID` and
`ReferenceResultID` (empty when absent); the remaining payload is opaque to the
merge and omitted. -/
structure RangeData where
  StartLine : Int
  StartCharacter : Int
  EndLine : Int
  EndCharacter : Int
  DefinitionResultID : ID
  ReferenceResultID : ID
  deriving DecidableEq, Repr, Inhabited

/-- Modelled from the spec: `types.DocumentIDRangeID`, a chunk-local document id
and a document-local range id. -/
structure DocumentIDRangeID where
  DocumentID : ID
  RangeID : ID
  deriving DecidableEq, Repr, Inhabited

/-- Modelled from the spec: `types.DocumentData`, the ranges of a document keyed by
range id. The map is only ever read by the merge, so nil and empty coincide. -/
structure DocumentData where
  Ranges : List (ID × RangeData)
  deriving DecidableEq, Repr, Inhabited

/-- Modelled from the spec: `types.ResultChunkData`, the chunk's document directory
and the entry list of every result set stored in the chunk. Both maps may be nil
(the zero value of the struct). -/
structure ResultChunkData where
  DocumentPaths : Option (List (ID × String))
  DocumentIDRangeIDs : Option (List (ID × List DocumentIDRangeID))
  deriving DecidableEq, Repr, Inhabited

/-- Modelled from the spec: `types.MetaData`. -/
structure MetaData where
  NumResultChunks : Int
  deriving DecidableEq, Repr, Inhabited

/-- In-memory `map[string]types.DocumentData`. -/
abbrev DocMap := List (String × DocumentData)

/-- In-memory `map[int]types.ResultChunkData`. -/
abbrev ChunkMap := List (Int × ResultChunkData)

/-- Modelled from the spec: `util.CompareRanges` is not part of the sources at hand;
ranges are ordered by start position, then end position. Negative, zero or
positive as `a` is before, equal to or after `b`. -/
def CompareRanges (a b : RangeData) : Int :=
  if a.StartLine < b.StartLine then -1
  else if a.StartLine > b.StartLine then 1
  else if a.StartCharacter < b.StartCharacter then -1
  else if a.StartCharacter > b.StartCharacter then 1
  else if a.EndLine < b.EndLine then -1
  else if a.EndLine > b.EndLine then 1
  else if a.EndCharacter < b.EndCharacter then -1
  else if a.EndCharacter > b.EndCharacter then 1
  else 0

/-- What the merge needs from code outside the sources at hand: the sharding
function `types.HashKey` and the random source behind `uuid.NewRandom`
(`NewRandom n` is the outcome of the call number `n`, as a string id). -/
structure Env where
  HashKey : ID → Int → Int
  NewRandom : Nat → Except GoError ID

/-- Interface `persistence.Reader`, as far as the merge calls it. Each method
returns what the Go method returns, the error last. -/
structure Reader where
  PathsWithPrefix : String → List String × Error
  ReadMeta : MetaData × Error
  ReadDocument : String → DocumentData × Bool × Error
  ReadResultChunk : Int → ResultChunkData × Bool × Error

/-- The receiver `*sqliteDatabase` seen through the methods `PatchDatabase` calls
on it: its reader side and the two bulk writes. -/
structure Database extends Reader where
  WriteDocuments : DocMap → Error
  WriteResultChunks : ChunkMap → Error

/-! ## `PatchDatabase` (database.go, lines 73-225) -/

/-- The four path sets declared on line 104, each a Go `map[string]struct{}` given
by its keys in iteration order. -/
structure Classification where
  reindexedPaths : List String
  deletedPaths : List String
  modifiedPaths : List String
  indexedPaths : List String
  deriving DecidableEq, Repr

/-- Line 104 as written: the four sets are declared and never populated. -/
def Classification.unpopulated : Classification :=
  { reindexedPaths := [], deletedPaths := [], modifiedPaths := [], indexedPaths := [] }

/-- Lines 77-81 and 92-96: one map entry per listed path, holding whatever
`ReadDocument` returned; its `exists` flag and error are discarded. -/
def loadDocuments (r : Reader) : DocMap :=
  (r.PathsWithPrefix "").1.foldl (fun m path => mapSet path (r.ReadDocument path).1 m) []

/-- The values taken by `id` in `for id := 0; id < n; id++`. -/
def chunkIDs (n : Int) : List Int :=
  (List.range n.toNat).map Int.ofNat

/-- Lines 83-87 and 98-102: one map entry per chunk index below `NumResultChunks`;
the `exists` flag and error of `ReadResultChunk` are discarded. -/
def loadResultChunks (r : Reader) : ChunkMap :=
  (chunkIDs r.ReadMeta.1.NumResultChunks).foldl
    (fun m id => mapSet id (r.ReadResultChunk id).1 m) []

/-- Statement `chunk.DocumentIDRangeIDs[id] = refs` where `chunk` is the struct copy
`chunks[chunkId]`: the struct shares its maps with the stored chunk, so the write
is seen in `chunks`; it panics when the map is nil (also when `chunkId` is not a
key of `chunks`, the copy then being the zero value). -/
def setEntryList (chunks : ChunkMap) (chunkId : Int) (id : ID)
    (refs : List DocumentIDRangeID) : Except Abort ChunkMap :=
  let chunk := mapGet chunks chunkId
  match chunk.DocumentIDRangeIDs with
  | none => .error (.panic .nilMapWrite)
  | some m => .ok (mapSet chunkId { chunk with DocumentIDRangeIDs := some (mapSet id refs m) } chunks)

/-- State of the purge loop: the base chunks and the set `deletedRefs`. -/
structure PurgeState where
  chunks : ChunkMap
  deletedRefs : List ID
  deriving DecidableEq, Repr

/-- Lines 109-123, the body of the purge loop for one range of a base document. -/
def purgeRange (env : Env) (baseN : Int) (modifiedPaths : List String)
    (st : PurgeState) (rng : RangeData) : Except Abort PurgeState :=
  if rng.ReferenceResultID ∈ st.deletedRefs then .ok st
  else
    let refChunkId := env.HashKey rng.ReferenceResultID baseN
    let refChunk := mapGet st.chunks refChunkId
    let refs := nilMapGet refChunk.DocumentIDRangeIDs rng.ReferenceResultID
    let filteredRefs := refs.filter
      (fun ref => decide (nilMapGet refChunk.DocumentPaths ref.DocumentID ∉ modifiedPaths))
    match setEntryList st.chunks refChunkId rng.ReferenceResultID filteredRefs with
    | .error a => .error a
    | .ok chunks => .ok { chunks := chunks, deletedRefs := rng.ReferenceResultID :: st.deletedRefs }

/-- A loop body run over a list, stopping at the first abnormal end. -/
def forEach {σ α : Type} (body : σ → α → Except Abort σ) : σ → List α → Except Abort σ
  | st, [] => .ok st
  | st, x :: xs =>
    match body st x with
    | .error a => .error a
    | .ok st1 => forEach body st1 xs

/-- Lines 107-125: for every path of `modifiedPaths`, every range of the base
document at that path. -/
def purge (env : Env) (baseN : Int) (modifiedPaths : List String) (baseDocuments : DocMap)
    (baseResultChunks : ChunkMap) : Except Abort PurgeState :=
  forEach
    (fun st documentPath =>
      forEach (purgeRange env baseN modifiedPaths) st
        ((mapGet baseDocuments documentPath).Ranges.map Prod.snd))
    { chunks := baseResultChunks, deletedRefs := [] } modifiedPaths

/-- Lines 127-132: drop the base documents of the reindexed and of the deleted paths. -/
def dropDocuments (cls : Classification) (baseDocuments : DocMap) : DocMap :=
  cls.deletedPaths.foldl (fun m p => mapDelete p m)
    (cls.reindexedPaths.foldl (fun m p => mapDelete p m) baseDocuments)

/-- In-memory `map[string]map[types.ID]types.RangeData` of line 134. -/
abbrev DefResults := List (String × List (ID × RangeData))

/-- Lines 139-151, the body of the collection loop for one range of a patch
document. The chunk consulted on line 141 is `baseResultChunks[defChunkId]`, with
`defChunkId` computed from the patch's chunk count; indexing `[0]` on line 142
panics when the entry list is missing or empty. -/
def collectRange (env : Env) (patchN : Int) (baseResultChunks : ChunkMap)
    (patchDocuments : DocMap) (defResultsByPath : DefResults) (rng : RangeData) :
    Except Abort DefResults :=
  if rng.DefinitionResultID ≠ "" then
    let defChunkId := env.HashKey rng.DefinitionResultID patchN
    let defChunk := mapGet baseResultChunks defChunkId
    match nilMapGet defChunk.DocumentIDRangeIDs rng.DefinitionResultID with
    | [] => .error (.panic .indexOutOfRange)
    | defLoc :: _ =>
      let defPath := nilMapGet defChunk.DocumentPaths defLoc.DocumentID
      let defn := mapGet (mapGet patchDocuments defPath).Ranges defLoc.RangeID
      let defResults := mapGet defResultsByPath defPath
      .ok (mapSet defPath (mapSet defLoc.RangeID defn defResults) defResultsByPath)
  else .ok defResultsByPath

/-- Lines 136-153: for every indexed path, every range of the patch document. -/
def collectDefinitions (env : Env) (patchN : Int) (indexedPaths : List String)
    (baseResultChunks : ChunkMap) (patchDocuments : DocMap) : Except Abort DefResults :=
  forEach
    (fun acc path =>
      forEach (collectRange env patchN baseResultChunks patchDocuments) acc
        ((mapGet patchDocuments path).Ranges.map Prod.snd))
    [] indexedPaths

/-- Lines 164-168, `sort.Slice` with `CompareRanges(a, b) < 0` as the order: the
ranges in ascending position order (ranges at equal positions keep their order). -/
def sortRanges (l : List RangeData) : List RangeData :=
  l.insertionSort (fun a b => CompareRanges a b ≤ 0)

/-- Lines 172-174, `for ; CompareRanges(baseRng, def) < 0; baseIdx++` with body
`baseRng = baseRngs[baseIdx+1]`. The argument `rest` is `baseRngs[baseIdx+1:]`, so
the index expression panics exactly when `rest` is empty. -/
def advance (defn : RangeData) :
    RangeData → List RangeData → Nat → Except Abort (RangeData × List RangeData × Nat)
  | baseRng, rest, baseIdx =>
    if CompareRanges baseRng defn < 0 then
      match rest with
      | [] => .error (.panic .indexOutOfRange)
      | next :: rest1 => advance defn next rest1 (baseIdx + 1)
    else .ok (baseRng, rest, baseIdx)

/-- State of the loop of lines 196-212: the reverse directory `baseDocumentIDs`, the
map `baseChunk.DocumentPaths`, the slice `baseRefs`, and the number of calls made
to `uuid.NewRandom` so far. -/
structure TranslateState where
  baseDocumentIDs : List (String × ID)
  documentPaths : Option (List (ID × String))
  baseRefs : List DocumentIDRangeID
  calls : Nat
  deriving DecidableEq, Repr

/-- Lines 197-211, the loop body for one patch entry. Lines 210-211 copy a range
into the local `rng` and assign to the copy, which changes no document. -/
def translateRef (env : Env) (patchChunk : ResultChunkData) (st : TranslateState)
    (ref : DocumentIDRangeID) : Except Abort TranslateState :=
  let path := nilMapGet patchChunk.DocumentPaths ref.DocumentID
  match mapGet? st.baseDocumentIDs path with
  | some baseDocumentID =>
    .ok { st with baseRefs := st.baseRefs ++ [{ ref with DocumentID := baseDocumentID }] }
  | none =>
    match env.NewRandom st.calls with
    | .error err => .error (.fail err)
    | .ok baseDocumentID =>
      match st.documentPaths with
      | none => .error (.panic .nilMapWrite)
      | some dp =>
        .ok { baseDocumentIDs := mapSet path baseDocumentID st.baseDocumentIDs
              documentPaths := some (mapSet baseDocumentID path dp)
              baseRefs := st.baseRefs ++ [{ ref with DocumentID := baseDocumentID }]
              calls := st.calls + 1 }

/-- Lines 192-195: the reverse of a chunk's document directory. -/
def reverseDirectory (documentPaths : Option (List (ID × String))) : List (String × ID) :=
  (match documentPaths with | none => [] | some dp => dp).foldl
    (fun (m : List (String × ID)) (e : ID × String) => mapSet e.2 e.1 m) []

/-- State of the loop of lines 171-214: the cursor into the sorted base ranges
(`baseRng`, `baseRngs[baseIdx+1:]`, `baseIdx`), the base chunks, the calls made to
`uuid.NewRandom`. -/
structure PairState where
  baseRng : RangeData
  rest : List RangeData
  baseIdx : Nat
  chunks : ChunkMap
  calls : Nat
  deriving DecidableEq, Repr

/-- Lines 180-187: the merge target id, the base range's `ReferenceResultID` when
the positions are equal and a new random id otherwise. -/
def chooseTarget (env : Env) (baseRng defn : RangeData) (calls : Nat) : Except Abort (ID × Nat) :=
  if CompareRanges baseRng defn ≠ 0 then
    match env.NewRandom calls with
    | .error err => .error (.fail err)
    | .ok id => .ok (id, calls + 1)
  else .ok (baseRng.ReferenceResultID, calls)

/-- Lines 172-213, the loop body for one collected definition range. -/
def mergeDefinition (env : Env) (baseN patchN : Int) (patchResultChunks : ChunkMap)
    (st : PairState) (defn : RangeData) : Except Abort PairState :=
  match advance defn st.baseRng st.rest st.baseIdx with
  | .error a => .error a
  | .ok (baseRng, rest, baseIdx) =>
    let patchChunkId := env.HashKey defn.ReferenceResultID patchN
    let patchChunk := mapGet patchResultChunks patchChunkId
    let patchRefs := nilMapGet patchChunk.DocumentIDRangeIDs defn.ReferenceResultID
    match chooseTarget env baseRng defn st.calls with
    | .error a => .error a
    | .ok (baseReferenceResultID, calls) =>
      let baseChunkId := env.HashKey baseReferenceResultID baseN
      let baseChunk := mapGet st.chunks baseChunkId
      let baseRefs := nilMapGet baseChunk.DocumentIDRangeIDs baseReferenceResultID
      match forEach (translateRef env patchChunk)
          { baseDocumentIDs := reverseDirectory baseChunk.DocumentPaths
            documentPaths := baseChunk.DocumentPaths
            baseRefs := baseRefs
            calls := calls } patchRefs with
      | .error a => .error a
      | .ok t =>
        match baseChunk.DocumentIDRangeIDs with
        | none => .error (.panic .nilMapWrite)
        | some m =>
          .ok { baseRng := baseRng, rest := rest, baseIdx := baseIdx
                chunks := mapSet baseChunkId
                  { DocumentPaths := t.documentPaths
                    DocumentIDRangeIDs := some (mapSet baseReferenceResultID t.baseRefs m) }
                  st.chunks
                calls := t.calls }

/-- State carried across the loop of lines 155-215. -/
structure MergeState where
  chunks : ChunkMap
  calls : Nat
  deriving DecidableEq, Repr

/-- Lines 156-214, the loop body for one path of `defResultsByPath`. Line 170 reads
`baseRngs[0]` and panics when the base has no range at that path. -/
def mergePath (env : Env) (baseN patchN : Int) (baseDocuments : DocMap)
    (patchResultChunks : ChunkMap) (st : MergeState)
    (entry : String × List (ID × RangeData)) : Except Abort MergeState :=
  let baseRngs := sortRanges ((mapGet baseDocuments entry.1).Ranges.map Prod.snd)
  let defsSlice := sortRanges (entry.2.map Prod.snd)
  match baseRngs with
  | [] => .error (.panic .indexOutOfRange)
  | baseRng :: rest =>
    match forEach (mergeDefinition env baseN patchN patchResultChunks)
        { baseRng := baseRng, rest := rest, baseIdx := 0, chunks := st.chunks, calls := st.calls }
        defsSlice with
    | .error a => .error a
    | .ok p => .ok { chunks := p.chunks, calls := p.calls }

/-- Lines 217-219: adopt the patch document of every indexed path. -/
def adoptDocuments (indexedPaths : List String) (patchDocuments baseDocuments : DocMap) : DocMap :=
  indexedPaths.foldl (fun m path => mapSet path (mapGet patchDocuments path) m) baseDocuments

/-- What a run of `PatchDatabase` that returns did: the argument of each write it
made (`none` when the write was not reached) and the returned error. -/
structure PatchResult where
  writtenDocuments : Option DocMap
  writtenResultChunks : Option ChunkMap
  err : Error
  deriving DecidableEq, Repr

/-- The in-memory transform of lines 104-219 on the loaded maps: the document map
and chunk map that reach the writes. -/
def transform (env : Env) (cls : Classification) (baseN patchN : Int)
    (baseDocuments : DocMap) (baseResultChunks : ChunkMap)
    (patchDocuments : DocMap) (patchResultChunks : ChunkMap) : Except Abort (DocMap × ChunkMap) :=
  match purge env baseN cls.modifiedPaths baseDocuments baseResultChunks with
  | .error a => .error a
  | .ok purged =>
    let baseDocuments1 := dropDocuments cls baseDocuments
    match collectDefinitions env patchN cls.indexedPaths purged.chunks patchDocuments with
    | .error a => .error a
    | .ok defResultsByPath =>
      match forEach (mergePath env baseN patchN baseDocuments1 patchResultChunks)
          { chunks := purged.chunks, calls := 0 } defResultsByPath with
      | .error a => .error a
      | .ok merged =>
        .ok (adoptDocuments cls.indexedPaths patchDocuments baseDocuments1, merged.chunks)

/-- Body of `PatchDatabase` (lines 74-224) with the four path sets of line 104 as
an argument. Every error of the load phase is overwritten or discarded; the error
of `WriteDocuments` is overwritten by the one of `WriteResultChunks`. A panic is
the `error` outcome. -/
def PatchDatabaseWith (env : Env) (cls : Classification) (base : Database) (patch : Reader) :
    Except Panic PatchResult :=
  let patchMeta := patch.ReadMeta.1
  let patchDocuments := loadDocuments patch
  let patchResultChunks := loadResultChunks patch
  let baseMeta := base.ReadMeta.1
  let baseDocuments := loadDocuments base.toReader
  let baseResultChunks := loadResultChunks base.toReader
  match transform env cls baseMeta.NumResultChunks patchMeta.NumResultChunks
      baseDocuments baseResultChunks patchDocuments patchResultChunks with
  | .error (.panic p) => .error p
  | .error (.fail err) => .ok { writtenDocuments := none, writtenResultChunks := none, err := some err }
  | .ok (documents, resultChunks) =>
    let _err := base.WriteDocuments documents
    let err := base.WriteResultChunks resultChunks
    .ok { writtenDocuments := some documents, writtenResultChunks := some resultChunks, err := err }

/-- Method `(*sqliteDatabase).PatchDatabase` as written: the path sets are the
unpopulated ones of line 104. -/
def PatchDatabase (env : Env) (base : Database) (patch : Reader) : Except Panic PatchResult :=
  PatchDatabaseWith env Classification.unpopulated base patch

/-! ## `Close` (database.go, lines 227-236) -/

/-- The two fields of `sqliteDatabase` that `Close` uses: `store.Done`, which
finishes the transaction and returns its error combined with the one passed in,
and the `closer` callback. -/
structure Closing where
  Done : Error → Error
  closer : Unit → Error

/-- Method `(*sqliteDatabase).Close`. -/
def Close (db : Closing) (err : Error) : Error :=
  let err := db.Done err
  match db.closer () with
  | some closeErr => some (multierrorAppend err (some closeErr))
  | none => none

/-! ## `MergeDBs` (merge.go, lines 13-47) -/

/-- Files by path, each with its content. -/
abbrev FileSystem := List (String × String)

/-- Outcomes of the calls `MergeDBs` makes outside this package and of the two
constructors: `ioutil.TempDir`, `os.OpenFile`, `os.Open`, `io.Copy`,
`cache.NewDataCache`, `NewDatabase` (which returns a nil database exactly when it
returns an error), `NewReader`, `os.Rename`; `persist` is the working file's new
content once the store has run the writes of a `PatchDatabase` call. -/
structure System where
  TempDir : String × Error
  OpenFile : String → Error
  Open : String → Error
  Copy : Error
  NewDataCache : Error
  NewDatabase : String → Except GoError Database
  NewReader : String → Option Reader × Error
  persist : PatchResult → String → String
  Rename : String → String → Error

/-- Effect of `os.RemoveAll(dir)`: every file below `dir` is gone. -/
def RemoveAll (dir : String) (fs : FileSystem) : FileSystem :=
  fs.filter (fun e => !((dir ++ "/").toList.isPrefixOf e.1.toList))

/-- Effect of a successful `os.Rename(src, dst)`. -/
def renameFile (src dst : String) (fs : FileSystem) : FileSystem :=
  match mapGet? fs src with
  | none => fs
  | some content => mapSet dst content (mapDelete src fs)

/-- Lines 22-36: create the working file and copy the base file into it. -/
def copyBase (sys : System) (fs : FileSystem) (tempBundleFile baseBundleFile : String) :
    Error × FileSystem :=
  match sys.OpenFile tempBundleFile with
  | some err => (some err, fs)
  | none =>
    let fs1 := mapSet tempBundleFile "" fs
    match sys.Open baseBundleFile, mapGet? fs1 baseBundleFile with
    | some err, _ => (some err, fs1)
    | none, none => (some (.plain "no such file or directory"), fs1)
    | none, some content =>
      match sys.Copy with
      | some err => (some err, fs1)
      | none => (none, mapSet tempBundleFile content fs1)

/-- Lines 20-46, everything after the deferred `os.RemoveAll`. The errors of lines
41-44 are each overwritten by the next assignment and line 46 returns the error of
`os.Rename`; a nil database or reader makes the method call on it panic. -/
def mergeBody (env : Env) (sys : System) (fs : FileSystem)
    (tempBundleFile baseBundleFile patchBundleFile resultBundleFile : String) :
    Except Panic Error × FileSystem :=
  match copyBase sys fs tempBundleFile baseBundleFile with
  | (some err, fs1) => (.ok (some err), fs1)
  | (none, fs1) =>
    match sys.NewDatabase tempBundleFile with
    | .error _ => (.error .nilDereference, fs1)
    | .ok tempBundleDB =>
      match (sys.NewReader patchBundleFile).1 with
      | none => (.error .nilDereference, fs1)
      | some patchBundleDB =>
        match PatchDatabase env tempBundleDB patchBundleDB with
        | .error p => (.error p, fs1)
        | .ok res =>
          let fs2 := mapSet tempBundleFile (sys.persist res (mapGet fs1 tempBundleFile)) fs1
          match sys.Rename tempBundleFile resultBundleFile with
          | some err => (.ok (some err), fs2)
          | none => (.ok none, renameFile tempBundleFile resultBundleFile fs2)

/-- Function `MergeDBs`: the returned error (or the panic) and the file system it
leaves. The deferred `os.RemoveAll(tempDir)` runs on every exit after line 18. -/
def MergeDBs (env : Env) (sys : System) (fs : FileSystem)
    (baseBundleFile patchBundleFile resultBundleFile : String) :
    Except Panic Error × FileSystem :=
  match sys.TempDir with
  | (_, some err) => (.ok (some err), fs)
  | (tempDir, none) =>
    let out := mergeBody env sys fs (tempDir ++ "/tempBundle") baseBundleFile patchBundleFile
      resultBundleFile
    (out.1, RemoveAll tempDir out.2)

/-! ## Vocabulary of the statements -/

/-- The entry list stored for result id `r` in chunk `c` of a chunk map. -/
def entryList (chunks : ChunkMap) (c : Int) (r : ID) : List DocumentIDRangeID :=
  nilMapGet (mapGet chunks c).DocumentIDRangeIDs r

/-- The path a chunk-local document id resolves to in the directory of chunk `c`. -/
def resolvedPath (chunks : ChunkMap) (c : Int) (documentID : ID) : String :=
  nilMapGet (mapGet chunks c).DocumentPaths documentID

/-- The entries of `refs` whose document id resolves, in the directory of chunk `c`,
to a path outside `modifiedPaths`, in their order. -/
def keepUnmodified (modifiedPaths : List String) (chunks : ChunkMap) (c : Int)
    (refs : List DocumentIDRangeID) : List DocumentIDRangeID :=
  refs.filter (fun ref => decide (resolvedPath chunks c ref.DocumentID ∉ modifiedPaths))

/-- Invariant of the purge loop with respect to the loaded chunks `chunks0`: no
directory has changed, and an entry list differs from the loaded one exactly when
its id is in `deletedRefs` and it sits in the chunk the id hashes to, where it is
the loaded list without the entries of modified paths. -/
def PurgeInv (env : Env) (baseN : Int) (modifiedPaths : List String) (chunks0 : ChunkMap)
    (st : PurgeState) : Prop :=
  (∀ c, (mapGet st.chunks c).DocumentPaths = (mapGet chunks0 c).DocumentPaths) ∧
  (∀ c r, entryList st.chunks c r =
    if r ∈ st.deletedRefs ∧ c = env.HashKey r baseN
    then keepUnmodified modifiedPaths chunks0 c (entryList chunks0 c r)
    else entryList chunks0 c r)

/-! ## Concrete bundles -/

/-- A one-chunk sharding and a random source that never fails: call `n` yields the
id made of `n + 1` letters `u`. -/
def demoEnv : Env :=
  { HashKey := fun _ _ => 0
    NewRandom := fun n => .ok (String.mk (List.replicate (n + 1) 'u')) }

/-- A reader over given document and chunk maps; no read fails. -/
def memReader (docs : DocMap) (chunks : ChunkMap) : Reader :=
  { PathsWithPrefix := fun _ => (docs.map Prod.fst, none)
    ReadMeta := ({ NumResultChunks := chunks.length }, none)
    ReadDocument := fun p => (mapGet docs p, (mapGet? docs p).isSome, none)
    ReadResultChunk := fun i => (mapGet chunks i, (mapGet? chunks i).isSome, none) }

/-- A database over given maps whose reads and writes all succeed. -/
def memDatabase (docs : DocMap) (chunks : ChunkMap) : Database :=
  { toReader := memReader docs chunks
    WriteDocuments := fun _ => none
    WriteResultChunks := fun _ => none }

/-- Base documents: `a` defines `foo` at range `ra1`; `b` and `c` each reference it. -/
def fooBaseDocs : DocMap :=
  [("a", { Ranges := [("ra1", ⟨0, 0, 0, 3, "defFoo", "refFoo"⟩)] }),
   ("b", { Ranges := [("rb1", ⟨1, 0, 1, 3, "defFoo", "refFoo"⟩)] }),
   ("c", { Ranges := [("rc1", ⟨2, 0, 2, 3, "defFoo", "refFoo"⟩)] })]

/-- Base chunk: the definition of `foo` is in `a`, its referrers are in `b` and `c`. -/
def fooBaseChunk : ResultChunkData :=
  { DocumentPaths := some [("da", "a"), ("db", "b"), ("dc", "c")]
    DocumentIDRangeIDs := some
      [("defFoo", [⟨"da", "ra1"⟩]), ("refFoo", [⟨"db", "rb1"⟩, ⟨"dc", "rc1"⟩])] }

/-- The base bundle of the `foo` scenario. -/
def fooBase : Database := memDatabase fooBaseDocs [(0, fooBaseChunk)]

/-- Patch documents: `a` with the definition of `foo` at the same position, under
the patch's own ids; `b` reindexed without any range; `d` new, referencing `foo`. -/
def fooPatchDocs : DocMap :=
  [("a", { Ranges := [("pra1", ⟨0, 0, 0, 3, "pdef", "pref"⟩)] }),
   ("b", { Ranges := [] }),
   ("d", { Ranges := [("rd1", ⟨5, 0, 5, 3, "pdef", "pref"⟩)] })]

/-- Patch chunk: the definition of `foo` is in `a`, its one referrer is in `d`. -/
def fooPatchChunk : ResultChunkData :=
  { DocumentPaths := some [("pa", "a"), ("pd", "d")]
    DocumentIDRangeIDs := some [("pdef", [⟨"pa", "pra1"⟩]), ("pref", [⟨"pd", "rd1"⟩])] }

/-- The patch bundle of the `foo` scenario. -/
def fooPatch : Reader := memReader fooPatchDocs [(0, fooPatchChunk)]

/-- The `foo` scenario classified: `b` reindexed (and in the purge set), `b` and
`d` adopted. -/
def fooClassification : Classification :=
  { reindexedPaths := ["b"], deletedPaths := [], modifiedPaths := ["b"], indexedPaths := ["b", "d"] }

/-- A patch without documents and without chunks. -/
def emptyPatch : Reader := memReader [] []

/-- Base documents: `p` holds the definition of a symbol, `q` a reference to it. -/
def symBaseDocs : DocMap :=
  [("p", { Ranges := [("r1", ⟨0, 0, 0, 3, "def1", "ref1"⟩)] }),
   ("q", { Ranges := [("r2", ⟨1, 0, 1, 3, "def1", "ref1"⟩)] })]

/-- Base chunk: definition site in `p`; reference sites in `p` (the definition
itself) and in `q`. -/
def symBaseChunk : ResultChunkData :=
  { DocumentPaths := some [("dp", "p"), ("dq", "q")]
    DocumentIDRangeIDs := some
      [("def1", [⟨"dp", "r1"⟩]), ("ref1", [⟨"dp", "r1"⟩, ⟨"dq", "r2"⟩])] }

/-- The base bundle with the symbol defined in `p`. -/
def symBase : Database := memDatabase symBaseDocs [(0, symBaseChunk)]

/-- Path `p` deleted, and also in the set the purge loop ranges over. -/
def deleteP : Classification :=
  { reindexedPaths := [], deletedPaths := ["p"], modifiedPaths := ["p"], indexedPaths := [] }

/-- A patch with the single new document `n`, which defines and references a
symbol of its own and nothing of the base. -/
def newDocPatch : Reader :=
  memReader [("n", { Ranges := [("rn1", ⟨0, 0, 0, 3, "ndef", "nref"⟩)] })]
    [(0, { DocumentPaths := some [("pn", "n")]
           DocumentIDRangeIDs := some [("ndef", [⟨"pn", "rn1"⟩]), ("nref", [⟨"pn", "rn1"⟩])] })]

/-- Only `n` is classified, as added. -/
def addN : Classification :=
  { reindexedPaths := [], deletedPaths := [], modifiedPaths := [], indexedPaths := ["n"] }

/-- The `foo` base with a `ReadMeta` that fails, returning the zero meta data. -/
def metaFailsBase : Database :=
  { fooBase with
    ReadMeta := ({ NumResultChunks := 0 }, some (.plain "database is locked")) }

/-- The `foo` base with a `WriteDocuments` that fails and a `WriteResultChunks` that
succeeds. -/
def docWriteFailsBase : Database :=
  { fooBase with WriteDocuments := fun _ => some (.plain "disk full") }

/-- The `foo` base with a `WriteResultChunks` that fails. -/
def chunkWriteFailsBase : Database :=
  { fooBase with WriteResultChunks := fun _ => some (.plain "disk full") }

/-- A system in which every call outside `PatchDatabase` succeeds; the working
copy opens as `chunkWriteFailsBase`, the patch as `emptyPatch`. -/
def demoSystem : System :=
  { TempDir := ("/tmp/merge1", none)
    OpenFile := fun _ => none
    Open := fun _ => none
    Copy := none
    NewDataCache := none
    NewDatabase := fun _ => .ok chunkWriteFailsBase
    NewReader := fun _ => (some emptyPatch, none)
    persist := fun _ content => content
    Rename := fun _ _ => none }

/-- A file system holding a base bundle and a patch bundle and no result file. -/
def demoFiles : FileSystem := [("base.db", "BASE"), ("patch.db", "PATCH")]

/-- A store whose `Done` hands back the error it is given, and a closer that
succeeds. -/
def demoClosing : Closing :=
  { Done := fun err => err
    closer := fun _ => none }

/-- A base chunk that happens to hold an entry list under the patch id `pdef`,
pointing at range `r9` of a path `zzz`. -/
def shadowBaseChunk : ResultChunkData :=
  { DocumentPaths := some [("x1", "zzz")]
    DocumentIDRangeIDs := some [("pdef", [⟨"x1", "r9"⟩])] }

/-- Path `b` reindexed, purged and adopted; nothing else classified. -/
def reindexB : Classification :=
  { reindexedPaths := ["b"], deletedPaths := [], modifiedPaths := ["b"], indexedPaths := ["b"] }

/-- The documents written when `fooPatch` is merged into `fooBase` under `reindexB`. -/
def reindexBDocs : DocMap :=
  [("a", { Ranges := [("ra1", ⟨0, 0, 0, 3, "defFoo", "refFoo"⟩)] }),
   ("c", { Ranges := [("rc1", ⟨2, 0, 2, 3, "defFoo", "refFoo"⟩)] }),
   ("b", { Ranges := [] })]

/-- The chunks written when `fooPatch` is merged into `fooBase` under `reindexB`. -/
def reindexBChunks : ChunkMap :=
  [(0, { DocumentPaths := some [("da", "a"), ("db", "b"), ("dc", "c")]
         DocumentIDRangeIDs := some
           [("defFoo", [⟨"da", "ra1"⟩]), ("refFoo", [⟨"dc", "rc1"⟩])] })]

/-- The whole result of merging `fooPatch` into `fooBase` under `reindexB`. -/
def reindexBResult : PatchResult :=
  { writtenDocuments := some reindexBDocs, writtenResultChunks := some reindexBChunks, err := none }

/-- The chunks written when `emptyPatch` is merged into `symBase` under `deleteP`. -/
def deletePChunks : ChunkMap :=
  [(0, { DocumentPaths := some [("dp", "p"), ("dq", "q")]
         DocumentIDRangeIDs := some [("def1", [⟨"dp", "r1"⟩]), ("ref1", [⟨"dq", "r2"⟩])] })]

/-- The whole result of merging `emptyPatch` into `symBase` under `deleteP`. -/
def deletePResult : PatchResult :=
  { writtenDocuments := some [("q", { Ranges := [("r2", ⟨1, 0, 1, 3, "def1", "ref1"⟩)] })]
    writtenResultChunks := some deletePChunks
    err := none }

/-! ## `IDSet` (executor/internal/worker/idset.go) -/

/-- A `context.CancelFunc` held by the table, identified by a number; a call of it
is recorded in the list of calls a method returns. Handles are non-nil functions. -/
abbrev CancelFunc := Nat

/-- Type `IDSet`: the map `ids`. The embedded lock makes each method atomic and is
not modelled. -/
structure IDSet where
  ids : List (Int × CancelFunc)
  deriving DecidableEq, Repr

/-- Function `newIDSet`. -/
def newIDSet : IDSet := { ids := [] }

/-- Method `(*IDSet).Add`: the table afterwards and the returned flag. -/
def IDSet.Add (i : IDSet) (id : Int) (cancel : CancelFunc) : IDSet × Bool :=
  match mapGet? i.ids id with
  | some _ => (i, false)
  | none => ({ ids := mapSet id cancel i.ids }, true)

/-- Method `(*IDSet).Remove`: the table afterwards and the handles called, in
order. -/
def IDSet.Remove (i : IDSet) (id : Int) : IDSet × List CancelFunc :=
  let found := mapGet? i.ids id
  let i1 : IDSet := { ids := mapDelete id i.ids }
  match found with
  | some cancel => (i1, [cancel])
  | none => (i1, [])

/-- Method `(*IDSet).Slice`: the table afterwards and the returned slice, the keys
sorted by `sort.Ints`. -/
def IDSet.Slice (i : IDSet) : IDSet × List Int :=
  (i, (i.ids.map Prod.fst).insertionSort (fun a b => a ≤ b))

/-- A call made on the table. -/
inductive IDSetCall where
  | add (id : Int) (cancel : CancelFunc)
  | remove (id : Int)
  deriving DecidableEq, Repr

/-- One call on a table, together with the ids that were added with `Add`
returning true and not removed since. -/
def IDSet.track (st : IDSet × List Int) (call : IDSetCall) : IDSet × List Int :=
  match call with
  | .add id cancel =>
    let r := st.1.Add id cancel
    (r.1, if r.2 then id :: st.2 else st.2)
  | .remove id => ((st.1.Remove id).1, st.2.filter (fun j => decide (j ≠ id)))

/-- The table reached from `newIDSet` by a sequence of calls, with its live ids. -/
def IDSet.replay (calls : List IDSetCall) : IDSet × List Int :=
  calls.foldl IDSet.track (newIDSet, [])

/-! ## `DrawLocations` (lsif-index-tester/range_differ.go) -/

/-- Modelled from the spec: the declaration of `Position` is not part of the
sources at hand; its fields are the ones `range_differ.go` and its test use, Go
`int`s, whose values lie from `-2^63` up to `2^63 - 1`. -/
structure Position where
  Line : Int
  Character : Int
  deriving DecidableEq, Repr, Inhabited

/-- Modelled from the spec: the declaration of `Range` is not part of the sources
at hand; its fields are the ones `range_differ.go` and its test use. -/
structure Range where
  Start : Position
  End : Position
  deriving DecidableEq, Repr, Inhabited

/-- Modelled from the spec: the declaration of `Location` is not part of the
sources at hand; its fields are the ones `range_differ.go` and its test use. -/
structure Location where
  URI : String
  Range : Range
  deriving DecidableEq, Repr, Inhabited

/-- Function `sameLine` (lines 10-14). -/
def sameLine (a b : Location) : Bool :=
  decide (a.Range.Start.Line = b.Range.Start.Line) &&
    decide (a.Range.End.Line = b.Range.End.Line) &&
    decide (a.Range.Start.Line = a.Range.End.Line)

/-- Function `header` (lines 16-18): `fmt.Sprintf("%s:%d", ...)`. -/
def header (l : Location) : String :=
  l.URI ++ ":" ++ toString l.Range.Start.Line

/-- The value a Go `int` of 64 bits holds after an operation whose exact result is
`x`: the arithmetic wraps around. -/
def wrapInt (x : Int) : Int :=
  (x + 2 ^ 63) % 2 ^ 64 - 2 ^ 63

/-- Constant `maxAlloc` of the Go runtime on platforms of 64 bits: `make` panics
when more bytes are asked for. -/
def maxAlloc : Int := 2 ^ 48

/-- Library `strings.Repeat(s, count)` for a string `s` of one byte: it panics on a
negative count, and otherwise makes a buffer of `count` bytes, for which `make`
panics above `maxAlloc`. Below that bound the process may still run out of memory,
which is a fatal error of the process and not a panic; it is not modelled. -/
def stringsRepeat (c : Char) (count : Int) : Except Panic String :=
  if count < 0 then .error .negativeRepeatCount
  else if count > maxAlloc then .error .makesliceOutOfRange
  else .ok (String.mk (List.replicate count.toNat c))

/-- Function `lineCarets` (lines 19-26). The subtraction is the one of Go's `int`
and wraps around. -/
def lineCarets (r : Range) (name : String) : Except Panic String :=
  match stringsRepeat ' ' r.Start.Character with
  | .error p => .error p
  | .ok spaces =>
    match stringsRepeat '^' (wrapInt (r.End.Character - r.Start.Character)) with
    | .error p => .error p
    | .ok carets => .ok (spaces ++ carets ++ " " ++ name)

/-- The pieces of a character list between line feeds, the piece being read given
in reverse. -/
def splitAtLineFeeds : List Char → List Char → List String
  | piece, [] => [String.mk piece.reverse]
  | piece, c :: rest =>
    if c = '\n' then String.mk piece.reverse :: splitAtLineFeeds [] rest
    else splitAtLineFeeds (c :: piece) rest

/-- Library `strings.Split(s, "\n")`: never empty, one more piece than line
feeds. -/
def stringsSplit (s : String) : List String :=
  splitAtLineFeeds [] s.toList

/-- Function `DrawLocations` (lines 35-63): the returned string and error, or the
panic of an index or repeat count out of range. -/
def DrawLocations (contents : String) (expected actual : Location) :
    Except Panic (String × Error) :=
  if expected.URI ≠ actual.URI then
    .ok ("", some (.plain "Must pass in two locations with the same URI"))
  else if expected = actual then
    .ok ("", some (.plain "You can't pass in two locations that are the same"))
  else
    let splitLines := stringsSplit contents
    if sameLine expected actual then
      let line := expected.Range.Start.Line
      if line > (splitLines.length : Int) then
        .ok ("", some (.plain "Line does not exist in contents"))
      else if line < 0 then .error .indexOutOfRange
      else
        match splitLines[line.toNat]? with
        | none => .error .indexOutOfRange
        | some lineText =>
          match lineCarets expected.Range "expected" with
          | .error p => .error p
          | .ok first =>
            match lineCarets actual.Range "actual" with
            | .error p => .error p
            | .ok second =>
              .ok (header expected ++ "\n" ++ lineText ++ "\n" ++ first ++ "\n" ++ second, none)
    else .ok ("failed", none)

/-! ## More vocabulary and bundles for the pairing loop -/

/-- The entry list stored under `r` in chunk `c`, `none` when the chunk holds no
list under `r` (or is missing, or has a nil map). -/
def entryList? (chunks : ChunkMap) (c : Int) (r : ID) : Option (List DocumentIDRangeID) :=
  match (mapGet chunks c).DocumentIDRangeIDs with
  | none => none
  | some m => mapGet? m r

/-- Patch documents that use the ids of the `foo` base: `a` with the definition of
`foo` under the base's range id and definition id, `b` without ranges, the new
document `d` referencing `foo`. -/
def sharedPatchDocs : DocMap :=
  [("a", { Ranges := [("ra1", ⟨0, 0, 0, 3, "defFoo", "pref"⟩)] }),
   ("b", { Ranges := [] }),
   ("d", { Ranges := [("rd1", ⟨5, 0, 5, 3, "defFoo", "pref"⟩)] })]

/-- Patch chunk going with `sharedPatchDocs`. -/
def sharedPatchChunk : ResultChunkData :=
  { DocumentPaths := some [("pa", "a"), ("pd", "d")]
    DocumentIDRangeIDs := some [("defFoo", [⟨"pa", "ra1"⟩]), ("pref", [⟨"pd", "rd1"⟩])] }

/-- The patch bundle that shares its definition and range ids with `fooBase`. -/
def sharedPatch : Reader := memReader sharedPatchDocs [(0, sharedPatchChunk)]

/-- The documents written when `sharedPatch` is merged into `fooBase` under
`fooClassification`. -/
def sharedDocs : DocMap :=
  [("a", { Ranges := [("ra1", ⟨0, 0, 0, 3, "defFoo", "refFoo"⟩)] }),
   ("c", { Ranges := [("rc1", ⟨2, 0, 2, 3, "defFoo", "refFoo"⟩)] }),
   ("b", { Ranges := [] }),
   ("d", { Ranges := [("rd1", ⟨5, 0, 5, 3, "defFoo", "pref"⟩)] })]

/-- The chunks written when `sharedPatch` is merged into `fooBase` under
`fooClassification`: the entry of `d` is appended to the list of `refFoo` under the
new document id `u`. -/
def sharedChunks : ChunkMap :=
  [(0, { DocumentPaths := some [("da", "a"), ("db", "b"), ("dc", "c"), ("u", "d")]
         DocumentIDRangeIDs := some
           [("defFoo", [⟨"da", "ra1"⟩]), ("refFoo", [⟨"dc", "rc1"⟩, ⟨"u", "rd1"⟩])] })]

/-- A patch in which the definition of `foo` in `a` has moved to line 5, below every
range the base has in `a`; ids shared with `fooBase`. -/
def movedPatch : Reader :=
  memReader [("a", { Ranges := [("ra1", ⟨5, 0, 5, 3, "defFoo", "pref"⟩)] })]
    [(0, { DocumentPaths := some [("pa", "a")]
           DocumentIDRangeIDs := some [("defFoo", [⟨"pa", "ra1"⟩]), ("pref", [])] })]

/-- Only `a` is classified, as adopted. -/
def adoptA : Classification :=
  { reindexedPaths := [], deletedPaths := [], modifiedPaths := [], indexedPaths := ["a"] }

/-- A base whose definition result `defFoo` starts with an entry for a range id
`ghost` that no document has. -/
def ghostBase : Database :=
  memDatabase [("a", { Ranges := [("ra1", ⟨0, 0, 0, 3, "defFoo", "refFoo"⟩)] })]
    [(0, { DocumentPaths := some [("da", "a")]
           DocumentIDRangeIDs := some [("defFoo", [⟨"da", "ghost"⟩]), ("refFoo", [])] })]

/-- A patch adding `d`, whose range refers to `defFoo`; the first entry of that
definition result names the range id `ghost`, which no document has. -/
def ghostPatch : Reader :=
  memReader [("d", { Ranges := [("rd1", ⟨5, 0, 5, 3, "defFoo", "pref"⟩)] })]
    [(0, { DocumentPaths := some [("pa", "a"), ("pd", "d")]
           DocumentIDRangeIDs := some [("defFoo", [⟨"pa", "ghost"⟩]), ("pref", [⟨"pd", "rd1"⟩])] })]

/-- Only `d` is classified, as added. -/
def addD : Classification :=
  { reindexedPaths := [], deletedPaths := [], modifiedPaths := [], indexedPaths := ["d"] }

/-- The relation kept by every write of the merge: outside the chunk an id hashes
to, what is stored under the id does not change. -/
def SameElsewhere (env : Env) (baseN : Int) (a b : ChunkMap) : Prop :=
  ∀ c r, c ≠ env.HashKey r baseN → entryList? a c r = entryList? b c r

/-- What the pairing loop may do to a chunk map: to every entry list it appends
zero or more lists, each carrying the range ids of some patch entry list in the
patch's order. -/
def Appended (env : Env) (patchN : Int) (patchResultChunks : ChunkMap) (a b : ChunkMap) : Prop :=
  ∀ c t, ∃ batches : List (List DocumentIDRangeID),
    entryList b c t = entryList a c t ++ batches.flatten ∧
    ∀ batch ∈ batches, ∃ r,
      batch.map DocumentIDRangeID.RangeID =
        (entryList patchResultChunks (env.HashKey r patchN) r).map DocumentIDRangeID.RangeID

/-- The document ids of a chunk directory (none for a nil map). -/
def dirIDs (d : Option (List (ID × String))) : List ID :=
  match d with
  | none => []
  | some l => l.map Prod.fst

/-- The document ids of the directory of chunk `c`. -/
def directoryIDs (chunks : ChunkMap) (c : Int) : List ID :=
  dirIDs (mapGet chunks c).DocumentPaths

/-- The random source never yields an id twice, nor a document id of the given
chunks. -/
def FreshSource (env : Env) (chunks : ChunkMap) : Prop :=
  (∀ j k id, env.NewRandom j = .ok id → env.NewRandom k = .ok id → j = k) ∧
  (∀ k id c, env.NewRandom k = .ok id → id ∉ directoryIDs chunks c)

/-- A directory `d` after some translations, against the loaded directory `d0`:
its ids are distinct; the loaded ids are still there with their paths; every other
id came from one of the first `calls` calls of the random source and is the only
id of its path. -/
def DirInv (env : Env) (d0 d : Option (List (ID × String))) (calls : Nat) : Prop :=
  (dirIDs d).Nodup ∧
  (∀ id ∈ dirIDs d0, id ∈ dirIDs d ∧ nilMapGet d id = nilMapGet d0 id) ∧
  (∀ id ∈ dirIDs d, id ∉ dirIDs d0 →
    (∃ k, k < calls ∧ env.NewRandom k = .ok id) ∧
    ∀ id1 ∈ dirIDs d, nilMapGet d id1 = nilMapGet d id → id1 = id)

/-- Directory `d1` extends `d`: the ids of `d` are in `d1` with the same paths. -/
def DirExt (d d1 : Option (List (ID × String))) : Prop :=
  ∀ id ∈ dirIDs d, id ∈ dirIDs d1 ∧ nilMapGet d1 id = (nilMapGet d id : String)

/-- The reverse directory `rev` agrees with directory `d`. -/
def RevOK (d : Option (List (ID × String))) (rev : List (String × ID)) : Prop :=
  (∀ path id, mapGet? rev path = some id → id ∈ dirIDs d ∧ nilMapGet d id = path) ∧
  (∀ id ∈ dirIDs d, ∃ id1, mapGet? rev (nilMapGet d id) = some id1)

/-- Entry `x` translates the patch entry `e` of patch chunk `pc` into a chunk with
directory `d`: same range id, a document id of `d`, resolving to the path `e`
resolves to in the patch chunk. -/
def TranslatedFrom (patchResultChunks : ChunkMap) (pc : Int) (d : Option (List (ID × String)))
    (e x : DocumentIDRangeID) : Prop :=
  x.RangeID = e.RangeID ∧ x.DocumentID ∈ dirIDs d ∧
    nilMapGet d x.DocumentID = resolvedPath patchResultChunks pc e.DocumentID

/-- Invariant of the pairing loop against the chunks `chunks0` it started from:
every directory satisfies `DirInv`, and every entry list is the one of `chunks0`
followed by translations of patch entry lists. -/
def MergeInv (env : Env) (patchN : Int) (patchResultChunks chunks0 chunks : ChunkMap)
    (calls : Nat) : Prop :=
  (∀ c, DirInv env (mapGet chunks0 c).DocumentPaths (mapGet chunks c).DocumentPaths calls) ∧
  (∀ c t, ∃ batches : List (List DocumentIDRangeID),
    entryList chunks c t = entryList chunks0 c t ++ batches.flatten ∧
    ∀ batch ∈ batches, ∃ r,
      List.Forall₂
        (TranslatedFrom patchResultChunks (env.HashKey r patchN) (mapGet chunks c).DocumentPaths)
        (entryList patchResultChunks (env.HashKey r patchN) r) batch)

/-- The whole result of merging `sharedPatch` into `fooBase` under
`fooClassification`. -/
def sharedResult : PatchResult :=
  { writtenDocuments := some sharedDocs, writtenResultChunks := some sharedChunks, err := none }

/-- A base in which the two definitions `d1` and `d2`, both in `a`, share the
reference result `refFoo`, whose one referrer is in `c`. -/
def twinBase : Database :=
  memDatabase
    [("a", { Ranges := [("ra1", ⟨0, 0, 0, 3, "d1", "refFoo"⟩),
                        ("ra2", ⟨2, 0, 2, 3, "d2", "refFoo"⟩)] }),
     ("c", { Ranges := [("rc1", ⟨7, 0, 7, 3, "d1", "refFoo"⟩)] })]
    [(0, { DocumentPaths := some [("da", "a"), ("dc", "c")]
           DocumentIDRangeIDs := some
             [("d1", [⟨"da", "ra1"⟩]), ("d2", [⟨"da", "ra2"⟩]), ("refFoo", [⟨"dc", "rc1"⟩])] })]

/-- A patch adding `d`, which refers once to each of the two definitions; in the
patch too they share one reference result, `pref`, with the two entries of `d`. -/
def twinPatch : Reader :=
  memReader
    [("a", { Ranges := [("ra1", ⟨0, 0, 0, 3, "d1", "pref"⟩),
                        ("ra2", ⟨2, 0, 2, 3, "d2", "pref"⟩)] }),
     ("d", { Ranges := [("rd1", ⟨5, 0, 5, 3, "d1", "pref"⟩),
                        ("rd2", ⟨6, 0, 6, 3, "d2", "pref"⟩)] })]
    [(0, { DocumentPaths := some [("pa", "a"), ("pd", "d")]
           DocumentIDRangeIDs := some
             [("d1", [⟨"pa", "ra1"⟩]), ("d2", [⟨"pa", "ra2"⟩]),
              ("pref", [⟨"pd", "rd1"⟩, ⟨"pd", "rd2"⟩])] })]

/-- The chunks written when `twinPatch` is merged into `twinBase` under `addD`. -/
def twinChunks : ChunkMap :=
  [(0, { DocumentPaths := some [("da", "a"), ("dc", "c"), ("u", "d")]
         DocumentIDRangeIDs := some
           [("d1", [⟨"da", "ra1"⟩]), ("d2", [⟨"da", "ra2"⟩]),
            ("refFoo", [⟨"dc", "rc1"⟩, ⟨"u", "rd1"⟩, ⟨"u", "rd2"⟩, ⟨"u", "rd1"⟩, ⟨"u", "rd2"⟩])] })]

/-- The whole result of merging `twinPatch` into `twinBase` under `addD`. -/
def twinResult : PatchResult :=
  { writtenDocuments := some
      [("a", { Ranges := [("ra1", ⟨0, 0, 0, 3, "d1", "refFoo"⟩),
                          ("ra2", ⟨2, 0, 2, 3, "d2", "refFoo"⟩)] }),
       ("c", { Ranges := [("rc1", ⟨7, 0, 7, 3, "d1", "refFoo"⟩)] }),
       ("d", { Ranges := [("rd1", ⟨5, 0, 5, 3, "d1", "pref"⟩),
                          ("rd2", ⟨6, 0, 6, 3, "d2", "pref"⟩)] })]
    writtenResultChunks := some twinChunks
    err := none }

/-- A sharding over two chunks: `refFoo` hashes to chunk 1, every other id to
chunk 0. -/
def twoChunkEnv : Env :=
  { HashKey := fun r _ => if r = "refFoo" then 1 else 0
    NewRandom := fun n => .ok (String.mk (List.replicate (n + 1) 'u')) }

/-- A base with two chunks; chunk 0 holds a stray list under `refFoo`, which hashes
to chunk 1. -/
def twoChunkBase : Database :=
  memDatabase
    [("b", { Ranges := [("rb1", ⟨1, 0, 1, 3, "defFoo", "refFoo"⟩)] }),
     ("c", { Ranges := [("rc1", ⟨2, 0, 2, 3, "defFoo", "refFoo"⟩)] })]
    [(0, { DocumentPaths := some [("db", "b")]
           DocumentIDRangeIDs := some
             [("defFoo", [⟨"da", "ra1"⟩]), ("refFoo", [⟨"db", "stale"⟩])] }),
     (1, { DocumentPaths := some [("db", "b"), ("dc", "c")]
           DocumentIDRangeIDs := some [("refFoo", [⟨"db", "rb1"⟩, ⟨"dc", "rc1"⟩])] })]

/-- Path `b` in the purge set, nothing else classified. -/
def purgeB : Classification :=
  { reindexedPaths := [], deletedPaths := [], modifiedPaths := ["b"], indexedPaths := [] }

/-- The chunks written when `emptyPatch` is merged into `twoChunkBase` under
`purgeB`. -/
def twoChunkChunks : ChunkMap :=
  [(0, { DocumentPaths := some [("db", "b")]
         DocumentIDRangeIDs := some
           [("defFoo", [⟨"da", "ra1"⟩]), ("refFoo", [⟨"db", "stale"⟩])] }),
   (1, { DocumentPaths := some [("db", "b"), ("dc", "c")]
         DocumentIDRangeIDs := some [("refFoo", [⟨"dc", "rc1"⟩])] })]

/-- The whole result of merging `emptyPatch` into `twoChunkBase` under `purgeB`. -/
def twoChunkResult : PatchResult :=
  { writtenDocuments := some
      [("b", { Ranges := [("rb1", ⟨1, 0, 1, 3, "defFoo", "refFoo"⟩)] }),
       ("c", { Ranges := [("rc1", ⟨2, 0, 2, 3, "defFoo", "refFoo"⟩)] })]
    writtenResultChunks := some twoChunkChunks
    err := none }

/-- The whole result of merging `ghostPatch` into `ghostBase` under `addD`: the
merge went on with the zero range and minted the id `u` for it. -/
def ghostResult : PatchResult :=
  { writtenDocuments := some
      [("a", { Ranges := [("ra1", ⟨0, 0, 0, 3, "defFoo", "refFoo"⟩)] }),
       ("d", { Ranges := [("rd1", ⟨5, 0, 5, 3, "defFoo", "pref"⟩)] })]
    writtenResultChunks := some
      [(0, { DocumentPaths := some [("da", "a")]
             DocumentIDRangeIDs := some
               [("defFoo", [⟨"da", "ghost"⟩]), ("refFoo", []), ("u", [])] })]
    err := none }

/-- The whole result of `PatchDatabase` on `chunkWriteFailsBase` and `emptyPatch`. -/
def chunkWriteFailsResult : PatchResult :=
  { writtenDocuments := some fooBaseDocs
    writtenResultChunks := some [(0, fooBaseChunk)]
    err := some (.plain "disk full") }

/-! ## `Combine` (internal/errutil/combine.go) -/

/-- Lines 12-22, the body of the loop for the argument `e`. -/
def combineStep (err e : Error) : Error :=
  match e with
  | none => err
  | some x =>
    match err with
    | none => some x
    | some _ => some (multierrorAppend err e)

/-- Function `Combine` (lines 11-25): the loop over `errs`, started from the named
result `err = nil`. -/
def Combine (errs : List Error) : Error :=
  errs.foldl combineStep none

/-! ## `Matches` (internal/errutil/match.go) -/

/-- A non-nil error with a finite unwrap chain: one that wraps nothing, or one whose
`Unwrap` method returns the error it wraps. -/
inductive ChainError where
  | leaf (msg : String)
  | wrap (msg : String) (inner : ChainError)
  deriving DecidableEq, Repr

/-- Library `errors.Unwrap`: the wrapped error, `nil` for `nil` and for an error
that wraps nothing. -/
def Unwrap : Option ChainError → Option ChainError
  | some (.wrap _ inner) => some inner
  | _ => none

/-- The loop of lines 7-13 entered with a non-nil `err`; the recursive call is the
next turn of the loop, on `errors.Unwrap(err)`. -/
def matchesLoop (predicate : ChainError → Bool) : ChainError → Bool
  | .leaf msg => if predicate (.leaf msg) then true else false
  | .wrap msg inner =>
    if predicate (.wrap msg inner) then true else matchesLoop predicate inner

/-- Function `Matches` (lines 6-16). -/
def Matches (err : Option ChainError) (predicate : ChainError → Bool) : Bool :=
  match err with
  | none => false
  | some e => matchesLoop predicate e

/-- The errors reached from `err` by applying `Unwrap` a number of times. -/
def Reached (err : Option ChainError) (e : ChainError) : Prop :=
  ∃ n : Nat, Unwrap^[n] err = some e

/-! ## `DiffFileStatus` (enterprise/internal/codeintel/gitserver/diff.go) -/

/-- Type `Status` (line 11), a string. -/
abbrev Status := String

/-- Constant `Modified` (line 14). -/
def Modified : Status := "Modified"

/-- Constant `Deleted` (line 15). -/
def Deleted : Status := "Deleted"

/-- Constant `Added` (line 16). -/
def Added : Status := "Added"

/-- Library `unicode.IsSpace`: the white space characters of Latin-1 and the
code points with the Unicode property White_Space. -/
def unicodeIsSpace (c : Char) : Bool :=
  let n := c.toNat
  (9 ≤ n && n ≤ 13) || n = 32 || n = 0x85 || n = 0xA0 || n = 0x1680 ||
    (0x2000 ≤ n && n ≤ 0x200A) || n = 0x2028 || n = 0x2029 || n = 0x202F ||
    n = 0x205F || n = 0x3000

/-- The maximal runs of characters that are not white space, the run being read
given in reverse. -/
def fieldsOf : List Char → List Char → List String
  | piece, [] => if piece = [] then [] else [String.mk piece.reverse]
  | piece, c :: rest =>
    if unicodeIsSpace c then
      if piece = [] then fieldsOf [] rest else String.mk piece.reverse :: fieldsOf [] rest
    else fieldsOf (c :: piece) rest

/-- Library `strings.Fields(s)`: the pieces of `s` between runs of white space,
none of them empty. -/
def stringsFields (s : String) : List String :=
  fieldsOf [] s.toList

/-- Lines 27-42, the body of the loop for one line of the output. The switch is on
`fields[0][0]`, the first byte of the first field; a field is never empty, and its
first byte is one of the five letters exactly when its first character is. Each
index expression panics when `fields` is too short. -/
def diffLine (statuses : List (String × Status)) (line : String) :
    Except Abort (List (String × Status)) :=
  let fields := stringsFields line
  match fields[0]? with
  | none => .error (.panic .indexOutOfRange)
  | some word =>
    match word.toList.head? with
    | none => .error (.panic .indexOutOfRange)
    | some c =>
      if c = 'M' then
        match fields[1]? with
        | none => .error (.panic .indexOutOfRange)
        | some path => .ok (mapSet path Modified statuses)
      else if c = 'D' then
        match fields[1]? with
        | none => .error (.panic .indexOutOfRange)
        | some path => .ok (mapSet path Deleted statuses)
      else if c = 'A' then
        match fields[1]? with
        | none => .error (.panic .indexOutOfRange)
        | some path => .ok (mapSet path Added statuses)
      else if c = 'R' then
        match fields[1]? with
        | none => .error (.panic .indexOutOfRange)
        | some oldPath =>
          match fields[2]? with
          | none => .error (.panic .indexOutOfRange)
          | some newPath => .ok (mapSet newPath Added (mapSet oldPath Deleted statuses))
      else if c = 'C' then
        match fields[2]? with
        | none => .error (.panic .indexOutOfRange)
        | some newPath => .ok (mapSet newPath Added statuses)
      else .error (.fail (.plain "unknown git diff file status"))

/-- Function `DiffFileStatus` (lines 19-46). The function `execGitCommand` is not
part of the sources at hand: `output` and `err` are what its call on line 20
returned. The result is the returned map (`none` for `nil`) and error, or the
panic of an index out of range. -/
def DiffFileStatus (output : String) (err : Error) :
    Except Panic (Option (List (String × Status)) × Error) :=
  match err with
  | some e => .ok (none, some e)
  | none =>
    match forEach diffLine [] (stringsSplit output) with
    | .error (.panic p) => .error p
    | .error (.fail e) => .ok (none, some e)
    | .ok statuses => .ok (some statuses, none)


/-- A well-formed line of the output: the status word (the letter, followed for a
rename or copy by a similarity score), a tab, the path, and for a rename or copy a
tab and the new path. -/
inductive DiffLine where
  | modified (path : String)
  | deleted (path : String)
  | added (path : String)
  | renamed (score oldPath newPath : String)
  | copied (score oldPath newPath : String)
  deriving DecidableEq, Repr

/-- The text of a line. -/
def DiffLine.text : DiffLine → String
  | .modified path => "M" ++ "\t" ++ path
  | .deleted path => "D" ++ "\t" ++ path
  | .added path => "A" ++ "\t" ++ path
  | .renamed score oldPath newPath => "R" ++ score ++ "\t" ++ oldPath ++ "\t" ++ newPath
  | .copied score oldPath newPath => "C" ++ score ++ "\t" ++ oldPath ++ "\t" ++ newPath

/-- No character of `s` is white space. -/
def spaceFree (s : String) : Prop :=
  ∀ c ∈ s.toList, unicodeIsSpace c = false

/-- A path that `strings.Fields` leaves whole: not empty, without white space. -/
def plainPath (s : String) : Prop :=
  s ≠ "" ∧ spaceFree s

/-- The paths of a line are plain and its score has no white space. -/
def DiffLine.WellFormed : DiffLine → Prop
  | .modified path => plainPath path
  | .deleted path => plainPath path
  | .added path => plainPath path
  | .renamed score oldPath newPath => spaceFree score ∧ plainPath oldPath ∧ plainPath newPath
  | .copied score oldPath newPath => spaceFree score ∧ plainPath oldPath ∧ plainPath newPath

/-- From the words of the classification: the statuses a line gives, in the order
in which they are given. -/
def DiffLine.statuses : DiffLine → List (String × Status)
  | .modified path => [(path, Modified)]
  | .deleted path => [(path, Deleted)]
  | .added path => [(path, Added)]
  | .renamed _ oldPath newPath => [(oldPath, Deleted), (newPath, Added)]
  | .copied _ _ newPath => [(newPath, Added)]

/-- The status that the last assignment to `path` gives it, if there is one. -/
def lastStatus (assignments : List (String × Status)) (path : String) : Option Status :=
  (assignments.reverse.find? (fun e => decide (e.1 = path))).map Prod.snd

/-- The text made of the given lines, a line feed between any two. -/
def joinLines : List String → String
  | [] => ""
  | [a] => a
  | a :: b :: rest => a ++ "\n" ++ joinLines (b :: rest)

/-- The line has no line feed, starts with a character that is not white space,
and that character is none of the five status letters. -/
def unknownStatusLine (line : String) : Prop :=
  '\n' ∉ line.toList ∧
  ∃ c rest, line.toList = c :: rest ∧ unicodeIsSpace c = false ∧
    c ≠ 'M' ∧ c ≠ 'D' ∧ c ≠ 'A' ∧ c ≠ 'R' ∧ c ≠ 'C'

/-- Five lines of output, one of each kind; the last one names a path again. -/
def demoLines : List DiffLine :=
  [.modified "a.go", .renamed "100" "old.go" "new.go", .deleted "b.go",
   .copied "075" "a.go" "c.go", .added "old.go"]

/-! ## `DocumentsReferencing` (precise-code-intel-bundle-manager/internal/server/merge.go) -/

/-- Modelled from the spec: the declaration of `databaseImpl` is not part of the
sources at hand; these are the fields and the methods that `DocumentsReferencing`
uses, a method being the function from its arguments to what it returns. -/
structure databaseImpl where
  reader : Reader
  numResultChunks : Int
  getResultChunkByID : Int → ResultChunkData × Bool × Error
  getDocumentData : String → DocumentData × Bool × Error

/-- Lines 21-30: the loops over the entries of one result chunk; ranging over a nil
map makes no turn. -/
def markResultIDs (pathMap : List (String × Unit)) (resultChunk : ResultChunkData)
    (resultIDs : List (ID × Unit)) : List (ID × Unit) :=
  (resultChunk.DocumentIDRangeIDs.getD []).foldl
    (fun ids entry =>
      entry.2.foldl
        (fun ids documentIDRangeID =>
          let ok := (mapGet? pathMap
            (nilMapGet resultChunk.DocumentPaths documentIDRangeID.DocumentID)).isSome
          if !ok then ids else mapSet entry.1 () ids)
        ids)
    resultIDs

/-- Lines 12-30, the body of the loop for the chunk index `i`. -/
def scanChunk (db : databaseImpl) (pathMap : List (String × Unit))
    (resultIDs : List (ID × Unit)) (i : Int) : Except Abort (List (ID × Unit)) :=
  match db.getResultChunkByID i with
  | (_, _, some err) => .error (.fail err)
  | (resultChunk, found, none) =>
    if !found then .ok resultIDs else .ok (markResultIDs pathMap resultChunk resultIDs)

/-- Lines 40-54, the body of the loop for one path of `allPaths`. -/
def scanPath (db : databaseImpl) (resultIDs : List (ID × Unit))
    (pathsReferencing : List String) (path : String) : Except Abort (List String) :=
  match db.getDocumentData path with
  | (_, _, some err) => .error (.fail err)
  | (document, found, none) =>
    if !found then .ok pathsReferencing
    else if document.Ranges.any
        (fun r => (mapGet? resultIDs r.2.DefinitionResultID).isSome) then
      .ok (pathsReferencing ++ [path])
    else .ok pathsReferencing

/-- The test that lines 44-54 make for one path: the document exists and has a
range whose `DefinitionResultID` is marked. -/
def referencingTest (db : databaseImpl) (resultIDs : List (ID × Unit)) (path : String) : Bool :=
  (db.getDocumentData path).2.1 &&
    (db.getDocumentData path).1.Ranges.any
      (fun r => (mapGet? resultIDs r.2.DefinitionResultID).isSome)

/-- Function `DocumentsReferencing` (lines 4-58): the returned slice (the empty list
for `nil`) and error. -/
def DocumentsReferencing (db : databaseImpl) (paths : List String) :
    Except Panic (List String × Error) :=
  let pathMap := paths.foldl (fun m path => mapSet path () m) []
  match forEach (scanChunk db pathMap) [] (chunkIDs db.numResultChunks) with
  | .error (.panic p) => .error p
  | .error (.fail err) => .ok ([], some err)
  | .ok resultIDs =>
    match db.reader.PathsWithPrefix "" with
    | (_, some err) => .ok ([], some err)
    | (allPaths, none) =>
      match forEach (scanPath db resultIDs) [] allPaths with
      | .error (.panic p) => .error p
      | .error (.fail err) => .ok ([], some err)
      | .ok pathsReferencing => .ok (pathsReferencing, none)

/-- From the words of the characterisation: the result chunk `i` exists and holds,
under the result id `id`, an entry that its `DocumentPaths` resolve to one of the
given paths. -/
def PointsInto (db : databaseImpl) (paths : List String) (i : Int) (id : ID) : Prop :=
  (db.getResultChunkByID i).2.1 = true ∧
  ∃ entry ∈ (db.getResultChunkByID i).1.DocumentIDRangeIDs.getD [],
    entry.1 = id ∧
    ∃ e ∈ entry.2,
      nilMapGet (db.getResultChunkByID i).1.DocumentPaths e.DocumentID ∈ paths

/-- From the words of the characterisation: the document at `path` exists and some
range of it has a `DefinitionResultID` that points into the given paths in some
result chunk. -/
def References (db : databaseImpl) (paths : List String) (path : String) : Prop :=
  (db.getDocumentData path).2.1 = true ∧
  ∃ r ∈ (db.getDocumentData path).1.Ranges,
    ∃ i : Int, 0 ≤ i ∧ i < db.numResultChunks ∧ PointsInto db paths i r.2.DefinitionResultID

/-- A database made of the documents and result chunks of a bundle held in
memory. -/
def memDatabaseImpl (docs : DocMap) (chunks : ChunkMap) : databaseImpl :=
  { reader := memReader docs chunks
    numResultChunks := (memReader docs chunks).ReadMeta.1.NumResultChunks
    getResultChunkByID := (memReader docs chunks).ReadResultChunk
    getDocumentData := (memReader docs chunks).ReadDocument }

/-! ## Predicates (internal/search/query/predicate.go) -/

/-- Method `Error` of a Go error: the message, and for a `*multierror.Error` the
list that the library's default format makes of the messages of its members. -/
def GoError.Error : GoError → String
  | .plain msg => msg
  | .multi [e] => "1 error occurred:\n\t* " ++ e ++ "\n\n"
  | .multi errs =>
    toString errs.length ++ " errors occurred:\n\t" ++
      String.intercalate "\n\t" (errs.map (fun e => "* " ++ e)) ++ "\n\n"

/-- Modelled from the spec: the constant `FieldFile` is declared outside the
sources at hand; it is the field name of `file:contains()`. -/
def FieldFile : String := "file"

/-- Type `FileContainsPredicate` (lines 76-78). -/
structure FileContainsPredicate where
  Pattern : String
  deriving DecidableEq, Repr

/-- Interface `Predicate` (lines 8-27), as the sum of the types that the registry
can make: `*FileContainsPredicate`. -/
inductive Predicate where
  | fileContains (f : FileContainsPredicate)
  deriving DecidableEq, Repr

/-- Method `UnmarshalText` (lines 80-83): the receiver after the call, and the
returned error. -/
def FileContainsPredicate.UnmarshalText (_f : FileContainsPredicate) (text : String) :
    FileContainsPredicate × Error :=
  ({ Pattern := text }, none)

/-- Method `Field` (line 85). -/
def FileContainsPredicate.Field (_f : FileContainsPredicate) : String := FieldFile

/-- Method `Name` (line 86). -/
def FileContainsPredicate.Name (_f : FileContainsPredicate) : String := "contains"

/-- Method `String` (lines 87-89): `fmt.Sprintf("%s:%s(%s)", ...)`. -/
def FileContainsPredicate.String (f : FileContainsPredicate) : String :=
  f.Field ++ ":" ++ f.Name ++ "(" ++ f.Pattern ++ ")"

/-- Method `UnmarshalText` of the interface. -/
def Predicate.UnmarshalText : Predicate → String → Predicate × Error
  | .fileContains f, text => (.fileContains (f.UnmarshalText text).1, (f.UnmarshalText text).2)

/-- Type `predicateRegistry` (line 37): for a field and a name, the function that
makes a new predicate. -/
abbrev predicateRegistry := List (String × List (String × (Unit → Predicate)))

/-- Variable `DefaultPredicateRegistry` (lines 29-35). -/
def DefaultPredicateRegistry : predicateRegistry :=
  [(FieldFile, [("contains", fun _ => .fileContains { Pattern := "" })])]

/-- Method `Get` (lines 39-55): the returned predicate (`none` for `nil`) and
error. -/
def predicateRegistry.Get (pr : predicateRegistry) (field name params : String) :
    Option Predicate × Error :=
  match mapGet? pr field with
  | none => (none, some (.plain ("no predicates registered for field " ++ field)))
  | some fieldPredicates =>
    match mapGet? fieldPredicates name with
    | none =>
      (none, some (.plain ("field '" ++ field ++ "' has no predicate named '" ++ name ++ "'")))
    | some newPredicateFunc =>
      match (newPredicateFunc ()).UnmarshalText params with
      | (_, some err) => (none, some (.plain ("failed to parse params: " ++ err.Error)))
      | (predicate, none) => (some predicate, none)

/-- Character class `[a-z]` of `predicateRegexp`. -/
def lowerLetter (c : Char) : Bool :=
  decide (97 ≤ c.toNat ∧ c.toNat ≤ 122)

/-- Library `predicateRegexp.FindStringSubmatch(value)` for the expression
`^(?P<name>[a-z]+)\((?P<params>.*)\)$` of line 58: the whole match and the two
groups, `none` for `nil`. The expression is anchored at both ends of the text; the
name is the run of letters at the start, which must not be empty and must be
followed by an opening bracket; the text must end with a closing bracket, and what
stands between the two brackets is the params, in which `.` matches any character
but a line feed. -/
def FindStringSubmatch (value : String) : Option (String × String × String) :=
  let name := value.toList.takeWhile lowerLetter
  match value.toList.dropWhile lowerLetter with
  | '(' :: rest =>
    match rest.reverse with
    | ')' :: params =>
      if name ≠ [] ∧ '\n' ∉ params then
        some (value, String.mk name, String.mk params.reverse)
      else none
    | _ => none
  | _ => none

/-- Function `ParseAsPredicate` (lines 63-72); `match[nameIndex]` and
`match[paramsIndex]` are the two groups. -/
def ParseAsPredicate (value : String) : String × String × Error :=
  match FindStringSubmatch value with
  | none => ("", "", some (.plain ("value '" ++ value ++ "' is not a predicate")))
  | some m => (m.2.1, m.2.2, none)

/-! ## Bundles with dangling ids -/

/-- A patch adding `d`, whose range has the definition id `nowhere`; neither the
patch chunk nor the chunk of `fooBase` has an entry list for that id. -/
def noListPatch : Reader :=
  memReader [("d", { Ranges := [("rd1", ⟨5, 0, 5, 3, "nowhere", "pref"⟩)] })]
    [(0, { DocumentPaths := some [("pd", "d")]
           DocumentIDRangeIDs := some [("pref", [⟨"pd", "rd1"⟩])] })]

/-- The `foo` base with an empty entry list for the id `nowhere`. -/
def emptyListBase : Database :=
  memDatabase fooBaseDocs
    [(0, { DocumentPaths := some [("da", "a"), ("db", "b"), ("dc", "c")]
           DocumentIDRangeIDs := some
             [("defFoo", [⟨"da", "ra1"⟩]), ("refFoo", [⟨"db", "rb1"⟩, ⟨"dc", "rc1"⟩]),
              ("nowhere", [])] })]

/-- The patch `noListPatch` with an empty entry list for the id `nowhere`. -/
def emptyListPatch : Reader :=
  memReader [("d", { Ranges := [("rd1", ⟨5, 0, 5, 3, "nowhere", "pref"⟩)] })]
    [(0, { DocumentPaths := some [("pd", "d")]
           DocumentIDRangeIDs := some [("nowhere", []), ("pref", [⟨"pd", "rd1"⟩])] })]

/-- A base whose definition result `defFoo` starts with an entry for a document id
`gone` that the directory of the chunk does not have. -/
def strayBase : Database :=
  memDatabase [("a", { Ranges := [("ra1", ⟨0, 0, 0, 3, "defFoo", "refFoo"⟩)] })]
    [(0, { DocumentPaths := some [("da", "a")]
           DocumentIDRangeIDs := some [("defFoo", [⟨"gone", "ra1"⟩]), ("refFoo", [])] })]

/-- A patch adding `d`, whose range refers to `defFoo`; the first entry of that
definition result names the document id `gone`, which no directory has. -/
def strayPatch : Reader :=
  memReader [("d", { Ranges := [("rd1", ⟨5, 0, 5, 3, "defFoo", "pref"⟩)] })]
    [(0, { DocumentPaths := some [("pa", "a"), ("pd", "d")]
           DocumentIDRangeIDs := some [("defFoo", [⟨"gone", "ra1"⟩]), ("pref", [⟨"pd", "rd1"⟩])] })]

/-! ## Go maps: reads after writes -/

theorem mapGet?_mapSet {K V : Type} [DecidableEq K] (m : List (K × V)) (k q : K) (v : V) :
    mapGet? (mapSet k v m) q = if k = q then some v else mapGet? m q := by
  induction m with
  | nil => simp [mapSet, mapGet?]
  | cons e rest ih =>
    obtain ⟨k1, v1⟩ := e
    by_cases h1 : k1 = k
    · subst h1
      by_cases h2 : k1 = q <;> simp [mapSet, mapGet?, h2]
    · by_cases h2 : k1 = q
      · subst h2
        have h3 : ¬ k = k1 := fun h => h1 h.symm
        simp [mapSet, mapGet?, h1, h3]
      · simp [mapSet, mapGet?, h1, h2, ih]

theorem mapGet_mapSet {K V : Type} [DecidableEq K] [Inhabited V] (m : List (K × V)) (k q : K)
    (v : V) : mapGet (mapSet k v m) q = if k = q then v else mapGet m q := by
  unfold mapGet
  rw [mapGet?_mapSet]
  by_cases h : k = q <;> simp [h]

theorem mapGet?_mapDelete {K V : Type} [DecidableEq K] (m : List (K × V)) (k q : K) :
    mapGet? (mapDelete k m) q = if k = q then none else mapGet? m q := by
  induction m with
  | nil => simp [mapDelete, mapGet?]
  | cons e rest ih =>
    obtain ⟨k1, v1⟩ := e
    unfold mapDelete at ih ⊢
    by_cases h1 : k1 = k
    · subst h1
      by_cases h2 : k1 = q
      · simp [mapGet?, h2, List.filter_cons] at ih ⊢
        simpa [h2] using ih
      · simp [mapGet?, h2, List.filter_cons] at ih ⊢
        simpa [h2] using ih
    · by_cases h2 : k1 = q
      · subst h2
        have h3 : ¬ k = k1 := fun h => h1 h.symm
        simp [mapGet?, h1, h3, List.filter_cons]
      · simp [mapGet?, h1, h2, List.filter_cons] at ih ⊢
        exact ih

theorem mapGet?_foldl_mapSet {K V : Type} [DecidableEq K] (f : K → V) (l : List K)
    (m : List (K × V)) (q : K) :
    mapGet? (l.foldl (fun m p => mapSet p (f p) m) m) q =
      if q ∈ l then some (f q) else mapGet? m q := by
  induction l generalizing m with
  | nil => simp
  | cons p rest ih =>
    simp only [List.foldl_cons, ih, mapGet?_mapSet, List.mem_cons]
    by_cases h1 : q ∈ rest
    · simp [h1]
    · by_cases h2 : p = q
      · subst h2; simp [h1]
      · have h3 : ¬ q = p := fun h => h2 h.symm
        simp [h1, h2, h3]

theorem mapGet?_foldl_mapDelete {K V : Type} [DecidableEq K] (l : List K)
    (m : List (K × V)) (q : K) :
    mapGet? (l.foldl (fun m p => mapDelete p m) m) q =
      if q ∈ l then none else mapGet? m q := by
  induction l generalizing m with
  | nil => simp
  | cons p rest ih =>
    simp only [List.foldl_cons, ih, mapGet?_mapDelete, List.mem_cons]
    by_cases h1 : q ∈ rest
    · simp [h1]
    · by_cases h2 : p = q
      · subst h2; simp [h1]
      · have h3 : ¬ q = p := fun h => h2 h.symm
        simp [h1, h2, h3]

/-! ## Loops -/

/-- A loop keeps a reflexive, transitive relation that each of its steps keeps. -/
theorem forEach_rel {σ α : Type} (body : σ → α → Except Abort σ) (R : σ → σ → Prop)
    (hrefl : ∀ s, R s s) (htrans : ∀ a b c, R a b → R b c → R a c)
    (hstep : ∀ s x s1, body s x = .ok s1 → R s s1) :
    ∀ (l : List α) (s s1 : σ), forEach body s l = .ok s1 → R s s1 := by
  intro l
  induction l with
  | nil =>
    intro s s1 h
    simp only [forEach, Except.ok.injEq] at h
    subst h
    exact hrefl s
  | cons x xs ih =>
    intro s s1 h
    simp only [forEach] at h
    split at h
    · simp at h
    · rename_i s2 hs
      exact htrans _ _ _ (hstep _ _ _ hs) (ih _ _ h)

/-! ## The purge loop -/

theorem setEntryList_ok (chunks chunks1 : ChunkMap) (c : Int) (r : ID)
    (refs : List DocumentIDRangeID) (h : setEntryList chunks c r refs = .ok chunks1) :
    (∀ c1, (mapGet chunks1 c1).DocumentPaths = (mapGet chunks c1).DocumentPaths) ∧
    entryList chunks1 c r = refs ∧
    (∀ c1 r1, ¬ (c1 = c ∧ r1 = r) → entryList chunks1 c1 r1 = entryList chunks c1 r1) := by
  unfold setEntryList at h
  simp only at h
  split at h
  · simp at h
  · rename_i m hm
    simp only [Except.ok.injEq] at h
    subst h
    refine ⟨?_, ?_, ?_⟩
    · intro c1
      rw [mapGet_mapSet]
      by_cases hc : c = c1
      · subst hc; simp
      · simp [hc]
    · unfold entryList
      rw [mapGet_mapSet]
      simp [nilMapGet, mapGet_mapSet]
    · intro c1 r1 hne
      unfold entryList
      rw [mapGet_mapSet]
      by_cases hc : c = c1
      · subst hc
        have hr : ¬ r = r1 := fun e => hne ⟨rfl, e.symm⟩
        simp [nilMapGet, mapGet_mapSet, hm, hr]
      · simp [hc]

theorem purgeRange_inv (env : Env) (baseN : Int) (modifiedPaths : List String)
    (chunks0 : ChunkMap) (st st1 : PurgeState) (rng : RangeData)
    (hinv : PurgeInv env baseN modifiedPaths chunks0 st)
    (h : purgeRange env baseN modifiedPaths st rng = .ok st1) :
    PurgeInv env baseN modifiedPaths chunks0 st1 ∧ rng.ReferenceResultID ∈ st1.deletedRefs ∧
      ∀ r ∈ st.deletedRefs, r ∈ st1.deletedRefs := by
  unfold purgeRange at h
  by_cases hmem : rng.ReferenceResultID ∈ st.deletedRefs
  · simp only [hmem, if_true, Except.ok.injEq] at h
    subst h
    exact ⟨hinv, hmem, fun r hr => hr⟩
  · simp only [hmem, if_false] at h
    split at h
    · simp at h
    · rename_i chunks1 hset
      simp only [Except.ok.injEq] at h
      subst h
      obtain ⟨hdir, hent, hother⟩ := setEntryList_ok _ _ _ _ _ hset
      obtain ⟨ia, ib⟩ := hinv
      refine ⟨⟨?_, ?_⟩, ?_, ?_⟩
      · intro c; simp only; rw [hdir, ia]
      · intro c r
        simp only
        by_cases hcr : c = env.HashKey rng.ReferenceResultID baseN ∧ r = rng.ReferenceResultID
        · obtain ⟨hc, hr⟩ := hcr
          subst hr
          subst hc
          rw [hent]
          simp only [List.mem_cons, true_or, and_self, if_true]
          have e1 := ib (env.HashKey rng.ReferenceResultID baseN) rng.ReferenceResultID
          simp only [hmem, false_and, if_false] at e1
          unfold keepUnmodified resolvedPath
          rw [← e1, ← ia]
          rfl
        · rw [hother c r hcr, ib c r]
          by_cases hr : r = rng.ReferenceResultID
          · subst hr
            have hc : ¬ c = env.HashKey rng.ReferenceResultID baseN := fun e => hcr ⟨e, rfl⟩
            simp [hc]
          · simp [hr]
      · simp
      · intro r hr; simp [hr]

theorem forEach_purgeRange_inv (env : Env) (baseN : Int) (modifiedPaths : List String)
    (chunks0 : ChunkMap) (l : List RangeData) :
    ∀ (st st1 : PurgeState), PurgeInv env baseN modifiedPaths chunks0 st →
      forEach (purgeRange env baseN modifiedPaths) st l = .ok st1 →
      PurgeInv env baseN modifiedPaths chunks0 st1 ∧
        (∀ rng ∈ l, rng.ReferenceResultID ∈ st1.deletedRefs) ∧
        ∀ r ∈ st.deletedRefs, r ∈ st1.deletedRefs := by
  induction l with
  | nil =>
    intro st st1 hinv h
    simp only [forEach, Except.ok.injEq] at h
    subst h
    exact ⟨hinv, by simp, fun r hr => hr⟩
  | cons x xs ih =>
    intro st st1 hinv h
    simp only [forEach] at h
    split at h
    · simp at h
    · rename_i st2 hstep
      obtain ⟨i2, m2, s2⟩ := purgeRange_inv _ _ _ _ _ _ _ hinv hstep
      obtain ⟨i3, m3, s3⟩ := ih st2 st1 i2 h
      refine ⟨i3, ?_, fun r hr => s3 r (s2 r hr)⟩
      intro rng hrng
      rcases List.mem_cons.mp hrng with e | e
      · subst e; exact s3 _ m2
      · exact m3 rng e

theorem forEach_paths_inv (env : Env) (baseN : Int) (modifiedPaths : List String)
    (baseDocuments : DocMap) (chunks0 : ChunkMap) (ps : List String) :
    ∀ (st st1 : PurgeState), PurgeInv env baseN modifiedPaths chunks0 st →
      forEach (fun st documentPath =>
          forEach (purgeRange env baseN modifiedPaths) st
            ((mapGet baseDocuments documentPath).Ranges.map Prod.snd)) st ps = .ok st1 →
      PurgeInv env baseN modifiedPaths chunks0 st1 ∧
        (∀ p ∈ ps, ∀ rng ∈ (mapGet baseDocuments p).Ranges.map Prod.snd,
          rng.ReferenceResultID ∈ st1.deletedRefs) ∧
        ∀ r ∈ st.deletedRefs, r ∈ st1.deletedRefs := by
  induction ps with
  | nil =>
    intro st st1 hinv h
    simp only [forEach, Except.ok.injEq] at h
    subst h
    exact ⟨hinv, by simp, fun r hr => hr⟩
  | cons x xs ih =>
    intro st st1 hinv h
    simp only [forEach] at h
    split at h
    · simp at h
    · rename_i st2 hstep
      obtain ⟨i2, m2, s2⟩ := forEach_purgeRange_inv _ _ _ _ _ _ _ hinv hstep
      obtain ⟨i3, m3, s3⟩ := ih st2 st1 i2 h
      refine ⟨i3, ?_, fun r hr => s3 r (s2 r hr)⟩
      intro p hp rng hrng
      rcases List.mem_cons.mp hp with e | e
      · subst e; exact s3 _ (m2 rng hrng)
      · exact m3 p e rng hrng

/-- What the purge loop leaves: every directory as loaded, and for every range of
the base document of a modified path, the entry list of its `ReferenceResultID`
without the entries that resolve to a modified path. -/
theorem purge_spec (env : Env) (baseN : Int) (modifiedPaths : List String)
    (baseDocuments : DocMap) (baseResultChunks : ChunkMap) (st : PurgeState)
    (h : purge env baseN modifiedPaths baseDocuments baseResultChunks = .ok st) :
    (∀ c, (mapGet st.chunks c).DocumentPaths = (mapGet baseResultChunks c).DocumentPaths) ∧
    (∀ p ∈ modifiedPaths, ∀ rng ∈ (mapGet baseDocuments p).Ranges.map Prod.snd,
      entryList st.chunks (env.HashKey rng.ReferenceResultID baseN) rng.ReferenceResultID =
        keepUnmodified modifiedPaths baseResultChunks (env.HashKey rng.ReferenceResultID baseN)
          (entryList baseResultChunks (env.HashKey rng.ReferenceResultID baseN)
            rng.ReferenceResultID)) := by
  unfold purge at h
  have h0 : PurgeInv env baseN modifiedPaths baseResultChunks
      { chunks := baseResultChunks, deletedRefs := [] } := by
    refine ⟨fun c => rfl, fun c r => ?_⟩
    simp
  obtain ⟨⟨ia, ib⟩, m, -⟩ := forEach_paths_inv _ _ _ _ _ _ _ _ h0 h
  refine ⟨ia, ?_⟩
  intro p hp rng hrng
  rw [ib]
  simp [m p hp rng hrng]

/-! ## The pairing loop only appends -/

theorem translateRef_grows (env : Env) (patchChunk : ResultChunkData) (t t1 : TranslateState)
    (ref : DocumentIDRangeID) (h : translateRef env patchChunk t ref = .ok t1) :
    t.baseRefs <+: t1.baseRefs := by
  unfold translateRef at h
  simp only at h
  split at h
  · simp only [Except.ok.injEq] at h
    subst h
    exact List.prefix_append _ _
  · split at h
    · simp at h
    · split at h
      · simp at h
      · simp only [Except.ok.injEq] at h
        subst h
        exact List.prefix_append _ _

theorem mergeDefinition_grows (env : Env) (baseN patchN : Int) (patchResultChunks : ChunkMap)
    (st st1 : PairState) (defn : RangeData)
    (h : mergeDefinition env baseN patchN patchResultChunks st defn = .ok st1) (c : Int) (r : ID) :
    entryList st.chunks c r <+: entryList st1.chunks c r := by
  unfold mergeDefinition at h
  split at h
  · simp at h
  · simp only at h
    split at h
    · simp at h
    · rename_i target calls htarget
      split at h
      · simp at h
      · rename_i t ht
        have hpre := forEach_rel (translateRef env _) (fun a b => a.baseRefs <+: b.baseRefs)
          (fun s => List.prefix_refl _) (fun a b c h1 h2 => List.IsPrefix.trans h1 h2)
          (fun s x s1 hs => translateRef_grows _ _ _ _ _ hs) _ _ _ ht
        simp only at hpre
        split at h
        · simp at h
        · rename_i m hm
          simp only [Except.ok.injEq] at h
          subst h
          simp only
          unfold entryList
          rw [mapGet_mapSet]
          by_cases hc : env.HashKey target baseN = c
          · subst hc
            simp only [if_true, nilMapGet, hm]
            rw [mapGet_mapSet]
            by_cases hr : target = r
            · subst hr
              simpa [nilMapGet, hm] using hpre
            · simp [hr]
          · simp [hc]

theorem mergePath_grows (env : Env) (baseN patchN : Int) (baseDocuments : DocMap)
    (patchResultChunks : ChunkMap) (st st1 : MergeState)
    (entry : String × List (ID × RangeData))
    (h : mergePath env baseN patchN baseDocuments patchResultChunks st entry = .ok st1)
    (c : Int) (r : ID) :
    entryList st.chunks c r <+: entryList st1.chunks c r := by
  unfold mergePath at h
  simp only at h
  split at h
  · simp at h
  · split at h
    · simp at h
    · rename_i p hp
      simp only [Except.ok.injEq] at h
      subst h
      exact forEach_rel (mergeDefinition env baseN patchN patchResultChunks)
        (fun a b => ∀ c r, entryList a.chunks c r <+: entryList b.chunks c r)
        (fun s c r => List.prefix_refl _)
        (fun a b d h1 h2 c r => List.IsPrefix.trans (h1 c r) (h2 c r))
        (fun s x s1 hs c r => mergeDefinition_grows _ _ _ _ _ _ _ hs c r) _ _ _ hp c r

/-- What reaches the writes: the documents are the loaded ones after the drops and
the adoption; every entry list starts with what the purge loop left of it. -/
theorem transform_ok (env : Env) (cls : Classification) (baseN patchN : Int)
    (baseDocuments : DocMap) (baseResultChunks : ChunkMap)
    (patchDocuments : DocMap) (patchResultChunks : ChunkMap)
    (documents : DocMap) (resultChunks : ChunkMap)
    (h : transform env cls baseN patchN baseDocuments baseResultChunks patchDocuments
      patchResultChunks = .ok (documents, resultChunks)) :
    documents = adoptDocuments cls.indexedPaths patchDocuments (dropDocuments cls baseDocuments) ∧
    ∃ purged, purge env baseN cls.modifiedPaths baseDocuments baseResultChunks = .ok purged ∧
      (∀ c r, entryList purged.chunks c r <+: entryList resultChunks c r) ∧
      (cls.indexedPaths = [] → resultChunks = purged.chunks) := by
  unfold transform at h
  split at h
  · simp at h
  · rename_i purged hp
    simp only at h
    split at h
    · simp at h
    · rename_i defs hdefs
      split at h
      · simp at h
      · rename_i merged hm
        simp only [Except.ok.injEq, Prod.mk.injEq] at h
        obtain ⟨hdoc, hch⟩ := h
        subst hdoc
        subst hch
        refine ⟨rfl, purged, hp, ?_, ?_⟩
        · exact forEach_rel (mergePath env baseN patchN _ patchResultChunks)
            (fun a b => ∀ c r, entryList a.chunks c r <+: entryList b.chunks c r)
            (fun s c r => List.prefix_refl _)
            (fun a b d h1 h2 c r => List.IsPrefix.trans (h1 c r) (h2 c r))
            (fun s x s1 hs c r => mergePath_grows _ _ _ _ _ _ _ _ hs c r) _ _ _ hm
        · intro hidx
          rw [hidx] at hdefs
          simp only [collectDefinitions, forEach, Except.ok.injEq] at hdefs
          subst hdefs
          simp only [forEach, Except.ok.injEq] at hm
          subst hm
          rfl

/-- The documents written by a returning run are those `transform` produced. -/
theorem PatchDatabaseWith_documents (env : Env) (cls : Classification) (base : Database)
    (patch : Reader) (res : PatchResult) (docs : DocMap)
    (h : PatchDatabaseWith env cls base patch = .ok res)
    (hd : res.writtenDocuments = some docs) :
    ∃ chunks, transform env cls base.ReadMeta.1.NumResultChunks patch.ReadMeta.1.NumResultChunks
      (loadDocuments base.toReader) (loadResultChunks base.toReader)
      (loadDocuments patch) (loadResultChunks patch) = .ok (docs, chunks) := by
  unfold PatchDatabaseWith at h
  simp only at h
  split at h
  · exact absurd h (by simp)
  · cases h
    simp at hd
  · rename_i documents resultChunks ht
    cases h
    simp only [Option.some.injEq] at hd
    subst hd
    exact ⟨resultChunks, ht⟩

/-- The chunks written by a returning run are those `transform` produced. -/
theorem PatchDatabaseWith_chunks (env : Env) (cls : Classification) (base : Database)
    (patch : Reader) (res : PatchResult) (chunks : ChunkMap)
    (h : PatchDatabaseWith env cls base patch = .ok res)
    (hc : res.writtenResultChunks = some chunks) :
    ∃ docs, transform env cls base.ReadMeta.1.NumResultChunks patch.ReadMeta.1.NumResultChunks
      (loadDocuments base.toReader) (loadResultChunks base.toReader)
      (loadDocuments patch) (loadResultChunks patch) = .ok (docs, chunks) := by
  unfold PatchDatabaseWith at h
  simp only at h
  split at h
  · exact absurd h (by simp)
  · cases h
    simp at hc
  · rename_i documents resultChunks ht
    cases h
    simp only [Option.some.injEq] at hc
    subst hc
    exact ⟨documents, ht⟩

/-! ## Supporting facts -/

/-- Ranges without a `DefinitionResultID` add nothing to `defResultsByPath`. -/
theorem forEach_collectRange_skip (env : Env) (patchN : Int) (baseResultChunks : ChunkMap)
    (patchDocuments : DocMap) (l : List RangeData)
    (hl : ∀ rng ∈ l, rng.DefinitionResultID = "") (acc : DefResults) :
    forEach (collectRange env patchN baseResultChunks patchDocuments) acc l = .ok acc := by
  induction l with
  | nil => rfl
  | cons x xs ih =>
    have hx : x.DefinitionResultID = "" := hl x (List.mem_cons_self _ _)
    simp only [forEach, collectRange, hx, ne_eq, not_true_eq_false, if_false]
    exact ih (fun rng hrng => hl rng (List.mem_cons_of_mem _ hrng))

/-- Adding one path whose patch document has no `DefinitionResultID` at all: the
merge returns, the written documents are the loaded ones with the patch document
set at that path, and the written chunks are the loaded ones. -/
theorem addition_without_definitions (env : Env) (base : Database) (patch : Reader)
    (p : String)
    (hp : ∀ rng ∈ (mapGet (loadDocuments patch) p).Ranges.map Prod.snd,
      rng.DefinitionResultID = "") :
    PatchDatabaseWith env
        { reindexedPaths := [], deletedPaths := [], modifiedPaths := [], indexedPaths := [p] }
        base patch =
      .ok { writtenDocuments :=
              some (mapSet p (mapGet (loadDocuments patch) p) (loadDocuments base.toReader))
            writtenResultChunks := some (loadResultChunks base.toReader)
            err := base.WriteResultChunks (loadResultChunks base.toReader) } := by
  have hc := forEach_collectRange_skip env patch.ReadMeta.1.NumResultChunks
    (loadResultChunks base.toReader) (loadDocuments patch) _ hp []
  simp only [PatchDatabaseWith, transform, purge, forEach, collectDefinitions, hc,
    adoptDocuments, dropDocuments, List.foldl_cons, List.foldl_nil]

/-- A path that is only in `deletedPaths` is not purged: its document is dropped
and the entries that resolve to it stay in the written chunk. -/
theorem deleted_only_path_not_purged :
    PatchDatabaseWith demoEnv
        { reindexedPaths := [], deletedPaths := ["p"], modifiedPaths := [], indexedPaths := [] }
        symBase emptyPatch =
      .ok { writtenDocuments := some [("q", { Ranges := [("r2", ⟨1, 0, 1, 3, "def1", "ref1"⟩)] })]
            writtenResultChunks := some [(0, symBaseChunk)]
            err := none } :=
  rfl

/-! ## The claims -/

/-- C1 (reference preservation under reindex) on the `foo` scenario: base document
`a` defines `foo`, referenced from `b` and `c`; the patch reindexes `b` without the
reference and adds `d` with one. With the classification supplied the merge panics
on line 142, because line 141 looks the patch's definition id up in the base
chunks; as written (path sets unpopulated) it returns and writes the loaded maps
back, the reference set still resolving to `b` and `c`. -/
theorem foo_scenario_merge :
    PatchDatabaseWith demoEnv fooClassification fooBase fooPatch = .error .indexOutOfRange ∧
    PatchDatabase demoEnv fooBase fooPatch =
      .ok { writtenDocuments := some fooBaseDocs
            writtenResultChunks := some [(0, fooBaseChunk)]
            err := none } ∧
    (entryList [(0, fooBaseChunk)] 0 "refFoo").map
        (fun e => resolvedPath [(0, fooBaseChunk)] 0 e.DocumentID) = ["b", "c"] :=
  ⟨rfl, rfl, rfl⟩

/-- C2 as stated fails: with `p` classified as deleted (and purged), the chunk
written back still holds, in the entry list of the definition result `def1`, an
entry whose document id resolves to `p`. -/
theorem deleted_path_entry_survives :
    PatchDatabaseWith demoEnv deleteP symBase emptyPatch = .ok deletePResult ∧
    deletePResult.writtenResultChunks = some deletePChunks ∧
    ({ DocumentID := "dp", RangeID := "r1" } : DocumentIDRangeID) ∈
      entryList deletePChunks 0 "def1" ∧
    resolvedPath deletePChunks 0 "dp" = "p" :=
  ⟨rfl, rfl, by decide, rfl⟩

/-- C2 amended (purge of the modified paths): whenever `PatchDatabase` reaches its
writes, for every path `p` of `modifiedPaths` and every range of the base's loaded
document at `p` with `ReferenceResultID` `r`, the entry list written for `r` in
chunk `HashKey(r, baseMeta.NumResultChunks)` begins with exactly the loaded entries
of `r` whose document id resolves, in that chunk's loaded directory, to a path
outside `modifiedPaths`, in their loaded order; when no path is adopted the written
list is exactly those entries. -/
theorem purge_of_modified_paths (env : Env) (cls : Classification) (base : Database)
    (patch : Reader) (res : PatchResult) (chunks : ChunkMap)
    (h : PatchDatabaseWith env cls base patch = .ok res)
    (hw : res.writtenResultChunks = some chunks)
    (p : String) (hp : p ∈ cls.modifiedPaths) (rng : RangeData)
    (hrng : rng ∈ (mapGet (loadDocuments base.toReader) p).Ranges.map Prod.snd) :
    keepUnmodified cls.modifiedPaths (loadResultChunks base.toReader)
        (env.HashKey rng.ReferenceResultID base.ReadMeta.1.NumResultChunks)
        (entryList (loadResultChunks base.toReader)
          (env.HashKey rng.ReferenceResultID base.ReadMeta.1.NumResultChunks)
          rng.ReferenceResultID)
      <+: entryList chunks (env.HashKey rng.ReferenceResultID base.ReadMeta.1.NumResultChunks)
        rng.ReferenceResultID ∧
    (cls.indexedPaths = [] →
      entryList chunks (env.HashKey rng.ReferenceResultID base.ReadMeta.1.NumResultChunks)
          rng.ReferenceResultID =
        keepUnmodified cls.modifiedPaths (loadResultChunks base.toReader)
          (env.HashKey rng.ReferenceResultID base.ReadMeta.1.NumResultChunks)
          (entryList (loadResultChunks base.toReader)
            (env.HashKey rng.ReferenceResultID base.ReadMeta.1.NumResultChunks)
            rng.ReferenceResultID)) := by
  obtain ⟨docs, ht⟩ := PatchDatabaseWith_chunks env cls base patch res chunks h hw
  obtain ⟨-, purged, hpurge, hgrow, hsame⟩ := transform_ok _ _ _ _ _ _ _ _ _ _ ht
  obtain ⟨-, hkeep⟩ := purge_spec _ _ _ _ _ _ hpurge
  have e := hkeep p hp rng hrng
  refine ⟨?_, ?_⟩
  · rw [← e]
    exact hgrow _ _
  · intro hidx
    rw [hsame hidx, e]

/-- Witness for C2 amended: `p` purged from `symBase`; the written entry list of
`ref1` is the loaded one without the entry of `p`. -/
theorem purge_of_modified_paths_witness :
    (PatchDatabaseWith demoEnv deleteP symBase emptyPatch = .ok deletePResult ∧
      deletePResult.writtenResultChunks = some deletePChunks ∧
      "p" ∈ deleteP.modifiedPaths ∧
      (⟨0, 0, 0, 3, "def1", "ref1"⟩ : RangeData) ∈
        (mapGet (loadDocuments symBase.toReader) "p").Ranges.map Prod.snd) ∧
    entryList deletePChunks 0 "ref1" = [{ DocumentID := "dq", RangeID := "r2" }] :=
  ⟨⟨rfl, rfl, by decide, by decide⟩,
    ((purge_of_modified_paths demoEnv deleteP symBase emptyPatch deletePResult deletePChunks
      rfl rfl "p" (by decide) ⟨0, 0, 0, 3, "def1", "ref1"⟩ (by decide)).2 rfl).trans rfl⟩

/-- C3 (empty-patch identity): with all four path sets empty, `PatchDatabase`
returns, and the maps it passes to `WriteDocuments` and to `WriteResultChunks` are
the document map and the chunk map it loaded from the base; this is the method as
written. -/
theorem empty_patch_identity (env : Env) (base : Database) (patch : Reader) :
    PatchDatabaseWith env Classification.unpopulated base patch =
      .ok { writtenDocuments := some (loadDocuments base.toReader)
            writtenResultChunks := some (loadResultChunks base.toReader)
            err := base.WriteResultChunks (loadResultChunks base.toReader) } ∧
    PatchDatabase env base patch = PatchDatabaseWith env Classification.unpopulated base patch :=
  ⟨rfl, rfl⟩

/-- C4 (pure addition) on a failing input: the patch adds the single new path `n`,
whose only range defines a symbol of `n` itself. With `n` classified as added the
merge panics on line 142 instead of completing; as written it returns without
adding `n`. -/
theorem added_document_with_own_definition :
    PatchDatabaseWith demoEnv addN fooBase newDocPatch = .error .indexOutOfRange ∧
    PatchDatabase demoEnv fooBase newDocPatch =
      .ok { writtenDocuments := some fooBaseDocs
            writtenResultChunks := some [(0, fooBaseChunk)]
            err := none } :=
  ⟨rfl, rfl⟩

/-- C5 (merge driver atomicity) on a failing input: `PatchDatabase` on the working
copy returns a non-nil error, and `MergeDBs` still renames the working file onto
`result.db` and returns nil. -/
theorem mergeDBs_renames_after_failed_patch :
    Except.map PatchResult.err (PatchDatabase demoEnv chunkWriteFailsBase emptyPatch) =
      .ok (some (.plain "disk full")) ∧
    mapGet? demoFiles "result.db" = none ∧
    MergeDBs demoEnv demoSystem demoFiles "base.db" "patch.db" "result.db" =
      (.ok none, [("base.db", "BASE"), ("patch.db", "PATCH"), ("result.db", "BASE")]) :=
  ⟨rfl, rfl, rfl⟩

/-- C6 (load failure aborts before any write) on a failing input: `ReadMeta` of the
base returns an error, and `PatchDatabase` makes both writes and returns nil. -/
theorem load_failure_still_writes :
    metaFailsBase.ReadMeta.2 = some (.plain "database is locked") ∧
    PatchDatabase demoEnv metaFailsBase emptyPatch =
      .ok { writtenDocuments := some fooBaseDocs
            writtenResultChunks := some []
            err := none } :=
  ⟨rfl, rfl⟩

/-- C7 (write failure is surfaced) on a failing input: `WriteDocuments` returns an
error, `WriteResultChunks` succeeds, and `PatchDatabase` returns nil. -/
theorem write_documents_failure_lost :
    docWriteFailsBase.WriteDocuments fooBaseDocs = some (.plain "disk full") ∧
    PatchDatabase demoEnv docWriteFailsBase emptyPatch =
      .ok { writtenDocuments := some fooBaseDocs
            writtenResultChunks := some [(0, fooBaseChunk)]
            err := none } :=
  ⟨rfl, rfl⟩

/-- C8 (Close combines and never masks errors) on a failing input: `store.Done`
returns a non-nil error, the closer succeeds, and `Close` returns nil. -/
theorem close_masks_done_error :
    demoClosing.Done (some (.plain "commit failed")) = some (.plain "commit failed") ∧
    demoClosing.closer () = none ∧
    Close demoClosing (some (.plain "commit failed")) = none :=
  ⟨rfl, rfl, rfl⟩

/-- C9 (document map after merge): for every classification and every path `q`,
the document map passed to `WriteDocuments` holds the patch's document at `q` (what
`patchDocuments[q]` reads) if `q` is in `indexedPaths`; otherwise has no entry at
`q` if `q` is in `reindexedPaths` or `deletedPaths`; otherwise holds exactly what
the base's loaded map holds at `q`. -/
theorem documents_after_merge (env : Env) (cls : Classification) (base : Database)
    (patch : Reader) (res : PatchResult) (docs : DocMap)
    (h : PatchDatabaseWith env cls base patch = .ok res)
    (hd : res.writtenDocuments = some docs) (q : String) :
    mapGet? docs q =
      if q ∈ cls.indexedPaths then some (mapGet (loadDocuments patch) q)
      else if q ∈ cls.reindexedPaths ∨ q ∈ cls.deletedPaths then none
      else mapGet? (loadDocuments base.toReader) q := by
  obtain ⟨chunks, ht⟩ := PatchDatabaseWith_documents env cls base patch res docs h hd
  obtain ⟨hdoc, -⟩ := transform_ok _ _ _ _ _ _ _ _ _ _ ht
  subst hdoc
  unfold adoptDocuments dropDocuments
  rw [mapGet?_foldl_mapSet (fun p => mapGet (loadDocuments patch) p)]
  rw [mapGet?_foldl_mapDelete, mapGet?_foldl_mapDelete]
  by_cases h1 : q ∈ cls.indexedPaths
  · simp [h1]
  · by_cases h2 : q ∈ cls.deletedPaths
    · simp [h1, h2]
    · by_cases h3 : q ∈ cls.reindexedPaths
      · simp [h1, h2, h3]
      · simp [h1, h2, h3]

/-- Witness for C9: `b` reindexed and adopted from `fooPatch`; the written map
holds the patch's (empty) document at `b`. -/
theorem documents_after_merge_witness :
    (PatchDatabaseWith demoEnv reindexB fooBase fooPatch = .ok reindexBResult ∧
      reindexBResult.writtenDocuments = some reindexBDocs) ∧
    mapGet? reindexBDocs "b" = some { Ranges := [] } :=
  ⟨⟨rfl, rfl⟩,
    (documents_after_merge demoEnv reindexB fooBase fooPatch reindexBResult reindexBDocs
      rfl rfl "b").trans rfl⟩

/-- C10 (definitions are resolved through the patch's own chunk) on a failing
input: for the range of the adopted document `d` with definition id `pdef`, the
patch chunk's first entry is range `pra1` of `a`, but the location collected is
the first entry of the base chunk's list for `pdef`, resolved through the base
chunk's directory (range `r9` of `zzz`); when the base chunk has no list for
`pdef`, line 142 panics. -/
theorem definition_resolved_through_base_chunk :
    (entryList [(0, fooPatchChunk)] 0 "pdef").head? = some { DocumentID := "pa", RangeID := "pra1" } ∧
    resolvedPath [(0, fooPatchChunk)] 0 "pa" = "a" ∧
    collectDefinitions demoEnv 1 ["d"] [(0, shadowBaseChunk)] fooPatchDocs =
      .ok [("zzz", [("r9", default)])] ∧
    collectDefinitions demoEnv 1 ["d"] [(0, fooBaseChunk)] fooPatchDocs =
      .error (.panic .indexOutOfRange) :=
  ⟨rfl, rfl, rfl, rfl⟩

/-! ## Go maps: keys -/

theorem mapGet?_eq_none_iff {K V : Type} [DecidableEq K] (m : List (K × V)) (k : K) :
    mapGet? m k = none ↔ k ∉ m.map Prod.fst := by
  induction m with
  | nil => simp [mapGet?]
  | cons e rest ih =>
    obtain ⟨k1, v1⟩ := e
    by_cases h : k1 = k
    · subst h; simp [mapGet?]
    · have h2 : ¬ k = k1 := fun e => h e.symm
      simp [mapGet?, h, h2, ih]

theorem keys_mapSet_of_absent {K V : Type} [DecidableEq K] (m : List (K × V)) (k : K) (v : V)
    (h : k ∉ m.map Prod.fst) : (mapSet k v m).map Prod.fst = m.map Prod.fst ++ [k] := by
  induction m with
  | nil => simp [mapSet]
  | cons e rest ih =>
    obtain ⟨k1, v1⟩ := e
    simp only [List.map_cons, List.mem_cons, not_or] at h
    have h1 : ¬ k1 = k := fun e => h.1 e.symm
    simp [mapSet, h1, ih h.2]

theorem keys_mapDelete {K V : Type} [DecidableEq K] (m : List (K × V)) (k : K) :
    (mapDelete k m).map Prod.fst = (m.map Prod.fst).filter (fun j => decide (j ≠ k)) := by
  unfold mapDelete
  rw [List.filter_map]
  rfl

/-- Invariant of the tables reached by calls: distinct keys, which are the live ids. -/
theorem IDSet_track_inv (st : IDSet × List Int) (call : IDSetCall)
    (h : (st.1.ids.map Prod.fst).Nodup ∧ ∀ id, id ∈ st.1.ids.map Prod.fst ↔ id ∈ st.2) :
    ((IDSet.track st call).1.ids.map Prod.fst).Nodup ∧
      ∀ id, id ∈ (IDSet.track st call).1.ids.map Prod.fst ↔ id ∈ (IDSet.track st call).2 := by
  obtain ⟨hn, hm⟩ := h
  cases call with
  | add id cancel =>
    cases hlook : mapGet? st.1.ids id with
    | some old =>
      simp only [IDSet.track, IDSet.Add, hlook]
      exact ⟨hn, by simpa using hm⟩
    | none =>
      have habs : id ∉ st.1.ids.map Prod.fst := (mapGet?_eq_none_iff _ _).mp hlook
      simp only [IDSet.track, IDSet.Add, hlook, if_true]
      rw [keys_mapSet_of_absent _ _ _ habs]
      refine ⟨?_, ?_⟩
      · rw [List.nodup_append]
        refine ⟨hn, List.nodup_singleton _, ?_⟩
        intro a ha hb
        simp only [List.mem_singleton] at hb
        subst hb
        exact habs ha
      · intro j
        simp only [List.mem_append, List.mem_singleton, List.mem_cons]
        rw [hm j]
        tauto
  | remove id =>
    have h1 : (st.1.Remove id).1 = { ids := mapDelete id st.1.ids } := by
      unfold IDSet.Remove
      cases mapGet? st.1.ids id <;> rfl
    simp only [IDSet.track, h1]
    rw [keys_mapDelete]
    refine ⟨hn.filter _, ?_⟩
    intro j
    simp only [List.mem_filter, hm j]

theorem IDSet_replay_inv (calls : List IDSetCall) :
    ∀ st : IDSet × List Int,
      ((st.1.ids.map Prod.fst).Nodup ∧ ∀ id, id ∈ st.1.ids.map Prod.fst ↔ id ∈ st.2) →
      (((calls.foldl IDSet.track st).1.ids.map Prod.fst).Nodup ∧
        ∀ id, id ∈ (calls.foldl IDSet.track st).1.ids.map Prod.fst ↔
          id ∈ (calls.foldl IDSet.track st).2) := by
  induction calls with
  | nil => intro st h; exact h
  | cons c cs ih =>
    intro st h
    simp only [List.foldl_cons]
    exact ih _ (IDSet_track_inv st c h)

/-! ## Sharding of the writes -/

theorem setEntryList_elsewhere (env : Env) (baseN : Int) (chunks chunks1 : ChunkMap) (r : ID)
    (refs : List DocumentIDRangeID)
    (h : setEntryList chunks (env.HashKey r baseN) r refs = .ok chunks1) :
    SameElsewhere env baseN chunks chunks1 := by
  unfold setEntryList at h
  simp only at h
  split at h
  · simp at h
  · rename_i m hm
    simp only [Except.ok.injEq] at h
    subst h
    intro c r1 hc
    unfold entryList?
    rw [mapGet_mapSet]
    by_cases hcc : env.HashKey r baseN = c
    · subst hcc
      have hr : ¬ r = r1 := fun e => hc (by rw [e])
      simp [hm, mapGet?_mapSet, hr]
    · simp [hcc]

theorem purgeRange_elsewhere (env : Env) (baseN : Int) (modifiedPaths : List String)
    (st st1 : PurgeState) (rng : RangeData)
    (h : purgeRange env baseN modifiedPaths st rng = .ok st1) :
    SameElsewhere env baseN st.chunks st1.chunks := by
  unfold purgeRange at h
  split at h
  · simp only [Except.ok.injEq] at h
    subst h
    intro c r _
    rfl
  · simp only at h
    split at h
    · simp at h
    · rename_i chunks1 hset
      simp only [Except.ok.injEq] at h
      subst h
      exact setEntryList_elsewhere env baseN _ _ _ _ hset

theorem SameElsewhere_refl (env : Env) (baseN : Int) (a : ChunkMap) :
    SameElsewhere env baseN a a := fun _ _ _ => rfl

theorem SameElsewhere_trans (env : Env) (baseN : Int) (a b c : ChunkMap)
    (h1 : SameElsewhere env baseN a b) (h2 : SameElsewhere env baseN b c) :
    SameElsewhere env baseN a c := fun d r hd => (h1 d r hd).trans (h2 d r hd)

theorem purge_elsewhere (env : Env) (baseN : Int) (modifiedPaths : List String)
    (baseDocuments : DocMap) (baseResultChunks : ChunkMap) (st : PurgeState)
    (h : purge env baseN modifiedPaths baseDocuments baseResultChunks = .ok st) :
    SameElsewhere env baseN baseResultChunks st.chunks := by
  unfold purge at h
  exact forEach_rel _ (fun a b : PurgeState => SameElsewhere env baseN a.chunks b.chunks)
    (fun s => SameElsewhere_refl env baseN _)
    (fun a b c h1 h2 => SameElsewhere_trans env baseN _ _ _ h1 h2)
    (fun s x s1 hs =>
      forEach_rel (purgeRange env baseN modifiedPaths)
        (fun a b : PurgeState => SameElsewhere env baseN a.chunks b.chunks)
        (fun s => SameElsewhere_refl env baseN _)
        (fun a b c h1 h2 => SameElsewhere_trans env baseN _ _ _ h1 h2)
        (fun s x s1 hs => purgeRange_elsewhere env baseN modifiedPaths _ _ _ hs) _ _ _ hs)
    _ _ _ h

theorem mergeDefinition_elsewhere (env : Env) (baseN patchN : Int) (patchResultChunks : ChunkMap)
    (st st1 : PairState) (defn : RangeData)
    (h : mergeDefinition env baseN patchN patchResultChunks st defn = .ok st1) :
    SameElsewhere env baseN st.chunks st1.chunks := by
  unfold mergeDefinition at h
  split at h
  · simp at h
  · simp only at h
    split at h
    · simp at h
    · rename_i target calls htarget
      split at h
      · simp at h
      · rename_i t ht
        split at h
        · simp at h
        · rename_i m hm
          simp only [Except.ok.injEq] at h
          subst h
          intro c r hc
          simp only
          unfold entryList?
          rw [mapGet_mapSet]
          by_cases hcc : env.HashKey target baseN = c
          · subst hcc
            have hr : ¬ target = r := fun e => hc (by rw [e])
            simp [hm, mapGet?_mapSet, hr]
          · simp [hcc]

theorem mergePath_elsewhere (env : Env) (baseN patchN : Int) (baseDocuments : DocMap)
    (patchResultChunks : ChunkMap) (st st1 : MergeState)
    (entry : String × List (ID × RangeData))
    (h : mergePath env baseN patchN baseDocuments patchResultChunks st entry = .ok st1) :
    SameElsewhere env baseN st.chunks st1.chunks := by
  unfold mergePath at h
  simp only at h
  split at h
  · simp at h
  · split at h
    · simp at h
    · rename_i p hp
      simp only [Except.ok.injEq] at h
      subst h
      exact forEach_rel (mergeDefinition env baseN patchN patchResultChunks)
        (fun a b : PairState => SameElsewhere env baseN a.chunks b.chunks)
        (fun s => SameElsewhere_refl env baseN _)
        (fun a b c h1 h2 => SameElsewhere_trans env baseN _ _ _ h1 h2)
        (fun s x s1 hs => mergeDefinition_elsewhere env baseN patchN _ _ _ _ hs) _ _ _ hp

theorem transform_elsewhere (env : Env) (cls : Classification) (baseN patchN : Int)
    (baseDocuments : DocMap) (baseResultChunks : ChunkMap)
    (patchDocuments : DocMap) (patchResultChunks : ChunkMap)
    (documents : DocMap) (resultChunks : ChunkMap)
    (h : transform env cls baseN patchN baseDocuments baseResultChunks patchDocuments
      patchResultChunks = .ok (documents, resultChunks)) :
    SameElsewhere env baseN baseResultChunks resultChunks := by
  unfold transform at h
  split at h
  · simp at h
  · rename_i purged hp
    simp only at h
    split at h
    · simp at h
    · rename_i defs hdefs
      split at h
      · simp at h
      · rename_i merged hm
        simp only [Except.ok.injEq, Prod.mk.injEq] at h
        obtain ⟨-, hch⟩ := h
        subst hch
        refine SameElsewhere_trans env baseN _ _ _ (purge_elsewhere _ _ _ _ _ _ hp) ?_
        exact forEach_rel (mergePath env baseN patchN _ patchResultChunks)
          (fun a b : MergeState => SameElsewhere env baseN a.chunks b.chunks)
          (fun s => SameElsewhere_refl env baseN _)
          (fun a b c h1 h2 => SameElsewhere_trans env baseN _ _ _ h1 h2)
          (fun s x s1 hs => mergePath_elsewhere env baseN patchN _ _ _ _ _ hs) _ _ _ hm

/-! ## The errors `PatchDatabase` can return -/

/-- A loop returns early with an error only if one of its steps does. -/
theorem forEach_fail {σ α : Type} (body : σ → α → Except Abort σ) (P : GoError → Prop)
    (hstep : ∀ s x e, body s x = .error (.fail e) → P e) :
    ∀ (l : List α) (s : σ) (e : GoError), forEach body s l = .error (.fail e) → P e := by
  intro l
  induction l with
  | nil =>
    intro s e h
    simp [forEach] at h
  | cons x xs ih =>
    intro s e h
    simp only [forEach] at h
    split at h
    · rename_i a ha
      simp only [Except.error.injEq] at h
      subst h
      exact hstep _ _ _ ha
    · exact ih _ _ h

theorem purgeRange_fail (env : Env) (baseN : Int) (modifiedPaths : List String)
    (st : PurgeState) (rng : RangeData) (e : GoError) :
    purgeRange env baseN modifiedPaths st rng ≠ .error (.fail e) := by
  unfold purgeRange setEntryList
  intro h
  split at h
  · simp at h
  · simp only at h
    split at h
    · rename_i a ha
      split at ha
      · simp only [Except.error.injEq] at ha h
        subst ha
        simp at h
      · simp at ha
    · simp at h

theorem purge_fail (env : Env) (baseN : Int) (modifiedPaths : List String)
    (baseDocuments : DocMap) (baseResultChunks : ChunkMap) (e : GoError) :
    purge env baseN modifiedPaths baseDocuments baseResultChunks ≠ .error (.fail e) := by
  intro h
  unfold purge at h
  exact forEach_fail _ (fun _ => False)
    (fun s x e1 hs =>
      forEach_fail (purgeRange env baseN modifiedPaths) (fun _ => False)
        (fun s x e2 hs => purgeRange_fail env baseN modifiedPaths s x e2 hs) _ _ _ hs)
    _ _ _ h

theorem collectRange_fail (env : Env) (patchN : Int) (baseResultChunks : ChunkMap)
    (patchDocuments : DocMap) (acc : DefResults) (rng : RangeData) (e : GoError) :
    collectRange env patchN baseResultChunks patchDocuments acc rng ≠ .error (.fail e) := by
  unfold collectRange
  intro h
  split at h
  · simp only at h
    split at h
    · simp at h
    · simp at h
  · simp at h

theorem collectDefinitions_fail (env : Env) (patchN : Int) (indexedPaths : List String)
    (baseResultChunks : ChunkMap) (patchDocuments : DocMap) (e : GoError) :
    collectDefinitions env patchN indexedPaths baseResultChunks patchDocuments ≠
      .error (.fail e) := by
  intro h
  unfold collectDefinitions at h
  exact forEach_fail _ (fun _ => False)
    (fun s x e1 hs =>
      forEach_fail (collectRange env patchN baseResultChunks patchDocuments) (fun _ => False)
        (fun s x e2 hs => collectRange_fail env patchN _ _ s x e2 hs) _ _ _ hs)
    _ _ _ h

theorem translateRef_fail (env : Env) (patchChunk : ResultChunkData) (t : TranslateState)
    (ref : DocumentIDRangeID) (e : GoError)
    (h : translateRef env patchChunk t ref = .error (.fail e)) :
    ∃ n, env.NewRandom n = .error e := by
  unfold translateRef at h
  simp only at h
  split at h
  · simp at h
  · split at h
    · rename_i err herr
      simp only [Except.error.injEq, Abort.fail.injEq] at h
      subst h
      exact ⟨_, herr⟩
    · split at h
      · simp at h
      · simp at h

theorem advance_fail (defn : RangeData) (rest : List RangeData) :
    ∀ (baseRng : RangeData) (baseIdx : Nat) (e : GoError),
      advance defn baseRng rest baseIdx ≠ .error (.fail e) := by
  induction rest with
  | nil =>
    intro baseRng baseIdx e h
    unfold advance at h
    split at h <;> simp at h
  | cons x xs ih =>
    intro baseRng baseIdx e h
    unfold advance at h
    split at h
    · exact ih _ _ _ h
    · simp at h

theorem mergeDefinition_fail (env : Env) (baseN patchN : Int) (patchResultChunks : ChunkMap)
    (st : PairState) (defn : RangeData) (e : GoError)
    (h : mergeDefinition env baseN patchN patchResultChunks st defn = .error (.fail e)) :
    ∃ n, env.NewRandom n = .error e := by
  unfold mergeDefinition at h
  split at h
  · rename_i a ha
    simp only [Except.error.injEq] at h
    subst h
    exact absurd ha (advance_fail _ _ _ _ _)
  · simp only at h
    split at h
    · rename_i a ha
      simp only [Except.error.injEq] at h
      subst h
      unfold chooseTarget at ha
      split at ha
      · split at ha
        · rename_i err herr
          simp only [Except.error.injEq, Abort.fail.injEq] at ha
          subst ha
          exact ⟨_, herr⟩
        · simp at ha
      · simp at ha
    · split at h
      · rename_i a ha
        simp only [Except.error.injEq] at h
        subst h
        exact forEach_fail (translateRef env _) (fun e => ∃ n, env.NewRandom n = .error e)
          (fun s x e1 hs => translateRef_fail env _ s x e1 hs) _ _ _ ha
      · split at h
        · simp at h
        · simp at h

theorem mergePath_fail (env : Env) (baseN patchN : Int) (baseDocuments : DocMap)
    (patchResultChunks : ChunkMap) (st : MergeState) (entry : String × List (ID × RangeData))
    (e : GoError)
    (h : mergePath env baseN patchN baseDocuments patchResultChunks st entry =
      .error (.fail e)) :
    ∃ n, env.NewRandom n = .error e := by
  unfold mergePath at h
  simp only at h
  split at h
  · simp at h
  · split at h
    · rename_i a ha
      simp only [Except.error.injEq] at h
      subst h
      exact forEach_fail (mergeDefinition env baseN patchN patchResultChunks)
        (fun e => ∃ n, env.NewRandom n = .error e)
        (fun s x e1 hs => mergeDefinition_fail env baseN patchN _ s x e1 hs) _ _ _ ha
    · simp at h

theorem transform_fail (env : Env) (cls : Classification) (baseN patchN : Int)
    (baseDocuments : DocMap) (baseResultChunks : ChunkMap)
    (patchDocuments : DocMap) (patchResultChunks : ChunkMap) (e : GoError)
    (h : transform env cls baseN patchN baseDocuments baseResultChunks patchDocuments
      patchResultChunks = .error (.fail e)) :
    ∃ n, env.NewRandom n = .error e := by
  unfold transform at h
  split at h
  · rename_i a ha
    simp only [Except.error.injEq] at h
    subst h
    exact absurd ha (purge_fail _ _ _ _ _ _)
  · simp only at h
    split at h
    · rename_i a ha
      simp only [Except.error.injEq] at h
      subst h
      exact absurd ha (collectDefinitions_fail _ _ _ _ _ _)
    · split at h
      · rename_i a ha
        simp only [Except.error.injEq] at h
        subst h
        exact forEach_fail (mergePath env baseN patchN _ patchResultChunks)
          (fun e => ∃ n, env.NewRandom n = .error e)
          (fun s x e1 hs => mergePath_fail env baseN patchN _ _ s x e1 hs) _ _ _ ha
      · simp at h

/-! ## What the pairing loop appends -/

theorem Appended_refl (env : Env) (patchN : Int) (pc : ChunkMap) (a : ChunkMap) :
    Appended env patchN pc a a := by
  intro c t
  exact ⟨[], by simp, by simp⟩

theorem Appended_trans (env : Env) (patchN : Int) (pc : ChunkMap) (a b d : ChunkMap)
    (h1 : Appended env patchN pc a b) (h2 : Appended env patchN pc b d) :
    Appended env patchN pc a d := by
  intro c t
  obtain ⟨b1, e1, p1⟩ := h1 c t
  obtain ⟨b2, e2, p2⟩ := h2 c t
  refine ⟨b1 ++ b2, ?_, ?_⟩
  · rw [e2, e1, List.flatten_append, List.append_assoc]
  · intro batch hb
    rcases List.mem_append.mp hb with hb | hb
    · exact p1 batch hb
    · exact p2 batch hb

theorem translateRef_appends (env : Env) (patchChunk : ResultChunkData) (t t1 : TranslateState)
    (ref : DocumentIDRangeID) (h : translateRef env patchChunk t ref = .ok t1) :
    ∃ d, t1.baseRefs = t.baseRefs ++ [{ DocumentID := d, RangeID := ref.RangeID }] := by
  unfold translateRef at h
  simp only at h
  split at h
  · simp only [Except.ok.injEq] at h
    subst h
    exact ⟨_, rfl⟩
  · split at h
    · simp at h
    · split at h
      · simp at h
      · simp only [Except.ok.injEq] at h
        subst h
        exact ⟨_, rfl⟩

theorem forEach_translateRef_rangeIDs (env : Env) (patchChunk : ResultChunkData)
    (l : List DocumentIDRangeID) :
    ∀ (t t1 : TranslateState), forEach (translateRef env patchChunk) t l = .ok t1 →
      ∃ tr, t1.baseRefs = t.baseRefs ++ tr ∧
        tr.map DocumentIDRangeID.RangeID = l.map DocumentIDRangeID.RangeID := by
  induction l with
  | nil =>
    intro t t1 h
    simp only [forEach, Except.ok.injEq] at h
    subst h
    exact ⟨[], by simp, rfl⟩
  | cons x xs ih =>
    intro t t1 h
    simp only [forEach] at h
    split at h
    · simp at h
    · rename_i t2 hs
      obtain ⟨tr, e, m⟩ := ih t2 t1 h
      obtain ⟨d, hd⟩ := translateRef_appends env patchChunk t t2 x hs
      refine ⟨{ DocumentID := d, RangeID := x.RangeID } :: tr, ?_, ?_⟩
      · rw [e, hd, List.append_assoc]; rfl
      · simp [m]

theorem mergeDefinition_appended (env : Env) (baseN patchN : Int) (patchResultChunks : ChunkMap)
    (st st1 : PairState) (defn : RangeData)
    (h : mergeDefinition env baseN patchN patchResultChunks st defn = .ok st1) :
    Appended env patchN patchResultChunks st.chunks st1.chunks := by
  unfold mergeDefinition at h
  split at h
  · simp at h
  · simp only at h
    split at h
    · simp at h
    · rename_i target calls htarget
      split at h
      · simp at h
      · rename_i t ht
        obtain ⟨tr, htr, hids⟩ := forEach_translateRef_rangeIDs env _ _ _ _ ht
        simp only at htr
        split at h
        · simp at h
        · rename_i m hm
          simp only [Except.ok.injEq] at h
          subst h
          intro c r
          simp only
          by_cases hcr : env.HashKey target baseN = c ∧ target = r
          · obtain ⟨hc, hr⟩ := hcr
            subst hc
            subst hr
            refine ⟨[tr], ?_, ?_⟩
            · unfold entryList
              rw [mapGet_mapSet]
              simp only [if_true, nilMapGet, hm, mapGet_mapSet]
              simpa [nilMapGet, hm] using htr
            · intro batch hb
              simp only [List.mem_singleton] at hb
              subst hb
              exact ⟨defn.ReferenceResultID, hids⟩
          · refine ⟨[], ?_, by simp⟩
            simp only [List.flatten_nil, List.append_nil]
            unfold entryList
            rw [mapGet_mapSet]
            by_cases hc : env.HashKey target baseN = c
            · subst hc
              have hr : ¬ target = r := fun e => hcr ⟨rfl, e⟩
              simp [nilMapGet, hm, mapGet_mapSet, hr]
            · simp [hc]

theorem mergePath_appended (env : Env) (baseN patchN : Int) (baseDocuments : DocMap)
    (patchResultChunks : ChunkMap) (st st1 : MergeState)
    (entry : String × List (ID × RangeData))
    (h : mergePath env baseN patchN baseDocuments patchResultChunks st entry = .ok st1) :
    Appended env patchN patchResultChunks st.chunks st1.chunks := by
  unfold mergePath at h
  simp only at h
  split at h
  · simp at h
  · split at h
    · simp at h
    · rename_i p hp
      simp only [Except.ok.injEq] at h
      subst h
      exact forEach_rel (mergeDefinition env baseN patchN patchResultChunks)
        (fun a b : PairState => Appended env patchN patchResultChunks a.chunks b.chunks)
        (fun s => Appended_refl env patchN _ _)
        (fun a b c h1 h2 => Appended_trans env patchN _ _ _ _ h1 h2)
        (fun s x s1 hs => mergeDefinition_appended env baseN patchN _ _ _ _ hs) _ _ _ hp

/-- A loop keeps an invariant that each of its steps keeps. -/
theorem forEach_inv {σ α : Type} (body : σ → α → Except Abort σ) (I : σ → Prop) (l : List α)
    (hstep : ∀ s x s1, x ∈ l → I s → body s x = .ok s1 → I s1) :
    ∀ (s s1 : σ), I s → forEach body s l = .ok s1 → I s1 := by
  induction l with
  | nil =>
    intro s s1 hi h
    simp only [forEach, Except.ok.injEq] at h
    subst h
    exact hi
  | cons x xs ih =>
    intro s s1 hi h
    simp only [forEach] at h
    split at h
    · simp at h
    · rename_i s2 hs
      exact ih (fun s x1 s1 hx => hstep s x1 s1 (List.mem_cons_of_mem _ hx)) _ _
        (hstep _ _ _ (List.mem_cons_self _ _) hi hs) h

/-- The ids the purge loop has handled are `ReferenceResultID`s of ranges of base
documents at modified paths. -/
theorem purge_sources (env : Env) (baseN : Int) (modifiedPaths : List String)
    (baseDocuments : DocMap) (baseResultChunks : ChunkMap) (st : PurgeState)
    (h : purge env baseN modifiedPaths baseDocuments baseResultChunks = .ok st) :
    ∀ r ∈ st.deletedRefs, ∃ p ∈ modifiedPaths,
      ∃ rng ∈ (mapGet baseDocuments p).Ranges.map Prod.snd, rng.ReferenceResultID = r := by
  unfold purge at h
  refine forEach_inv _ (fun s : PurgeState => ∀ r ∈ s.deletedRefs, ∃ p ∈ modifiedPaths,
      ∃ rng ∈ (mapGet baseDocuments p).Ranges.map Prod.snd, rng.ReferenceResultID = r)
    modifiedPaths ?_ _ _ (by simp) h
  intro s p s1 hp hi hs
  refine forEach_inv (purgeRange env baseN modifiedPaths)
    (fun s : PurgeState => ∀ r ∈ s.deletedRefs, ∃ p ∈ modifiedPaths,
      ∃ rng ∈ (mapGet baseDocuments p).Ranges.map Prod.snd, rng.ReferenceResultID = r)
    _ ?_ _ _ hi hs
  intro s2 rng s3 hrng hi2 hs2
  unfold purgeRange at hs2
  split at hs2
  · simp only [Except.ok.injEq] at hs2
    subst hs2
    exact hi2
  · simp only at hs2
    split at hs2
    · simp at hs2
    · simp only [Except.ok.injEq] at hs2
      subst hs2
      intro r hr
      simp only [List.mem_cons] at hr
      rcases hr with hr | hr
      · exact ⟨p, hp, rng, hrng, hr.symm⟩
      · exact hi2 r hr

theorem purge_lists (env : Env) (baseN : Int) (modifiedPaths : List String)
    (baseDocuments : DocMap) (baseResultChunks : ChunkMap) (st : PurgeState)
    (h : purge env baseN modifiedPaths baseDocuments baseResultChunks = .ok st) (c : Int) (t : ID) :
    (((∃ p ∈ modifiedPaths, ∃ rng ∈ (mapGet baseDocuments p).Ranges.map Prod.snd,
        rng.ReferenceResultID = t) ∧ c = env.HashKey t baseN) →
      entryList st.chunks c t =
        keepUnmodified modifiedPaths baseResultChunks c (entryList baseResultChunks c t)) ∧
    (¬ ((∃ p ∈ modifiedPaths, ∃ rng ∈ (mapGet baseDocuments p).Ranges.map Prod.snd,
        rng.ReferenceResultID = t) ∧ c = env.HashKey t baseN) →
      entryList st.chunks c t = entryList baseResultChunks c t) := by
  have hsrc := purge_sources env baseN modifiedPaths baseDocuments baseResultChunks st h
  have h0 : PurgeInv env baseN modifiedPaths baseResultChunks
      { chunks := baseResultChunks, deletedRefs := [] } := by
    refine ⟨fun c => rfl, fun c r => ?_⟩
    simp
  unfold purge at h
  obtain ⟨⟨-, ib⟩, m, -⟩ := forEach_paths_inv _ _ _ _ _ _ _ _ h0 h
  constructor
  · rintro ⟨⟨p, hp, rng, hrng, hr⟩, hc⟩
    subst hr
    rw [ib]
    simp [m p hp rng hrng, hc]
  · intro hn
    rw [ib]
    have : ¬ (t ∈ st.deletedRefs ∧ c = env.HashKey t baseN) := by
      rintro ⟨h1, h2⟩
      exact hn ⟨hsrc t h1, h2⟩
    simp only [this, if_false]

/-! ## Directories under translation -/

theorem mapGet?_of_mem {K V : Type} [DecidableEq K] (m : List (K × V)) (k : K) (v : V)
    (hn : (m.map Prod.fst).Nodup) (h : (k, v) ∈ m) : mapGet? m k = some v := by
  induction m with
  | nil => simp at h
  | cons e rest ih =>
    obtain ⟨k1, v1⟩ := e
    simp only [List.map_cons, List.nodup_cons] at hn
    simp only [List.mem_cons, Prod.mk.injEq] at h
    rcases h with ⟨h1, h2⟩ | h
    · subst h1; subst h2; simp [mapGet?]
    · have hk : k ∈ rest.map Prod.fst := List.mem_map.mpr ⟨(k, v), h, rfl⟩
      have hne : ¬ k1 = k := fun e => hn.1 (e ▸ hk)
      simp [mapGet?, hne, ih hn.2 h]

theorem mapGet?_mem {K V : Type} [DecidableEq K] (m : List (K × V)) (k : K) (v : V)
    (h : mapGet? m k = some v) : (k, v) ∈ m := by
  induction m with
  | nil => simp [mapGet?] at h
  | cons e rest ih =>
    obtain ⟨k1, v1⟩ := e
    by_cases hk : k1 = k
    · subst hk
      simp only [mapGet?, if_true, Option.some.injEq] at h
      subst h
      exact List.mem_cons_self _ _
    · simp only [mapGet?, hk, if_false] at h
      exact List.mem_cons_of_mem _ (ih h)

theorem reverse_sound (l : List (ID × String)) :
    ∀ (m : List (String × ID)) (p : String) (i : ID),
      mapGet? (l.foldl (fun (m : List (String × ID)) (e : ID × String) => mapSet e.2 e.1 m) m) p
        = some i → (i, p) ∈ l ∨ mapGet? m p = some i := by
  induction l with
  | nil => intro m p i h; exact Or.inr h
  | cons e rest ih =>
    intro m p i h
    simp only [List.foldl_cons] at h
    rcases ih _ _ _ h with h1 | h1
    · exact Or.inl (List.mem_cons_of_mem _ h1)
    · rw [mapGet?_mapSet] at h1
      by_cases hp : e.2 = p
      · simp only [hp, if_true, Option.some.injEq] at h1
        subst h1
        subst hp
        exact Or.inl (List.mem_cons_self _ _)
      · simp only [hp, if_false] at h1
        exact Or.inr h1

theorem reverse_complete (l : List (ID × String)) :
    ∀ (m : List (String × ID)) (p : String),
      ((∃ i, (i, p) ∈ l) ∨ (mapGet? m p).isSome) →
      (mapGet? (l.foldl (fun (m : List (String × ID)) (e : ID × String) => mapSet e.2 e.1 m) m)
        p).isSome := by
  induction l with
  | nil =>
    intro m p h
    rcases h with ⟨i, hi⟩ | h
    · simp at hi
    · exact h
  | cons e rest ih =>
    intro m p h
    simp only [List.foldl_cons]
    apply ih
    rcases h with ⟨i, hi⟩ | h
    · simp only [List.mem_cons] at hi
      rcases hi with hi | hi
      · right
        rw [mapGet?_mapSet]
        have : e.2 = p := by rw [← hi]
        simp [this]
      · exact Or.inl ⟨i, hi⟩
    · right
      rw [mapGet?_mapSet]
      by_cases hp : e.2 = p
      · simp [hp]
      · simpa [hp] using h

theorem nilMapGet_of_mem (l : List (ID × String)) (id : ID) (p : String)
    (hn : (l.map Prod.fst).Nodup) (h : (id, p) ∈ l) :
    nilMapGet (some l) id = p := by
  simp [nilMapGet, mapGet, mapGet?_of_mem l id p hn h]

theorem reverseDirectory_ok (d : Option (List (ID × String))) (hn : (dirIDs d).Nodup) :
    RevOK d (reverseDirectory d) := by
  cases d with
  | none =>
    refine ⟨?_, ?_⟩
    · intro path id h
      simp [reverseDirectory, mapGet?] at h
    · intro id hid
      simp [dirIDs] at hid
  | some l =>
    simp only [dirIDs] at hn
    refine ⟨?_, ?_⟩
    · intro path id h
      unfold reverseDirectory at h
      simp only at h
      rcases reverse_sound l [] path id h with h1 | h1
      · exact ⟨List.mem_map.mpr ⟨(id, path), h1, rfl⟩, nilMapGet_of_mem l id path hn h1⟩
      · simp [mapGet?] at h1
    · intro id hid
      simp only [dirIDs, List.mem_map] at hid
      obtain ⟨⟨i, p⟩, hmem, hi⟩ := hid
      simp only at hi
      subst hi
      have hp : nilMapGet (some l) i = p := nilMapGet_of_mem l i p hn hmem
      rw [hp]
      have := reverse_complete l [] p (Or.inl ⟨i, hmem⟩)
      unfold reverseDirectory
      simp only
      exact Option.isSome_iff_exists.mp this

theorem nilMapGet_some_mapSet (dp : List (ID × String)) (k q : ID) (v : String) :
    nilMapGet (some (mapSet k v dp)) q = if k = q then v else nilMapGet (some dp) q := by
  simp only [nilMapGet]
  exact mapGet_mapSet dp k q v

theorem DirInv_mono (env : Env) (d0 d : Option (List (ID × String))) (calls calls1 : Nat)
    (hle : calls ≤ calls1) (h : DirInv env d0 d calls) : DirInv env d0 d calls1 := by
  obtain ⟨h1, h2, h3⟩ := h
  refine ⟨h1, h2, ?_⟩
  intro id hid hnot
  obtain ⟨⟨k, hk, hr⟩, hu⟩ := h3 id hid hnot
  exact ⟨⟨k, Nat.lt_of_lt_of_le hk hle, hr⟩, hu⟩

theorem DirExt_refl (d : Option (List (ID × String))) : DirExt d d :=
  fun _ hid => ⟨hid, rfl⟩

theorem DirExt_trans (a b c : Option (List (ID × String))) (h1 : DirExt a b) (h2 : DirExt b c) :
    DirExt a c := by
  intro id hid
  obtain ⟨m1, e1⟩ := h1 id hid
  obtain ⟨m2, e2⟩ := h2 id m1
  exact ⟨m2, e2.trans e1⟩

/-- One translated entry: what lines 197-209 do for one patch entry. -/
theorem translateRef_step (env : Env) (patchChunk : ResultChunkData)
    (d0 : Option (List (ID × String)))
    (hinj : ∀ j k id, env.NewRandom j = .ok id → env.NewRandom k = .ok id → j = k)
    (hfr : ∀ k id, env.NewRandom k = .ok id → id ∉ dirIDs d0)
    (t t1 : TranslateState) (ref : DocumentIDRangeID)
    (hd : DirInv env d0 t.documentPaths t.calls)
    (hr : RevOK t.documentPaths t.baseDocumentIDs)
    (h : translateRef env patchChunk t ref = .ok t1) :
    DirInv env d0 t1.documentPaths t1.calls ∧ RevOK t1.documentPaths t1.baseDocumentIDs ∧
    DirExt t.documentPaths t1.documentPaths ∧ t.calls ≤ t1.calls ∧
    ∃ x, t1.baseRefs = t.baseRefs ++ [x] ∧ x.RangeID = ref.RangeID ∧
      x.DocumentID ∈ dirIDs t1.documentPaths ∧
      nilMapGet t1.documentPaths x.DocumentID =
        (nilMapGet patchChunk.DocumentPaths ref.DocumentID : String) := by
  unfold translateRef at h
  simp only at h
  split at h
  · rename_i baseDocumentID hlook
    simp only [Except.ok.injEq] at h
    subst h
    obtain ⟨hin, hget⟩ := hr.1 _ _ hlook
    exact ⟨hd, hr, DirExt_refl _, Nat.le_refl _, _, rfl, rfl, hin, hget⟩
  · rename_i hlook
    split at h
    · simp at h
    · rename_i newid hnew
      split at h
      · simp at h
      · rename_i dp hdp
        simp only [Except.ok.injEq] at h
        subst h
        simp only
        rw [hdp] at hd hr
        obtain ⟨hnodup, hold, hnewids⟩ := hd
        have hkeys : dirIDs (some dp) = dp.map Prod.fst := rfl
        -- the new id is not in the directory
        have habs : newid ∉ dp.map Prod.fst := by
          intro hin
          by_cases h0 : newid ∈ dirIDs d0
          · exact hfr _ _ hnew h0
          · obtain ⟨⟨k, hk, hkr⟩, -⟩ := hnewids newid hin h0
            have := hinj _ _ _ hkr hnew
            omega
        -- the path is not in the directory
        have hpath : ∀ id ∈ dp.map Prod.fst,
            nilMapGet (some dp) id ≠
              (nilMapGet patchChunk.DocumentPaths ref.DocumentID : String) := by
          intro id hid he
          obtain ⟨id1, h1⟩ := hr.2 id hid
          rw [he, hlook] at h1
          exact Option.noConfusion h1
        have hkeys1 : dirIDs (some (mapSet newid
            (nilMapGet patchChunk.DocumentPaths ref.DocumentID : String) dp)) =
              dp.map Prod.fst ++ [newid] := by
          simp only [dirIDs]
          exact keys_mapSet_of_absent dp newid _ habs
        have hne : ∀ id ∈ dp.map Prod.fst, ¬ newid = id := fun id hid e => habs (e ▸ hid)
        have hgetold : ∀ id ∈ dp.map Prod.fst,
            nilMapGet (some (mapSet newid
              (nilMapGet patchChunk.DocumentPaths ref.DocumentID : String) dp)) id =
              nilMapGet (some dp) id := by
          intro id hid
          rw [nilMapGet_some_mapSet]
          simp [hne id hid]
        have hgetnew : nilMapGet (some (mapSet newid
              (nilMapGet patchChunk.DocumentPaths ref.DocumentID : String) dp)) newid =
              (nilMapGet patchChunk.DocumentPaths ref.DocumentID : String) := by
          rw [nilMapGet_some_mapSet]
          simp
        refine ⟨⟨?_, ?_, ?_⟩, ⟨?_, ?_⟩, ?_, Nat.le_succ _, _, rfl, rfl, ?_, hgetnew⟩
        · rw [hkeys1, List.nodup_append]
          refine ⟨hnodup, List.nodup_singleton _, ?_⟩
          intro a ha hb
          simp only [List.mem_singleton] at hb
          subst hb
          exact habs ha
        · intro id hid
          obtain ⟨hin, hget⟩ := hold id hid
          refine ⟨?_, ?_⟩
          · rw [hkeys1]; exact List.mem_append_left _ hin
          · rw [hgetold id hin]; exact hget
        · intro id hid hnot
          rw [hkeys1] at hid
          rcases List.mem_append.mp hid with hin | hin
          · obtain ⟨⟨k, hk, hkr⟩, huniq⟩ := hnewids id hin hnot
            refine ⟨⟨k, Nat.lt_succ_of_lt hk, hkr⟩, ?_⟩
            intro id1 hid1 he
            rw [hkeys1] at hid1
            rw [hgetold id hin] at he
            rcases List.mem_append.mp hid1 with hin1 | hin1
            · rw [hgetold id1 hin1] at he
              exact huniq id1 hin1 he
            · simp only [List.mem_singleton] at hin1
              subst hin1
              rw [hgetnew] at he
              exact absurd he.symm (hpath id hin)
          · simp only [List.mem_singleton] at hin
            subst hin
            refine ⟨⟨t.calls, Nat.lt_succ_self _, hnew⟩, ?_⟩
            intro id1 hid1 he
            rw [hkeys1] at hid1
            rw [hgetnew] at he
            rcases List.mem_append.mp hid1 with hin1 | hin1
            · rw [hgetold id1 hin1] at he
              exact absurd he (hpath id1 hin1)
            · simpa using hin1
        · intro path id hl
          rw [mapGet?_mapSet] at hl
          by_cases hp : (nilMapGet patchChunk.DocumentPaths ref.DocumentID : String) = path
          · simp only [hp, if_true, Option.some.injEq] at hl
            subst hl
            refine ⟨?_, ?_⟩
            · rw [hkeys1]; simp
            · rw [← hp]; exact hgetnew
          · simp only [hp, if_false] at hl
            obtain ⟨hin, hget⟩ := hr.1 _ _ hl
            refine ⟨?_, ?_⟩
            · rw [hkeys1]; exact List.mem_append_left _ hin
            · rw [hgetold id hin]; exact hget
        · intro id hid
          rw [hkeys1] at hid
          rcases List.mem_append.mp hid with hin | hin
          · rw [hgetold id hin, mapGet?_mapSet]
            obtain ⟨id1, h1⟩ := hr.2 id hin
            by_cases hp : (nilMapGet patchChunk.DocumentPaths ref.DocumentID : String) =
                nilMapGet (some dp) id
            · exact ⟨newid, by simp [hp]⟩
            · exact ⟨id1, by simp [hp, h1]⟩
          · simp only [List.mem_singleton] at hin
            subst hin
            rw [hgetnew, mapGet?_mapSet]
            exact ⟨id, by simp⟩
        · intro id hid
          rw [hdp] at hid ⊢
          refine ⟨?_, hgetold id hid⟩
          rw [hkeys1]; exact List.mem_append_left _ hid
        · rw [hkeys1]; simp

theorem forEach_translateRef_inv (env : Env) (patchChunk : ResultChunkData)
    (d0 : Option (List (ID × String)))
    (hinj : ∀ j k id, env.NewRandom j = .ok id → env.NewRandom k = .ok id → j = k)
    (hfr : ∀ k id, env.NewRandom k = .ok id → id ∉ dirIDs d0)
    (l : List DocumentIDRangeID) :
    ∀ (t t1 : TranslateState), DirInv env d0 t.documentPaths t.calls →
      RevOK t.documentPaths t.baseDocumentIDs →
      forEach (translateRef env patchChunk) t l = .ok t1 →
      DirInv env d0 t1.documentPaths t1.calls ∧
      DirExt t.documentPaths t1.documentPaths ∧ t.calls ≤ t1.calls ∧
      ∃ tr, t1.baseRefs = t.baseRefs ++ tr ∧
        List.Forall₂ (fun e x => x.RangeID = e.RangeID ∧
            x.DocumentID ∈ dirIDs t1.documentPaths ∧
            nilMapGet t1.documentPaths x.DocumentID =
              (nilMapGet patchChunk.DocumentPaths e.DocumentID : String)) l tr := by
  induction l with
  | nil =>
    intro t t1 hd hr h
    simp only [forEach, Except.ok.injEq] at h
    subst h
    exact ⟨hd, DirExt_refl _, Nat.le_refl _, [], by simp, List.Forall₂.nil⟩
  | cons e es ih =>
    intro t t1 hd hr h
    simp only [forEach] at h
    split at h
    · simp at h
    · rename_i t2 hs
      obtain ⟨hd2, hr2, hext2, hle2, x, hx, hxr, hxin, hxget⟩ :=
        translateRef_step env patchChunk d0 hinj hfr t t2 e hd hr hs
      obtain ⟨hd1, hext1, hle1, tr, htr, hall⟩ := ih t2 t1 hd2 hr2 h
      refine ⟨hd1, DirExt_trans _ _ _ hext2 hext1, Nat.le_trans hle2 hle1, x :: tr, ?_, ?_⟩
      · rw [htr, hx, List.append_assoc]; rfl
      · refine List.Forall₂.cons ⟨hxr, (hext1 _ hxin).1, ?_⟩ hall
        rw [(hext1 _ hxin).2]; exact hxget

theorem chooseTarget_calls (env : Env) (baseRng defn : RangeData) (calls calls1 : Nat) (target : ID)
    (h : chooseTarget env baseRng defn calls = .ok (target, calls1)) : calls ≤ calls1 := by
  unfold chooseTarget at h
  split at h
  · split at h
    · simp at h
    · simp only [Except.ok.injEq, Prod.mk.injEq] at h
      omega
  · simp only [Except.ok.injEq, Prod.mk.injEq] at h
    omega

theorem mergeDefinition_inv (env : Env) (baseN patchN : Int) (patchResultChunks chunks0 : ChunkMap)
    (hinj : ∀ j k id, env.NewRandom j = .ok id → env.NewRandom k = .ok id → j = k)
    (hfr : ∀ k id c, env.NewRandom k = .ok id → id ∉ dirIDs (mapGet chunks0 c).DocumentPaths)
    (st st1 : PairState) (defn : RangeData)
    (hinv : MergeInv env patchN patchResultChunks chunks0 st.chunks st.calls)
    (h : mergeDefinition env baseN patchN patchResultChunks st defn = .ok st1) :
    MergeInv env patchN patchResultChunks chunks0 st1.chunks st1.calls := by
  unfold mergeDefinition at h
  split at h
  · simp at h
  · simp only at h
    split at h
    · simp at h
    · rename_i target calls htarget
      have hcalls := chooseTarget_calls _ _ _ _ _ _ htarget
      split at h
      · simp at h
      · rename_i t ht
        obtain ⟨g1, g2⟩ := hinv
        have hd0 := DirInv_mono env _ _ _ _ hcalls (g1 (env.HashKey target baseN))
        have hloop := forEach_translateRef_inv env _ _ hinj
          (fun k id hk => hfr k id (env.HashKey target baseN) hk) _ _ _ hd0
          (reverseDirectory_ok _ hd0.1) ht
        simp only at hloop
        obtain ⟨hd1, hext, hle, tr, htr, hall⟩ := hloop
        split at h
        · simp at h
        · rename_i m hm
          simp only [Except.ok.injEq] at h
          subst h
          simp only
          refine ⟨?_, ?_⟩
          · intro c
            rw [mapGet_mapSet]
            by_cases hc : env.HashKey target baseN = c
            · subst hc
              simpa using hd1
            · simp only [hc, if_false]
              exact DirInv_mono env _ _ _ _ (Nat.le_trans hcalls hle) (g1 c)
          · intro c r
            obtain ⟨batches, hb, hgood⟩ := g2 c r
            by_cases hc : env.HashKey target baseN = c
            · subst hc
              have hlift : ∀ batch ∈ batches, ∃ r1,
                  List.Forall₂ (TranslatedFrom patchResultChunks (env.HashKey r1 patchN)
                      t.documentPaths)
                    (entryList patchResultChunks (env.HashKey r1 patchN) r1) batch := by
                intro batch hbm
                obtain ⟨r1, hf⟩ := hgood batch hbm
                refine ⟨r1, hf.imp ?_⟩
                intro e x hx
                obtain ⟨h1, h2, h3⟩ := hx
                exact ⟨h1, (hext _ h2).1, by rw [(hext _ h2).2]; exact h3⟩
              by_cases hr : target = r
              · subst hr
                refine ⟨batches ++ [tr], ?_, ?_⟩
                · have e1 : entryList (mapSet (env.HashKey target baseN)
                      { DocumentPaths := t.documentPaths
                        DocumentIDRangeIDs := some (mapSet target t.baseRefs m) } st.chunks)
                      (env.HashKey target baseN) target = t.baseRefs := by
                    unfold entryList
                    rw [mapGet_mapSet]
                    simp [nilMapGet, mapGet_mapSet]
                  rw [e1, htr]
                  have e2 : nilMapGet (mapGet st.chunks (env.HashKey target baseN)).DocumentIDRangeIDs
                      target = entryList st.chunks (env.HashKey target baseN) target := rfl
                  rw [e2, hb, List.flatten_append, List.append_assoc]
                  simp
                · intro batch hbm
                  rw [mapGet_mapSet]
                  simp only [if_true]
                  rcases List.mem_append.mp hbm with hbm | hbm
                  · exact hlift batch hbm
                  · simp only [List.mem_singleton] at hbm
                    subst hbm
                    exact ⟨defn.ReferenceResultID, hall⟩
              · refine ⟨batches, ?_, ?_⟩
                · rw [← hb]
                  unfold entryList
                  rw [mapGet_mapSet]
                  simp [nilMapGet, hm, mapGet_mapSet, hr]
                · intro batch hbm
                  rw [mapGet_mapSet]
                  simp only [if_true]
                  exact hlift batch hbm
            · refine ⟨batches, ?_, ?_⟩
              · rw [← hb]
                unfold entryList
                rw [mapGet_mapSet]
                simp [hc]
              · intro batch hbm
                rw [mapGet_mapSet]
                simp only [hc, if_false]
                exact hgood batch hbm

theorem mergePath_inv (env : Env) (baseN patchN : Int) (baseDocuments : DocMap)
    (patchResultChunks chunks0 : ChunkMap)
    (hinj : ∀ j k id, env.NewRandom j = .ok id → env.NewRandom k = .ok id → j = k)
    (hfr : ∀ k id c, env.NewRandom k = .ok id → id ∉ dirIDs (mapGet chunks0 c).DocumentPaths)
    (st st1 : MergeState) (entry : String × List (ID × RangeData))
    (hinv : MergeInv env patchN patchResultChunks chunks0 st.chunks st.calls)
    (h : mergePath env baseN patchN baseDocuments patchResultChunks st entry = .ok st1) :
    MergeInv env patchN patchResultChunks chunks0 st1.chunks st1.calls := by
  unfold mergePath at h
  simp only at h
  split at h
  · simp at h
  · split at h
    · simp at h
    · rename_i p hp
      simp only [Except.ok.injEq] at h
      subst h
      exact forEach_inv (mergeDefinition env baseN patchN patchResultChunks)
        (fun s : PairState => MergeInv env patchN patchResultChunks chunks0 s.chunks s.calls) _
        (fun s x s1 _ hi hs =>
          mergeDefinition_inv env baseN patchN patchResultChunks chunks0 hinj hfr s s1 x hi hs)
        _ _ hinv hp

theorem MergeInv_start (env : Env) (patchN : Int) (patchResultChunks chunks0 : ChunkMap)
    (hnodup : ∀ c, (dirIDs (mapGet chunks0 c).DocumentPaths).Nodup) :
    MergeInv env patchN patchResultChunks chunks0 chunks0 0 := by
  refine ⟨?_, ?_⟩
  · intro c
    exact ⟨hnodup c, fun id hid => ⟨hid, rfl⟩, fun id hid hnot => absurd hid hnot⟩
  · intro c t
    exact ⟨[], by simp, by simp⟩

/-- What the pairing loop leaves, given a fresh random source and directories with
distinct ids. -/
theorem transform_inv (env : Env) (cls : Classification) (baseN patchN : Int)
    (baseDocuments : DocMap) (baseResultChunks : ChunkMap)
    (patchDocuments : DocMap) (patchResultChunks : ChunkMap)
    (documents : DocMap) (resultChunks : ChunkMap)
    (hinj : ∀ j k id, env.NewRandom j = .ok id → env.NewRandom k = .ok id → j = k)
    (hfr : ∀ k id c, env.NewRandom k = .ok id →
      id ∉ dirIDs (mapGet baseResultChunks c).DocumentPaths)
    (hnodup : ∀ c, (dirIDs (mapGet baseResultChunks c).DocumentPaths).Nodup)
    (h : transform env cls baseN patchN baseDocuments baseResultChunks patchDocuments
      patchResultChunks = .ok (documents, resultChunks)) :
    ∃ purged calls, purge env baseN cls.modifiedPaths baseDocuments baseResultChunks = .ok purged ∧
      MergeInv env patchN patchResultChunks purged.chunks resultChunks calls := by
  unfold transform at h
  split at h
  · simp at h
  · rename_i purged hp
    simp only at h
    split at h
    · simp at h
    · rename_i defs hdefs
      split at h
      · simp at h
      · rename_i merged hm
        simp only [Except.ok.injEq, Prod.mk.injEq] at h
        obtain ⟨-, hch⟩ := h
        subst hch
        obtain ⟨hdirs, -⟩ := purge_spec _ _ _ _ _ _ hp
        refine ⟨purged, merged.calls, hp, ?_⟩
        exact forEach_inv (mergePath env baseN patchN _ patchResultChunks)
          (fun s : MergeState => MergeInv env patchN patchResultChunks purged.chunks s.chunks s.calls)
          _ (fun s x s1 _ hi hs =>
            mergePath_inv env baseN patchN _ patchResultChunks purged.chunks hinj
              (fun k id c hk => by rw [hdirs c]; exact hfr k id c hk) s s1 x hi hs)
          _ _ (MergeInv_start env patchN patchResultChunks purged.chunks
            (fun c => by rw [hdirs c]; exact hnodup c)) hm

theorem transform_appended (env : Env) (cls : Classification) (baseN patchN : Int)
    (baseDocuments : DocMap) (baseResultChunks : ChunkMap)
    (patchDocuments : DocMap) (patchResultChunks : ChunkMap)
    (documents : DocMap) (resultChunks : ChunkMap)
    (h : transform env cls baseN patchN baseDocuments baseResultChunks patchDocuments
      patchResultChunks = .ok (documents, resultChunks)) :
    ∃ purged, purge env baseN cls.modifiedPaths baseDocuments baseResultChunks = .ok purged ∧
      Appended env patchN patchResultChunks purged.chunks resultChunks := by
  unfold transform at h
  split at h
  · simp at h
  · rename_i purged hp
    simp only at h
    split at h
    · simp at h
    · rename_i defs hdefs
      split at h
      · simp at h
      · rename_i merged hm
        simp only [Except.ok.injEq, Prod.mk.injEq] at h
        obtain ⟨-, hch⟩ := h
        subst hch
        refine ⟨purged, hp, ?_⟩
        exact forEach_rel (mergePath env baseN patchN _ patchResultChunks)
          (fun a b : MergeState => Appended env patchN patchResultChunks a.chunks b.chunks)
          (fun s => Appended_refl env patchN _ _)
          (fun a b c h1 h2 => Appended_trans env patchN _ _ _ _ h1 h2)
          (fun s x s1 hs => mergePath_appended env baseN patchN _ _ _ _ _ hs) _ _ _ hm

/-! ## The random source of the concrete bundles -/

theorem demoEnv_injective (j k : Nat) (id : ID) (h1 : demoEnv.NewRandom j = .ok id)
    (h2 : demoEnv.NewRandom k = .ok id) : j = k := by
  simp only [demoEnv, Except.ok.injEq] at h1 h2
  have h := congrArg String.length (h1.trans h2.symm)
  simpa [String.length] using h

theorem demoEnv_letter (k : Nat) (id : ID) (h : demoEnv.NewRandom k = .ok id) :
    id.data.head? = some 'u' := by
  simp only [demoEnv, Except.ok.injEq] at h
  subst h
  simp [List.replicate_succ]

theorem demoEnv_fresh_fooBase : FreshSource demoEnv (loadResultChunks fooBase.toReader) := by
  refine ⟨demoEnv_injective, ?_⟩
  intro k id c hk hin
  have hu := demoEnv_letter k id hk
  have hl : loadResultChunks fooBase.toReader = [(0, fooBaseChunk)] := rfl
  rw [hl] at hin
  by_cases hc : (0 : Int) = c
  · subst hc
    have : directoryIDs [(0, fooBaseChunk)] 0 = ["da", "db", "dc"] := rfl
    rw [this] at hin
    simp only [List.mem_cons, List.mem_singleton, List.not_mem_nil, or_false] at hin
    rcases hin with h | h | h <;> subst h <;> simp at hu
  · have : directoryIDs [(0, fooBaseChunk)] c = [] := by
      simp [directoryIDs, mapGet, mapGet?, hc, dirIDs]
    rw [this] at hin
    exact absurd hin (List.not_mem_nil _)

theorem fooBase_directories_nodup (c : Int) :
    (directoryIDs (loadResultChunks fooBase.toReader) c).Nodup := by
  have hl : loadResultChunks fooBase.toReader = [(0, fooBaseChunk)] := rfl
  rw [hl]
  by_cases hc : (0 : Int) = c
  · subst hc
    have : directoryIDs [(0, fooBaseChunk)] 0 = ["da", "db", "dc"] := rfl
    rw [this]
    decide
  · have : directoryIDs [(0, fooBaseChunk)] c = [] := by
      simp [directoryIDs, mapGet, mapGet?, hc, dirIDs]
    rw [this]
    exact List.nodup_nil

/-! ## The claims, continued -/

/-- C11 (reuse by position) on a failing input: the definition of `foo` collected
for path `a` sits at line 5, below the only base range of `a` (line 0), so no base
range has its position. Instead of minting a fresh id, the pairing loop reads
`baseRngs[baseIdx+1]` past the end of the slice (line 173) and panics; with no
base range at all, line 170 panics. The whole merge panics with it. -/
theorem new_definition_below_base_ranges :
    collectDefinitions demoEnv 1 ["a"] [(0, fooBaseChunk)] (loadDocuments movedPatch) =
      .ok [("a", [("ra1", ⟨5, 0, 5, 3, "defFoo", "pref"⟩)])] ∧
    mergePath demoEnv 1 1 fooBaseDocs (loadResultChunks movedPatch)
        { chunks := [(0, fooBaseChunk)], calls := 0 }
        ("a", [("ra1", ⟨5, 0, 5, 3, "defFoo", "pref"⟩)]) =
      .error (.panic .indexOutOfRange) ∧
    mergePath demoEnv 1 1 [] (loadResultChunks movedPatch)
        { chunks := [(0, fooBaseChunk)], calls := 0 }
        ("a", [("ra1", ⟨5, 0, 5, 3, "defFoo", "pref"⟩)]) =
      .error (.panic .indexOutOfRange) ∧
    PatchDatabaseWith demoEnv adoptA fooBase movedPatch = .error .indexOutOfRange :=
  ⟨rfl, rfl, rfl, rfl⟩

/-- C12 (translated edges keep their path): given a random source that never
repeats an id nor yields a document id of the base, and base directories with
distinct ids, whenever `PatchDatabase` reaches its writes every written entry list
is what the purge loop left of it followed by translations of patch entry lists;
each translated entry has the range id of its patch entry, and its document id
resolves in the written directory of that chunk to the path the patch entry's
document id resolves to in the patch chunk; it is a document id of the loaded
directory whenever that directory had the path, and an id the merge added is the
only id of its path. -/
theorem translated_edges_keep_path (env : Env) (cls : Classification) (base : Database)
    (patch : Reader) (res : PatchResult) (chunks : ChunkMap)
    (h : PatchDatabaseWith env cls base patch = .ok res)
    (hw : res.writtenResultChunks = some chunks)
    (hfresh : FreshSource env (loadResultChunks base.toReader))
    (hnodup : ∀ c, (directoryIDs (loadResultChunks base.toReader) c).Nodup)
    (c : Int) (t : ID) :
    ∃ (purged : PurgeState) (batches : List (List DocumentIDRangeID)),
      purge env base.ReadMeta.1.NumResultChunks cls.modifiedPaths (loadDocuments base.toReader)
        (loadResultChunks base.toReader) = .ok purged ∧
      entryList chunks c t = entryList purged.chunks c t ++ batches.flatten ∧
      (∀ batch ∈ batches, ∃ r,
        List.Forall₂
          (fun (e x : DocumentIDRangeID) =>
            x.RangeID = e.RangeID ∧
            x.DocumentID ∈ directoryIDs chunks c ∧
            resolvedPath chunks c x.DocumentID =
              resolvedPath (loadResultChunks patch)
                (env.HashKey r patch.ReadMeta.1.NumResultChunks) e.DocumentID ∧
            ((∃ id0 ∈ directoryIDs (loadResultChunks base.toReader) c,
                resolvedPath (loadResultChunks base.toReader) c id0 =
                  resolvedPath (loadResultChunks patch)
                    (env.HashKey r patch.ReadMeta.1.NumResultChunks) e.DocumentID) →
              x.DocumentID ∈ directoryIDs (loadResultChunks base.toReader) c))
          (entryList (loadResultChunks patch) (env.HashKey r patch.ReadMeta.1.NumResultChunks) r)
          batch) ∧
      (∀ id ∈ directoryIDs chunks c, id ∉ directoryIDs (loadResultChunks base.toReader) c →
        ∀ id1 ∈ directoryIDs chunks c,
          resolvedPath chunks c id1 = resolvedPath chunks c id → id1 = id) := by
  obtain ⟨docs, ht⟩ := PatchDatabaseWith_chunks env cls base patch res chunks h hw
  obtain ⟨purged, calls, hp, g1, g2⟩ := transform_inv _ _ _ _ _ _ _ _ _ _ hfresh.1
    (fun k id c hk => hfresh.2 k id c hk) hnodup ht
  obtain ⟨hdirs, -⟩ := purge_spec _ _ _ _ _ _ hp
  obtain ⟨batches, hb, hgood⟩ := g2 c t
  have hdir := g1 c
  rw [hdirs c] at hdir
  obtain ⟨-, hold, hnew⟩ := hdir
  refine ⟨purged, batches, hp, hb, ?_, ?_⟩
  · intro batch hbm
    obtain ⟨r, hf⟩ := hgood batch hbm
    refine ⟨r, hf.imp ?_⟩
    intro e x hx
    obtain ⟨h1, h2, h3⟩ := hx
    refine ⟨h1, h2, h3, ?_⟩
    rintro ⟨id0, hid0, hpath⟩
    by_contra hnot
    obtain ⟨-, huniq⟩ := hnew x.DocumentID h2 hnot
    obtain ⟨hin0, hget0⟩ := hold id0 hid0
    have : id0 = x.DocumentID := by
      apply huniq id0 hin0
      rw [hget0, h3]
      exact hpath
    exact hnot (this ▸ hid0)
  · intro id hid hnot id1 hid1 he
    exact (hnew id hid hnot).2 id1 hid1 he

/-- Witness for C12: `sharedPatch` merged into `fooBase`; the entry of `d` is
appended to the list of `refFoo` under the new id `u`, which resolves to `d` and is
the only id of that path. -/
theorem translated_edges_keep_path_witness :
    (PatchDatabaseWith demoEnv fooClassification fooBase sharedPatch = .ok sharedResult ∧
      sharedResult.writtenResultChunks = some sharedChunks ∧
      FreshSource demoEnv (loadResultChunks fooBase.toReader) ∧
      ∀ c, (directoryIDs (loadResultChunks fooBase.toReader) c).Nodup) ∧
    entryList sharedChunks 0 "refFoo" = [⟨"dc", "rc1"⟩, ⟨"u", "rd1"⟩] ∧
    resolvedPath sharedChunks 0 "u" = "d" ∧
    (∀ id ∈ directoryIDs sharedChunks 0,
      id ∉ directoryIDs (loadResultChunks fooBase.toReader) 0 →
      ∀ id1 ∈ directoryIDs sharedChunks 0,
        resolvedPath sharedChunks 0 id1 = resolvedPath sharedChunks 0 id → id1 = id) := by
  refine ⟨⟨rfl, rfl, demoEnv_fresh_fooBase, fooBase_directories_nodup⟩, rfl, rfl, ?_⟩
  obtain ⟨_, _, _, _, _, hu⟩ := translated_edges_keep_path demoEnv fooClassification fooBase
    sharedPatch sharedResult sharedChunks rfl rfl demoEnv_fresh_fooBase
    fooBase_directories_nodup 0 "refFoo"
  exact hu

/-- C13 (adopted ranges point at the chosen result set) on a failing input: the
entry of range `rd1` of the added document `d` is appended to the list of the
chosen id `refFoo`, but the document written for `d` is the patch's document as
loaded, whose range `rd1` still has the patch's `ReferenceResultID` `pref`:
lines 210-211 assign the chosen id to a local copy of a range. -/
theorem adopted_range_keeps_patch_id :
    PatchDatabaseWith demoEnv fooClassification fooBase sharedPatch = .ok sharedResult ∧
    entryList sharedChunks 0 "refFoo" = [⟨"dc", "rc1"⟩, ⟨"u", "rd1"⟩] ∧
    resolvedPath sharedChunks 0 "u" = "d" ∧
    (mapGet (mapGet sharedDocs "d").Ranges "rd1").ReferenceResultID = "pref" :=
  ⟨rfl, rfl, rfl, rfl⟩

/-- C14 (prior referrers survive) on a failing input: two definitions of `a` are
each paired with a base range whose `ReferenceResultID` is `refFoo`, and `c`, the
one referrer the base has, is not classified. The loop of lines 171-214 appends the
patch list of `pref` once for each of the two definitions, so the written list of
`refFoo` is the base's entry followed by the translated patch entries twice, not
once: the referrers in `d` are duplicated. -/
theorem translated_entries_appended_twice :
    PatchDatabaseWith demoEnv addD twinBase twinPatch = .ok twinResult ∧
    twinResult.writtenResultChunks = some twinChunks ∧
    entryList (loadResultChunks twinPatch) 0 "pref" = [⟨"pd", "rd1"⟩, ⟨"pd", "rd2"⟩] ∧
    entryList twinChunks 0 "refFoo" =
      [⟨"dc", "rc1"⟩, ⟨"u", "rd1"⟩, ⟨"u", "rd2"⟩, ⟨"u", "rd1"⟩, ⟨"u", "rd2"⟩] ∧
    entryList twinChunks 0 "refFoo" ≠ [⟨"dc", "rc1"⟩, ⟨"u", "rd1"⟩, ⟨"u", "rd2"⟩] :=
  ⟨rfl, rfl, rfl, rfl, by decide⟩

/-- The frame of the entry lists: whenever `PatchDatabase` reaches its writes, the
entry list written for a result id `t` in chunk `c` is what the purge loop kept of
the base's loaded list, unchanged and in the same order, followed by zero or more
translated patch entry lists, each with the range ids of a patch entry list in the
patch's order. What the purge loop kept is the loaded list without the
entries resolving to a path of `modifiedPaths` when `t` is the `ReferenceResultID`
of a range of the base document of such a path and `c` is the chunk `t` hashes to,
and the whole loaded list otherwise. -/
theorem prior_referrers_survive (env : Env) (cls : Classification) (base : Database)
    (patch : Reader) (res : PatchResult) (chunks : ChunkMap)
    (h : PatchDatabaseWith env cls base patch = .ok res)
    (hw : res.writtenResultChunks = some chunks) (c : Int) (t : ID) :
    ∃ (kept : List DocumentIDRangeID) (batches : List (List DocumentIDRangeID)),
      entryList chunks c t = kept ++ batches.flatten ∧
      (((∃ p ∈ cls.modifiedPaths,
          ∃ rng ∈ (mapGet (loadDocuments base.toReader) p).Ranges.map Prod.snd,
            rng.ReferenceResultID = t) ∧
          c = env.HashKey t base.ReadMeta.1.NumResultChunks) →
        kept = keepUnmodified cls.modifiedPaths (loadResultChunks base.toReader) c
          (entryList (loadResultChunks base.toReader) c t)) ∧
      (¬ ((∃ p ∈ cls.modifiedPaths,
          ∃ rng ∈ (mapGet (loadDocuments base.toReader) p).Ranges.map Prod.snd,
            rng.ReferenceResultID = t) ∧
          c = env.HashKey t base.ReadMeta.1.NumResultChunks) →
        kept = entryList (loadResultChunks base.toReader) c t) ∧
      ∀ batch ∈ batches, ∃ r,
        batch.map DocumentIDRangeID.RangeID =
          (entryList (loadResultChunks patch)
            (env.HashKey r patch.ReadMeta.1.NumResultChunks) r).map
            DocumentIDRangeID.RangeID := by
  obtain ⟨docs, ht⟩ := PatchDatabaseWith_chunks env cls base patch res chunks h hw
  obtain ⟨purged, hp, happ⟩ := transform_appended _ _ _ _ _ _ _ _ _ _ ht
  obtain ⟨batches, hb, hgood⟩ := happ c t
  obtain ⟨hk1, hk2⟩ := purge_lists _ _ _ _ _ _ hp c t
  exact ⟨entryList purged.chunks c t, batches, hb, hk1, hk2, hgood⟩

/-- The frame of the entry lists on `sharedPatch` merged into `fooBase`, for the
written list of `refFoo`. -/
theorem prior_referrers_survive_witness :
    (PatchDatabaseWith demoEnv fooClassification fooBase sharedPatch = .ok sharedResult ∧
      sharedResult.writtenResultChunks = some sharedChunks) ∧
    ∃ (kept : List DocumentIDRangeID) (batches : List (List DocumentIDRangeID)),
      entryList sharedChunks 0 "refFoo" = kept ++ batches.flatten ∧
      ∀ batch ∈ batches, ∃ r,
        batch.map DocumentIDRangeID.RangeID =
          (entryList (loadResultChunks sharedPatch)
            (demoEnv.HashKey r sharedPatch.ReadMeta.1.NumResultChunks) r).map
            DocumentIDRangeID.RangeID := by
  refine ⟨⟨rfl, rfl⟩, ?_⟩
  obtain ⟨kept, batches, h1, -, -, h4⟩ := prior_referrers_survive demoEnv fooClassification
    fooBase sharedPatch sharedResult sharedChunks rfl rfl 0 "refFoo"
  exact ⟨kept, batches, h1, h4⟩

/-- C15 (the sharding invariant is preserved by the merge): whenever
`PatchDatabase` reaches its writes, for every result id `r` and every chunk other
than `HashKey(r, baseMeta.NumResultChunks)`, what the written chunk holds under `r`
is what the loaded chunk held (the same list, or none): the purge and the appends
change and create lists only in the chunk the id hashes to. -/
theorem sharding_preserved (env : Env) (cls : Classification) (base : Database)
    (patch : Reader) (res : PatchResult) (chunks : ChunkMap)
    (h : PatchDatabaseWith env cls base patch = .ok res)
    (hw : res.writtenResultChunks = some chunks) (c : Int) (r : ID)
    (hc : c ≠ env.HashKey r base.ReadMeta.1.NumResultChunks) :
    entryList? chunks c r = entryList? (loadResultChunks base.toReader) c r := by
  obtain ⟨docs, ht⟩ := PatchDatabaseWith_chunks env cls base patch res chunks h hw
  exact (transform_elsewhere _ _ _ _ _ _ _ _ _ _ ht c r hc).symm

/-- Witness for C15: `b` purged from a base with two chunks; the stray list under
`refFoo` in chunk 0 is written back as loaded, the list in chunk 1 is purged. -/
theorem sharding_preserved_witness :
    (PatchDatabaseWith twoChunkEnv purgeB twoChunkBase emptyPatch = .ok twoChunkResult ∧
      twoChunkResult.writtenResultChunks = some twoChunkChunks ∧
      (0 : Int) ≠ twoChunkEnv.HashKey "refFoo" twoChunkBase.ReadMeta.1.NumResultChunks) ∧
    entryList? twoChunkChunks 0 "refFoo" = some [⟨"db", "stale"⟩] ∧
    entryList? twoChunkChunks 1 "refFoo" = some [⟨"dc", "rc1"⟩] :=
  ⟨⟨rfl, rfl, by decide⟩,
    (sharding_preserved twoChunkEnv purgeB twoChunkBase emptyPatch twoChunkResult twoChunkChunks
      rfl rfl 0 "refFoo" (by decide)).trans rfl, rfl⟩

/-- C16 (dangling ids are fatal, not skipped) on failing inputs, the added document
`d` having one range with a definition id in each. With no entry list for the id,
and with an empty one, `[0]` on line 142 panics. With a first entry whose document
id is in no directory, the definition is collected under the empty path, where the
base has no range, and `baseRngs[0]` on line 170 panics. With a first entry whose
range id is in no document, the merge goes on with the zero range, makes both
writes and returns nil. No input gets a non-nil error. -/
theorem dangling_ids_not_reported :
    (entryList? (loadResultChunks fooBase.toReader) 0 "nowhere" = none ∧
      entryList? (loadResultChunks noListPatch) 0 "nowhere" = none ∧
      collectDefinitions demoEnv 1 ["d"] (loadResultChunks fooBase.toReader)
          (loadDocuments noListPatch) = .error (.panic .indexOutOfRange) ∧
      PatchDatabaseWith demoEnv addD fooBase noListPatch = .error .indexOutOfRange) ∧
    (entryList? (loadResultChunks emptyListBase.toReader) 0 "nowhere" = some [] ∧
      entryList? (loadResultChunks emptyListPatch) 0 "nowhere" = some [] ∧
      collectDefinitions demoEnv 1 ["d"] (loadResultChunks emptyListBase.toReader)
          (loadDocuments emptyListPatch) = .error (.panic .indexOutOfRange) ∧
      PatchDatabaseWith demoEnv addD emptyListBase emptyListPatch = .error .indexOutOfRange) ∧
    ((entryList (loadResultChunks strayBase.toReader) 0 "defFoo").head? =
        some ⟨"gone", "ra1"⟩ ∧
      (entryList (loadResultChunks strayPatch) 0 "defFoo").head? = some ⟨"gone", "ra1"⟩ ∧
      "gone" ∉ directoryIDs (loadResultChunks strayBase.toReader) 0 ∧
      "gone" ∉ directoryIDs (loadResultChunks strayPatch) 0 ∧
      collectDefinitions demoEnv 1 ["d"] (loadResultChunks strayBase.toReader)
          (loadDocuments strayPatch) = .ok [("", [("ra1", default)])] ∧
      mergePath demoEnv 1 1 (loadDocuments strayBase.toReader) (loadResultChunks strayPatch)
          { chunks := loadResultChunks strayBase.toReader, calls := 0 }
          ("", [("ra1", default)]) = .error (.panic .indexOutOfRange) ∧
      PatchDatabaseWith demoEnv addD strayBase strayPatch = .error .indexOutOfRange) ∧
    ((entryList (loadResultChunks ghostBase.toReader) 0 "defFoo").head? =
        some ⟨"da", "ghost"⟩ ∧
      mapGet? (mapGet (loadDocuments ghostBase.toReader) "a").Ranges "ghost" = none ∧
      mapGet? (mapGet (loadDocuments ghostPatch) "a").Ranges "ghost" = none ∧
      PatchDatabaseWith demoEnv addD ghostBase ghostPatch = .ok ghostResult ∧
      ghostResult.err = none) :=
  ⟨⟨rfl, rfl, rfl, rfl⟩, ⟨rfl, rfl, rfl, rfl⟩, ⟨rfl, rfl, by decide, by decide, rfl, rfl, rfl⟩,
    ⟨rfl, rfl, rfl, rfl, rfl⟩⟩

/-- A dangling range id alone: the adopted range `rd1` of `d` has the definition id
`defFoo`, whose first entry names the range id `ghost`, which resolves to no range
of `a` in the base nor in the patch; `PatchDatabase` goes on with the zero range,
makes both writes and returns nil. -/
theorem dangling_range_id_ignored :
    (entryList (loadResultChunks ghostBase.toReader) 0 "defFoo").head? =
      some ⟨"da", "ghost"⟩ ∧
    (entryList (loadResultChunks ghostPatch) 0 "defFoo").head? = some ⟨"pa", "ghost"⟩ ∧
    mapGet? (mapGet (loadDocuments ghostBase.toReader) "a").Ranges "ghost" = none ∧
    mapGet? (mapGet (loadDocuments ghostPatch) "a").Ranges "ghost" = none ∧
    PatchDatabaseWith demoEnv addD ghostBase ghostPatch = .ok ghostResult ∧
    ghostResult.err = none :=
  ⟨rfl, rfl, rfl, rfl, rfl, rfl⟩

/-- Where the errors of `PatchDatabase` come from: every non-nil error it returns is
the error of a failed `uuid.NewRandom` or the error of `WriteResultChunks`; no
check of the ids yields one. -/
theorem errors_of_PatchDatabase (env : Env) (cls : Classification) (base : Database)
    (patch : Reader) (res : PatchResult) (e : GoError)
    (h : PatchDatabaseWith env cls base patch = .ok res) (he : res.err = some e) :
    (∃ n, env.NewRandom n = .error e) ∨
    (∃ chunks, res.writtenResultChunks = some chunks ∧ base.WriteResultChunks chunks = some e) := by
  unfold PatchDatabaseWith at h
  simp only at h
  split at h
  · exact absurd h (by simp)
  · rename_i err ht
    cases h
    simp only [Option.some.injEq] at he
    subst he
    exact Or.inl (transform_fail _ _ _ _ _ _ _ _ _ ht)
  · rename_i documents resultChunks ht
    cases h
    exact Or.inr ⟨resultChunks, rfl, he⟩

/-- On `chunkWriteFailsBase` the error returned is the one of `WriteResultChunks`. -/
theorem errors_of_PatchDatabase_witness :
    (PatchDatabaseWith demoEnv Classification.unpopulated chunkWriteFailsBase emptyPatch =
        .ok chunkWriteFailsResult ∧
      chunkWriteFailsResult.err = some (.plain "disk full")) ∧
    ((∃ n, demoEnv.NewRandom n = .error (.plain "disk full")) ∨
      (∃ chunks, chunkWriteFailsResult.writtenResultChunks = some chunks ∧
        chunkWriteFailsBase.WriteResultChunks chunks = some (.plain "disk full"))) :=
  ⟨⟨rfl, rfl⟩,
    errors_of_PatchDatabase demoEnv Classification.unpopulated chunkWriteFailsBase emptyPatch
      chunkWriteFailsResult (.plain "disk full") rfl rfl⟩

/-- C17 (`IDSet.Add` fails if the id is present): for every table, id and handle,
when the id is absent `Add` returns true, stores the handle under the id and leaves
every other entry as it was; when the id is present `Add` returns false and leaves
the table unchanged, the original handle still stored under the id. -/
theorem IDSet_Add_spec (i : IDSet) (id : Int) (cancel : CancelFunc) :
    (mapGet? i.ids id = none →
      (i.Add id cancel).2 = true ∧ mapGet? (i.Add id cancel).1.ids id = some cancel ∧
      ∀ j, j ≠ id → mapGet? (i.Add id cancel).1.ids j = mapGet? i.ids j) ∧
    (∀ old, mapGet? i.ids id = some old →
      (i.Add id cancel).2 = false ∧ (i.Add id cancel).1 = i ∧
      mapGet? (i.Add id cancel).1.ids id = some old) := by
  constructor
  · intro h
    simp only [IDSet.Add, h, mapGet?_mapSet, if_true, true_and]
    intro j hj
    have : ¬ id = j := fun e => hj e.symm
    simp [this]
  · intro old h
    simp [IDSet.Add, h]

/-- Witness for C17: adding id 7 to the empty table, then adding it again. -/
theorem IDSet_Add_spec_witness :
    (mapGet? newIDSet.ids 7 = none ∧ (newIDSet.Add 7 1).2 = true ∧
      mapGet? (newIDSet.Add 7 1).1.ids 7 = some 1) ∧
    (mapGet? (newIDSet.Add 7 1).1.ids 7 = some 1 ∧
      ((newIDSet.Add 7 1).1.Add 7 2).2 = false ∧
      mapGet? ((newIDSet.Add 7 1).1.Add 7 2).1.ids 7 = some 1) :=
  ⟨⟨rfl, ((IDSet_Add_spec newIDSet 7 1).1 rfl).1, ((IDSet_Add_spec newIDSet 7 1).1 rfl).2.1⟩,
   ⟨rfl, ((IDSet_Add_spec (newIDSet.Add 7 1).1 7 2).2 1 rfl).1,
     ((IDSet_Add_spec (newIDSet.Add 7 1).1 7 2).2 1 rfl).2.2⟩⟩

/-- C18 (`IDSet.Remove` removes and cancels): for every table and id, after
`Remove` the id is absent and every other entry is unchanged; the handle stored for
the id is called exactly once when the id was present, and no handle is called when
it was absent. -/
theorem IDSet_Remove_spec (i : IDSet) (id : Int) :
    mapGet? (i.Remove id).1.ids id = none ∧
    (∀ j, j ≠ id → mapGet? (i.Remove id).1.ids j = mapGet? i.ids j) ∧
    (∀ cancel, mapGet? i.ids id = some cancel → (i.Remove id).2 = [cancel]) ∧
    (mapGet? i.ids id = none → (i.Remove id).2 = []) := by
  have h1 : (i.Remove id).1 = { ids := mapDelete id i.ids } := by
    unfold IDSet.Remove
    cases mapGet? i.ids id <;> rfl
  refine ⟨?_, ?_, ?_, ?_⟩
  · rw [h1]; simp [mapGet?_mapDelete]
  · intro j hj
    rw [h1]
    have : ¬ id = j := fun e => hj e.symm
    simp [mapGet?_mapDelete, this]
  · intro cancel h
    simp [IDSet.Remove, h]
  · intro h
    simp [IDSet.Remove, h]

/-- Witness for C18: removing id 7 from a table that holds it, and from the empty
table. -/
theorem IDSet_Remove_spec_witness :
    (mapGet? (newIDSet.Add 7 1).1.ids 7 = some 1 ∧ ((newIDSet.Add 7 1).1.Remove 7).2 = [1]) ∧
    (mapGet? newIDSet.ids 7 = none ∧ (newIDSet.Remove 7).2 = []) :=
  ⟨⟨rfl, (IDSet_Remove_spec (newIDSet.Add 7 1).1 7).2.2.1 1 rfl⟩,
   ⟨rfl, (IDSet_Remove_spec newIDSet 7).2.2.2 rfl⟩⟩

/-- C19 (`IDSet.Slice` is an ordered snapshot): for every table reached from
`newIDSet` by calls of `Add` and `Remove`, `Slice` leaves the table unchanged and
returns, in strictly ascending order (hence without duplicates), exactly the ids
that were added with `Add` returning true and not removed since. -/
theorem IDSet_Slice_spec (calls : List IDSetCall) :
    ((IDSet.replay calls).1.Slice).1 = (IDSet.replay calls).1 ∧
    (((IDSet.replay calls).1.Slice).2).Sorted (fun a b => a < b) ∧
    ∀ id, id ∈ ((IDSet.replay calls).1.Slice).2 ↔ id ∈ (IDSet.replay calls).2 := by
  obtain ⟨hn, hm⟩ := IDSet_replay_inv calls (newIDSet, []) (by simp [newIDSet])
  have hperm := List.perm_insertionSort (fun a b : Int => a ≤ b)
    ((IDSet.replay calls).1.ids.map Prod.fst)
  refine ⟨rfl, ?_, ?_⟩
  · have hs := List.sorted_insertionSort (fun a b : Int => a ≤ b)
      ((IDSet.replay calls).1.ids.map Prod.fst)
    have hnd : (((IDSet.replay calls).1.Slice).2).Nodup := (hperm.nodup_iff).mpr hn
    exact List.Sorted.lt_of_le hs hnd
  · intro id
    unfold IDSet.Slice
    simp only
    rw [hperm.mem_iff]
    exact hm id

/-- C20 (`DrawLocations` requires the same URI): for every contents string and every
pair of locations whose URIs differ, `DrawLocations` returns the empty string and a
non-nil error. -/
theorem DrawLocations_requires_same_URI (contents : String) (expected actual : Location)
    (h : expected.URI ≠ actual.URI) :
    DrawLocations contents expected actual =
      .ok ("", some (.plain "Must pass in two locations with the same URI")) := by
  unfold DrawLocations
  simp [h]

/-- Witness for C20: the input of `TestRequiresSameURI`. -/
theorem DrawLocations_requires_same_URI_witness :
    ("file://a" : String) ≠ "file://b" ∧
    DrawLocations "\nint exported_function(int a) \x7b\n\treturn a + 1\n\x7d"
        { URI := "file://a", Range := default } { URI := "file://b", Range := default } =
      .ok ("", some (.plain "Must pass in two locations with the same URI")) :=
  ⟨by decide, DrawLocations_requires_same_URI _ _ _ (by decide)⟩

/-! ## `Combine` and `Matches` -/

/-- The loop of `Combine` once `err` is non-nil. -/
theorem Combine_foldl_some (errs : List Error) (a : GoError) :
    errs.foldl combineStep (some a) =
      if errs.filterMap id = [] then some a
      else some (.multi (a.members ++ (errs.filterMap id).flatMap GoError.members)) := by
  induction errs generalizing a with
  | nil => simp
  | cons e rest ih =>
    cases e with
    | none => simpa [combineStep] using ih a
    | some x =>
      simp only [List.foldl_cons, combineStep]
      rw [ih]
      by_cases h : rest.filterMap id = []
      · simp [h, multierrorAppend]
      · simp [h, multierrorAppend, GoError.members]

theorem Combine_foldl_none (errs : List Error) :
    Combine errs =
      match errs.filterMap id with
      | [] => none
      | [x] => some x
      | x :: y :: rest => some (.multi ((x :: y :: rest).flatMap GoError.members)) := by
  unfold Combine
  induction errs with
  | nil => simp
  | cons e rest ih =>
    cases e with
    | none => simpa [combineStep] using ih
    | some x =>
      simp only [List.foldl_cons, combineStep]
      rw [Combine_foldl_some]
      cases h : rest.filterMap id with
      | nil => simp [h]
      | cons y more => simp [h]

theorem Unwrap_iterate_none (n : Nat) : Unwrap^[n] none = none := by
  induction n with
  | zero => rfl
  | succ n ih => rw [Function.iterate_succ_apply]; exact ih

theorem Reached_some (e x : ChainError) :
    Reached (some e) x ↔ x = e ∨ Reached (Unwrap (some e)) x := by
  constructor
  · rintro ⟨n, hn⟩
    cases n with
    | zero => left; simpa using hn.symm
    | succ n => right; exact ⟨n, by rwa [Function.iterate_succ_apply] at hn⟩
  · rintro (h | ⟨n, hn⟩)
    · exact ⟨0, by simp [h]⟩
    · exact ⟨n + 1, by rwa [Function.iterate_succ_apply]⟩

theorem Reached_none (x : ChainError) : ¬ Reached none x := by
  rintro ⟨n, hn⟩
  rw [Unwrap_iterate_none] at hn
  cases hn

theorem Matches_step (e : ChainError) (predicate : ChainError → Bool) :
    Matches (some e) predicate =
      if predicate e then true else Matches (Unwrap (some e)) predicate := by
  cases e with
  | leaf msg => simp [Matches, matchesLoop, Unwrap]
  | wrap msg inner => simp [Matches, matchesLoop, Unwrap]

theorem matchesLoop_iff (predicate : ChainError → Bool) (e : ChainError) :
    matchesLoop predicate e = true ↔ ∃ x, Reached (some e) x ∧ predicate x = true := by
  induction e with
  | leaf msg =>
    have key : ∀ x, Reached (some (.leaf msg)) x ↔ x = .leaf msg := by
      intro x
      rw [Reached_some]
      constructor
      · rintro (h | h)
        · exact h
        · exact absurd h (Reached_none x)
      · exact Or.inl
    simp only [matchesLoop, key]
    constructor
    · intro h
      refine ⟨.leaf msg, rfl, ?_⟩
      by_cases hp : predicate (.leaf msg) = true
      · exact hp
      · simp [hp] at h
    · rintro ⟨x, hx, hp⟩
      subst hx; simp [hp]
  | wrap msg inner ih =>
    have key : ∀ x, Reached (some (.wrap msg inner)) x ↔
        x = .wrap msg inner ∨ Reached (some inner) x := fun x => Reached_some _ x
    simp only [matchesLoop, key]
    constructor
    · intro h
      by_cases hp : predicate (.wrap msg inner) = true
      · exact ⟨_, Or.inl rfl, hp⟩
      · simp only [hp] at h
        obtain ⟨x, hx, hpx⟩ := ih.mp (by simpa using h)
        exact ⟨x, Or.inr hx, hpx⟩
    · rintro ⟨x, hx | hx, hp⟩
      · subst hx; simp [hp]
      · by_cases hq : predicate (.wrap msg inner) = true
        · simp [hq]
        · simp only [hq]
          simpa using ih.mpr ⟨x, hx, hp⟩

/-! ## Splitting the output of git into lines and fields -/

theorem splitAtLineFeeds_append (cs : List Char) (h : '\n' ∉ cs) (piece rest : List Char) :
    splitAtLineFeeds piece (cs ++ rest) = splitAtLineFeeds (cs.reverse ++ piece) rest := by
  induction cs generalizing piece with
  | nil => simp
  | cons c cs ih =>
    have hc : c ≠ '\n' := fun e => h (by simp [e])
    have hcs : '\n' ∉ cs := fun e => h (by simp [e])
    rw [List.cons_append, splitAtLineFeeds, if_neg hc, ih hcs]
    simp

theorem stringsSplit_single (a : String) (h : '\n' ∉ a.toList) : stringsSplit a = [a] := by
  unfold stringsSplit
  have := splitAtLineFeeds_append a.toList h [] []
  simp only [List.append_nil] at this
  rw [this]
  simp [splitAtLineFeeds]

theorem stringsSplit_cons (a rest : String) (h : '\n' ∉ a.toList) :
    stringsSplit (a ++ "\n" ++ rest) = a :: stringsSplit rest := by
  unfold stringsSplit
  have e : (a ++ "\n" ++ rest).toList = a.toList ++ ('\n' :: rest.toList) := by
    simp [String.toList, String.data_append]
  rw [e, splitAtLineFeeds_append a.toList h]
  simp [splitAtLineFeeds]

theorem stringsSplit_joinLines (ss : List String) (hne : ss ≠ [])
    (h : ∀ s ∈ ss, '\n' ∉ s.toList) : stringsSplit (joinLines ss) = ss := by
  induction ss with
  | nil => exact absurd rfl hne
  | cons a rest ih =>
    cases rest with
    | nil => exact stringsSplit_single a (h a (by simp))
    | cons b rest =>
      simp only [joinLines]
      rw [stringsSplit_cons a _ (h a (by simp)), ih (by simp) (fun s hs => h s (by simp [hs]))]

theorem stringsSplit_joinLines_append (ss : List String) (h : ∀ s ∈ ss, '\n' ∉ s.toList)
    (bad : String) (hb : '\n' ∉ bad.toList) (tail : List String) :
    ∃ after, stringsSplit (joinLines (ss ++ bad :: tail)) = ss ++ bad :: after := by
  induction ss with
  | nil =>
    cases tail with
    | nil => exact ⟨[], by simpa [joinLines] using stringsSplit_single bad hb⟩
    | cons t ts => exact ⟨_, by simpa [joinLines] using stringsSplit_cons bad _ hb⟩
  | cons a rest ih =>
    obtain ⟨after, ha⟩ := ih (fun s hs => h s (by simp [hs]))
    refine ⟨after, ?_⟩
    have e : joinLines (a :: rest ++ bad :: tail) =
        a ++ "\n" ++ joinLines (rest ++ bad :: tail) := by
      cases rest <;> simp [joinLines]
    rw [e, stringsSplit_cons a _ (h a (by simp)), ha]
    simp

theorem fieldsOf_append (cs : List Char) (h : ∀ c ∈ cs, unicodeIsSpace c = false)
    (piece rest : List Char) :
    fieldsOf piece (cs ++ rest) = fieldsOf (cs.reverse ++ piece) rest := by
  induction cs generalizing piece with
  | nil => simp
  | cons c cs ih =>
    have hc : unicodeIsSpace c = false := h c (by simp)
    rw [List.cons_append, fieldsOf, hc, if_neg Bool.false_ne_true,
      ih (fun d hd => h d (by simp [hd]))]
    simp

theorem stringsFields_word (w : String) (h : plainPath w) : stringsFields w = [w] := by
  unfold stringsFields
  have := fieldsOf_append w.toList h.2 [] []
  simp only [List.append_nil] at this
  rw [this]
  have hne : ¬ w.data = [] := by
    intro e
    exact h.1 (String.ext e)
  simp [fieldsOf, hne]

theorem stringsFields_tab (w rest : String) (h : plainPath w) :
    stringsFields (w ++ "\t" ++ rest) = w :: stringsFields rest := by
  unfold stringsFields
  have e : (w ++ "\t" ++ rest).toList = w.toList ++ ('\t' :: rest.toList) := by
    simp [String.toList, String.data_append]
  rw [e, fieldsOf_append w.toList h.2]
  have hne : ¬ w.data = [] := by
    intro e
    exact h.1 (String.ext e)
  have ht : unicodeIsSpace '\t' = true := by decide
  simp [fieldsOf, hne, ht]

/-- The map after the given assignments, made in order. -/
theorem mapGet?_foldl_assign (l : List (String × Status)) (m : List (String × Status))
    (p : String) :
    mapGet? (l.foldl (fun m e => mapSet e.1 e.2 m) m) p =
      match lastStatus l p with
      | some s => some s
      | none => mapGet? m p := by
  induction l generalizing m with
  | nil => simp [lastStatus]
  | cons e rest ih =>
    simp only [List.foldl_cons, ih, lastStatus, List.reverse_cons, List.find?_append]
    cases h : List.find? (fun e => decide (e.1 = p)) rest.reverse with
    | some x => simp
    | none =>
      simp only [Option.none_or, Option.map_none']
      rw [mapGet?_mapSet]
      by_cases hp : e.1 = p <;> simp [hp]

theorem plainPath_letter (c : Char) (hc : unicodeIsSpace c = false) (score : String)
    (hs : spaceFree score) : plainPath (String.singleton c ++ score) := by
  constructor
  · intro e
    have := congrArg String.data e
    simp [String.data_append, String.singleton] at this
  · intro d hd
    simp only [String.toList, String.data_append, String.singleton, List.mem_append] at hd
    rcases hd with hd | hd
    · simp at hd; subst hd; exact hc
    · exact hs d hd

theorem diffLine_text (l : DiffLine) (h : l.WellFormed) (m : List (String × Status)) :
    diffLine m l.text = .ok (l.statuses.foldl (fun m e => mapSet e.1 e.2 m) m) := by
  have hM : plainPath "M" := ⟨by decide, by unfold spaceFree; decide⟩
  have hD : plainPath "D" := ⟨by decide, by unfold spaceFree; decide⟩
  have hA : plainPath "A" := ⟨by decide, by unfold spaceFree; decide⟩
  cases l with
  | modified path =>
    have hf : stringsFields ("M" ++ "\t" ++ path) = ["M", path] := by
      rw [stringsFields_tab _ _ hM, stringsFields_word _ h]
    simp only [DiffLine.text, diffLine, hf, DiffLine.statuses]
    rfl
  | deleted path =>
    have hf : stringsFields ("D" ++ "\t" ++ path) = ["D", path] := by
      rw [stringsFields_tab _ _ hD, stringsFields_word _ h]
    simp only [DiffLine.text, diffLine, hf, DiffLine.statuses]
    rfl
  | added path =>
    have hf : stringsFields ("A" ++ "\t" ++ path) = ["A", path] := by
      rw [stringsFields_tab _ _ hA, stringsFields_word _ h]
    simp only [DiffLine.text, diffLine, hf, DiffLine.statuses]
    rfl
  | renamed score oldPath newPath =>
    obtain ⟨hs, ho, hn⟩ := h
    have hw : plainPath ("R" ++ score) := plainPath_letter 'R' (by decide) score hs
    have hf : stringsFields ("R" ++ score ++ "\t" ++ oldPath ++ "\t" ++ newPath) =
        ["R" ++ score, oldPath, newPath] := by
      have e : "R" ++ score ++ "\t" ++ oldPath ++ "\t" ++ newPath =
          ("R" ++ score) ++ "\t" ++ (oldPath ++ "\t" ++ newPath) := by
        simp [String.append_assoc]
      rw [e, stringsFields_tab _ _ hw, stringsFields_tab _ _ ho, stringsFields_word _ hn]
    have hh : ("R" ++ score).toList.head? = some 'R' := by
      simp [String.toList, String.data_append]
    simp only [DiffLine.text, diffLine, hf, DiffLine.statuses, List.getElem?_cons_zero, hh]
    rfl
  | copied score oldPath newPath =>
    obtain ⟨hs, ho, hn⟩ := h
    have hw : plainPath ("C" ++ score) := plainPath_letter 'C' (by decide) score hs
    have hf : stringsFields ("C" ++ score ++ "\t" ++ oldPath ++ "\t" ++ newPath) =
        ["C" ++ score, oldPath, newPath] := by
      have e : "C" ++ score ++ "\t" ++ oldPath ++ "\t" ++ newPath =
          ("C" ++ score) ++ "\t" ++ (oldPath ++ "\t" ++ newPath) := by
        simp [String.append_assoc]
      rw [e, stringsFields_tab _ _ hw, stringsFields_tab _ _ ho, stringsFields_word _ hn]
    have hh : ("C" ++ score).toList.head? = some 'C' := by
      simp [String.toList, String.data_append]
    simp only [DiffLine.text, diffLine, hf, DiffLine.statuses, List.getElem?_cons_zero, hh]
    rfl

theorem forEach_append {σ α : Type} (body : σ → α → Except Abort σ) (xs ys : List α)
    (s s1 : σ) (h : forEach body s xs = .ok s1) :
    forEach body s (xs ++ ys) = forEach body s1 ys := by
  induction xs generalizing s with
  | nil => simp only [forEach] at h; cases h; rfl
  | cons x xs ih =>
    simp only [List.cons_append, forEach] at h ⊢
    cases hb : body s x with
    | error a => rw [hb] at h; cases h
    | ok s2 => rw [hb] at h; simp only; exact ih s2 h

theorem forEach_diffLine (lines : List DiffLine) (h : ∀ l ∈ lines, l.WellFormed)
    (m : List (String × Status)) :
    forEach diffLine m (lines.map DiffLine.text) =
      .ok ((lines.flatMap DiffLine.statuses).foldl (fun m e => mapSet e.1 e.2 m) m) := by
  induction lines generalizing m with
  | nil => rfl
  | cons l rest ih =>
    simp only [List.map_cons, forEach, diffLine_text l (h l (by simp)), List.flatMap_cons,
      List.foldl_append]
    exact ih (fun x hx => h x (by simp [hx])) _

theorem fieldsOf_head (cs piece : List Char) (hp : piece ≠ []) :
    ∃ w ws, fieldsOf piece cs = w :: ws ∧ w.toList.head? = piece.getLast? := by
  induction cs generalizing piece with
  | nil =>
    exact ⟨String.mk piece.reverse, [], by simp [fieldsOf, hp],
      by simp [String.toList, List.head?_reverse]⟩
  | cons c cs ih =>
    by_cases hc : unicodeIsSpace c = true
    · exact ⟨String.mk piece.reverse, fieldsOf [] cs, by simp [fieldsOf, hp, hc],
        by simp [String.toList, List.head?_reverse]⟩
    · obtain ⟨w, ws, h1, h2⟩ := ih (c :: piece) (by simp)
      refine ⟨w, ws, by simp [fieldsOf, hc, h1], ?_⟩
      rw [h2]
      cases piece with
      | nil => exact absurd rfl hp
      | cons a as => simp [List.getLast?_cons_cons]

theorem diffLine_unknown (line : String) (h : unknownStatusLine line)
    (m : List (String × Status)) :
    diffLine m line = .error (.fail (.plain "unknown git diff file status")) := by
  obtain ⟨_, c, rest, hl, hc, h1, h2, h3, h4, h5⟩ := h
  obtain ⟨w, ws, hf, hw⟩ := fieldsOf_head rest [c] (by simp)
  have hfields : stringsFields line = w :: ws := by
    unfold stringsFields
    rw [hl]
    simp only [fieldsOf, hc, Bool.false_eq_true, if_false]
    exact hf
  simp only [diffLine, hfields, List.getElem?_cons_zero, hw, List.getLast?_singleton,
    h1, h2, h3, h4, h5, if_false]

theorem spaceFree_no_lf (s : String) (h : spaceFree s) : '\n' ∉ s.toList := by
  intro hm
  have := h _ hm
  revert this
  decide

theorem DiffLine_text_no_lf (l : DiffLine) (h : l.WellFormed) : '\n' ∉ l.text.toList := by
  cases l with
  | modified path =>
    have := spaceFree_no_lf _ h.2
    simp only [DiffLine.text, String.toList, String.data_append, List.mem_append, not_or]
    exact ⟨⟨by decide, by decide⟩, this⟩
  | deleted path =>
    have := spaceFree_no_lf _ h.2
    simp only [DiffLine.text, String.toList, String.data_append, List.mem_append, not_or]
    exact ⟨⟨by decide, by decide⟩, this⟩
  | added path =>
    have := spaceFree_no_lf _ h.2
    simp only [DiffLine.text, String.toList, String.data_append, List.mem_append, not_or]
    exact ⟨⟨by decide, by decide⟩, this⟩
  | renamed score oldPath newPath =>
    obtain ⟨hs, ho, hn⟩ := h
    simp only [DiffLine.text, String.toList, String.data_append, List.mem_append, not_or]
    exact ⟨⟨⟨⟨⟨by decide, spaceFree_no_lf _ hs⟩, by decide⟩, spaceFree_no_lf _ ho.2⟩,
      by decide⟩, spaceFree_no_lf _ hn.2⟩
  | copied score oldPath newPath =>
    obtain ⟨hs, ho, hn⟩ := h
    simp only [DiffLine.text, String.toList, String.data_append, List.mem_append, not_or]
    exact ⟨⟨⟨⟨⟨by decide, spaceFree_no_lf _ hs⟩, by decide⟩, spaceFree_no_lf _ ho.2⟩,
      by decide⟩, spaceFree_no_lf _ hn.2⟩

/-! ## The two loops of `DocumentsReferencing` -/

theorem mem_chunkIDs (n i : Int) : i ∈ chunkIDs n ↔ 0 ≤ i ∧ i < n := by
  unfold chunkIDs
  simp only [List.mem_map, List.mem_range]
  constructor
  · rintro ⟨k, hk, rfl⟩
    exact ⟨Int.ofNat_nonneg k, by simp only [Int.ofNat_eq_coe]; omega⟩
  · rintro ⟨h0, h1⟩
    exact ⟨i.toNat, by omega, by simp [Int.toNat_of_nonneg h0]⟩

/-- The keys of `pathMap` are the given paths. -/
theorem pathMap_isSome (paths : List String) (p : String) :
    (mapGet? (paths.foldl (fun m path => mapSet path () m) []) p).isSome = true ↔
      p ∈ paths := by
  rw [mapGet?_foldl_mapSet (fun _ => ()) paths [] p]
  by_cases h : p ∈ paths <;> simp [h, mapGet?]

/-- The inner loop of lines 22-29 marks `id` when some entry passes the test. -/
theorem markEntries_isSome (test : DocumentIDRangeID → Bool) (id : ID)
    (l : List DocumentIDRangeID) (ids : List (ID × Unit)) (q : ID) :
    (mapGet? (l.foldl (fun ids e => if !test e then ids else mapSet id () ids) ids) q).isSome
        = true ↔
      (mapGet? ids q).isSome = true ∨ (id = q ∧ ∃ e ∈ l, test e = true) := by
  induction l generalizing ids with
  | nil => simp
  | cons e rest ih =>
    simp only [List.foldl_cons, ih, List.mem_cons, exists_eq_or_imp]
    by_cases ht : test e = true
    · simp only [ht, Bool.not_true, Bool.false_eq_true, if_false, mapGet?_mapSet, true_or,
        and_true]
      by_cases hq : id = q
      · simp [hq]
      · simp [hq]
    · simp [ht]

theorem markResultIDs_isSome (pathMap : List (String × Unit)) (resultChunk : ResultChunkData)
    (ids : List (ID × Unit)) (q : ID) :
    (mapGet? (markResultIDs pathMap resultChunk ids) q).isSome = true ↔
      (mapGet? ids q).isSome = true ∨
      ∃ entry ∈ resultChunk.DocumentIDRangeIDs.getD [], entry.1 = q ∧
        ∃ e ∈ entry.2,
          (mapGet? pathMap (nilMapGet resultChunk.DocumentPaths e.DocumentID)).isSome = true := by
  unfold markResultIDs
  generalize resultChunk.DocumentIDRangeIDs.getD [] = m
  induction m generalizing ids with
  | nil => simp
  | cons entry rest ih =>
    simp only [List.foldl_cons, ih, List.mem_cons, exists_eq_or_imp]
    rw [markEntries_isSome (fun e => (mapGet? pathMap
      (nilMapGet resultChunk.DocumentPaths e.DocumentID)).isSome) entry.1 entry.2 ids q]
    exact or_assoc

/-- The first loop, when no chunk read fails: the marked ids are those that point
into the given paths in some chunk of the list. -/
theorem forEach_scanChunk (db : databaseImpl) (paths : List String) (l : List Int)
    (h : ∀ i ∈ l, (db.getResultChunkByID i).2.2 = none) (ids : List (ID × Unit)) :
    ∃ ids1, forEach (scanChunk db (paths.foldl (fun m path => mapSet path () m) [])) ids l
        = .ok ids1 ∧
      ∀ q, (mapGet? ids1 q).isSome = true ↔
        (mapGet? ids q).isSome = true ∨ ∃ i ∈ l, PointsInto db paths i q := by
  induction l generalizing ids with
  | nil => exact ⟨ids, rfl, by simp⟩
  | cons i rest ih =>
    have hi := h i (by simp)
    have hs : scanChunk db (paths.foldl (fun m path => mapSet path () m) []) ids i =
        .ok (if (db.getResultChunkByID i).2.1 = true then
          markResultIDs (paths.foldl (fun m path => mapSet path () m) [])
            (db.getResultChunkByID i).1 ids else ids) := by
      unfold scanChunk
      rcases hx : db.getResultChunkByID i with ⟨c, f, e⟩
      rw [hx] at hi
      simp only at hi
      subst hi
      cases f <;> simp
    obtain ⟨ids1, h1, h2⟩ := ih (fun j hj => h j (by simp [hj]))
      (if (db.getResultChunkByID i).2.1 = true then
        markResultIDs (paths.foldl (fun m path => mapSet path () m) [])
          (db.getResultChunkByID i).1 ids else ids)
    refine ⟨ids1, by simp only [forEach, hs]; exact h1, ?_⟩
    intro q
    rw [h2 q]
    simp only [List.mem_cons, exists_eq_or_imp, PointsInto]
    by_cases hf : (db.getResultChunkByID i).2.1 = true
    · simp only [hf, if_true, markResultIDs_isSome, pathMap_isSome, true_and]
      exact or_assoc
    · simp [hf]

/-- The second loop, when no document read fails: the paths that pass the test are
appended in order. -/
theorem forEach_scanPath (db : databaseImpl) (resultIDs : List (ID × Unit)) (l : List String)
    (h : ∀ path ∈ l, (db.getDocumentData path).2.2 = none) (acc : List String) :
    forEach (scanPath db resultIDs) acc l =
      .ok (acc ++ l.filter (referencingTest db resultIDs)) := by
  induction l generalizing acc with
  | nil => simp [forEach]
  | cons path rest ih =>
    have hp := h path (by simp)
    have hs : scanPath db resultIDs acc path =
        .ok (if referencingTest db resultIDs path then acc ++ [path] else acc) := by
      unfold scanPath referencingTest
      rcases hx : db.getDocumentData path with ⟨d, f, e⟩
      rw [hx] at hp
      simp only at hp
      subst hp
      cases f
      · simp
      · simp only [Bool.not_true, Bool.false_eq_true, if_false, Bool.true_and]
        split <;> rfl
    simp only [forEach, hs]
    rw [ih (fun p hp1 => h p (by simp [hp1]))]
    by_cases ht : referencingTest db resultIDs path = true
    · simp [ht, List.filter_cons]
    · simp [ht, List.filter_cons]

theorem referencingTest_iff (db : databaseImpl) (paths : List String)
    (ids : List (ID × Unit))
    (hids : ∀ q, (mapGet? ids q).isSome = true ↔
      ∃ i ∈ chunkIDs db.numResultChunks, PointsInto db paths i q)
    (path : String) :
    referencingTest db ids path = true ↔ References db paths path := by
  unfold referencingTest References
  simp only [Bool.and_eq_true, List.any_eq_true, hids, mem_chunkIDs]
  constructor
  · rintro ⟨hf, r, hr, i, ⟨h0, h1⟩, hpi⟩
    exact ⟨hf, r, hr, i, h0, h1, hpi⟩
  · rintro ⟨hf, r, hr, i, h0, h1, hpi⟩
    exact ⟨hf, r, hr, i, ⟨h0, h1⟩, hpi⟩

/-! ## The expression `predicateRegexp` -/

theorem takeWhile_append_stop {α : Type} (p : α → Bool) (l1 : List α) (a : α) (l2 : List α)
    (h1 : ∀ x ∈ l1, p x = true) (ha : p a = false) :
    (l1 ++ a :: l2).takeWhile p = l1 ∧ (l1 ++ a :: l2).dropWhile p = a :: l2 := by
  induction l1 with
  | nil => simp [List.takeWhile, List.dropWhile, ha]
  | cons x xs ih =>
    have hx : p x = true := h1 x (by simp)
    obtain ⟨i1, i2⟩ := ih (fun y hy => h1 y (by simp [hy]))
    simp [List.takeWhile, List.dropWhile, hx, i1, i2]

/-- The expression matches a name of letters followed by bracketed params without
a line feed, and gives back the name and the params. -/
theorem FindStringSubmatch_of_parts (name params : String) (hn : name ≠ "")
    (hl : ∀ c ∈ name.toList, lowerLetter c = true) (hp : '\n' ∉ params.toList) :
    FindStringSubmatch (name ++ "(" ++ params ++ ")") =
      some (name ++ "(" ++ params ++ ")", name, params) := by
  have e : (name ++ "(" ++ params ++ ")").toList =
      name.toList ++ '(' :: (params.toList ++ [')']) := by
    simp [String.toList, String.data_append]
  obtain ⟨h1, h2⟩ := takeWhile_append_stop lowerLetter name.toList '('
    (params.toList ++ [')']) hl (by decide)
  have hne : ¬ name.toList = [] := fun h => hn (String.ext h)
  have hp1 : '\n' ∉ params.toList.reverse := by simpa using hp
  unfold FindStringSubmatch
  simp only [e, h1, h2, List.reverse_append, List.reverse_cons, List.reverse_nil,
    List.nil_append, List.singleton_append, ne_eq, hne, not_false_eq_true, hp1, and_self,
    if_true, List.reverse_reverse]
  rfl

/-- Whatever the expression matches is a name of letters followed by bracketed
params without a line feed. -/
theorem FindStringSubmatch_parts (value : String) (m : String × String × String)
    (h : FindStringSubmatch value = some m) :
    m.1 = value ∧ value = m.2.1 ++ "(" ++ m.2.2 ++ ")" ∧ m.2.1 ≠ "" ∧
      (∀ c ∈ m.2.1.toList, lowerLetter c = true) ∧ '\n' ∉ m.2.2.toList := by
  unfold FindStringSubmatch at h
  have hsplit := List.takeWhile_append_dropWhile lowerLetter value.toList
  cases hd : value.toList.dropWhile lowerLetter with
  | nil => rw [hd] at h; simp at h
  | cons c rest =>
    rw [hd] at h hsplit
    by_cases hc : c = '('
    · subst hc
      simp only at h
      cases hr : rest.reverse with
      | nil => rw [hr] at h; simp at h
      | cons d params =>
        rw [hr] at h
        by_cases hd2 : d = ')'
        · subst hd2
          simp only at h
          by_cases hcond : value.toList.takeWhile lowerLetter ≠ [] ∧ '\n' ∉ params
          · rw [if_pos hcond] at h
            cases h
            have hrest : rest = params.reverse ++ [')'] := by
              have := congrArg List.reverse hr
              simpa using this
            refine ⟨rfl, ?_, ?_, ?_, ?_⟩
            · apply String.ext
              have hv := hsplit.symm
              rw [hrest] at hv
              simpa [String.toList, String.data_append] using hv
            · intro e
              apply hcond.1
              have := congrArg String.data e
              simpa using this
            · intro c hc
              exact (List.mem_takeWhile_imp hc)
            · simpa using hcond.2
          · rw [if_neg hcond] at h; cases h
        · exfalso
          revert h
          split
          · rename_i heq
            simp only [List.cons.injEq] at heq
            exact absurd heq.1 hd2
          · intro h; cases h
    · exfalso
      revert h
      split
      · rename_i heq
        simp only [List.cons.injEq] at heq
        exact absurd heq.1 hc
      · intro h; cases h

/-! ## `DrawLocations`: the drawing of one line -/

theorem stringsRepeat_of_nonneg (c : Char) (count : Int) (h : 0 ≤ count)
    (hm : count ≤ maxAlloc) :
    stringsRepeat c count = .ok (String.mk (List.replicate count.toNat c)) := by
  unfold stringsRepeat
  rw [if_neg (by omega), if_neg (by omega)]

/-- The difference of two ordered offsets below `maxAlloc` does not wrap. -/
theorem wrapInt_of_small (x : Int) (h0 : 0 ≤ x) (hm : x ≤ maxAlloc) : wrapInt x = x := by
  unfold wrapInt
  unfold maxAlloc at hm
  omega

theorem lineCarets_of_ordered (r : Range) (name : String) (h0 : 0 ≤ r.Start.Character)
    (h1 : r.Start.Character ≤ r.End.Character) (hm : r.End.Character ≤ maxAlloc) :
    lineCarets r name =
      .ok (String.mk (List.replicate r.Start.Character.toNat ' ') ++
        String.mk (List.replicate (r.End.Character - r.Start.Character).toNat '^') ++
        " " ++ name) := by
  unfold lineCarets
  rw [wrapInt_of_small _ (by omega) (by omega),
    stringsRepeat_of_nonneg _ _ h0 (by omega),
    stringsRepeat_of_nonneg _ _ (by omega) (by omega)]

/-! ## `DiffFileStatus`: output that ends in a line feed -/

theorem splitAtLineFeeds_trailing (cs piece : List Char) :
    splitAtLineFeeds piece (cs ++ ['\n']) = splitAtLineFeeds piece cs ++ [""] := by
  induction cs generalizing piece with
  | nil => simp [splitAtLineFeeds]
  | cons c cs ih =>
    by_cases hc : c = '\n'
    · simp [splitAtLineFeeds, hc, ih]
    · simp [splitAtLineFeeds, hc, ih]

theorem stringsSplit_trailing (s : String) :
    stringsSplit (s ++ "\n") = stringsSplit s ++ [""] := by
  unfold stringsSplit
  have e : (s ++ "\n").toList = s.toList ++ ['\n'] := by
    simp [String.toList, String.data_append]
  rw [e, splitAtLineFeeds_trailing]

/-- A loop whose body panics on the last element never ends normally. -/
theorem forEach_snoc_panics {σ α : Type} (body : σ → α → Except Abort σ) (x : α) (p : Panic)
    (hx : ∀ s, body s x = .error (.panic p)) (xs : List α) (s : σ) :
    ∃ a, forEach body s (xs ++ [x]) = .error a := by
  induction xs generalizing s with
  | nil => exact ⟨.panic p, by simp [forEach, hx]⟩
  | cons y ys ih =>
    simp only [List.cons_append, forEach]
    cases body s y with
    | error a => exact ⟨a, rfl⟩
    | ok s1 => exact ih s1

/-! ## The claims, concluded -/

/-- C21 as stated fails: both locations are on line 0 of a one-line contents, they
differ, and each has `Start.Character <= End.Character`. With a negative
`Start.Character`, `strings.Repeat` panics on the negative count; with an
`End.Character` of `2^63 - 1`, it panics in `make`. Nothing is returned. -/
theorem negative_start_character_panics :
    (stringsSplit "ab")[0]? = some "ab" ∧
    DrawLocations "ab" ⟨"file://x.c", ⟨⟨0, -1⟩, ⟨0, 0⟩⟩⟩ ⟨"file://x.c", ⟨⟨0, -1⟩, ⟨0, 1⟩⟩⟩ =
      .error .negativeRepeatCount ∧
    DrawLocations "ab" ⟨"file://x.c", ⟨⟨0, 0⟩, ⟨0, 1⟩⟩⟩
        ⟨"file://x.c", ⟨⟨0, 0⟩, ⟨0, 2 ^ 63 - 1⟩⟩⟩ =
      .error .makesliceOutOfRange :=
  ⟨rfl, rfl, rfl⟩

/-- C21 amended (`DrawLocations` one-line drawing): for every contents and every
pair of distinct locations with the same URI that both start and end on the same
line `L`, where `L` indexes the line `lineText` of contents and each range lies
within that line, `0 <= Start.Character <= End.Character <= len(lineText)`,
`DrawLocations` returns a nil error and the four lines joined by line feeds: the
URI, a colon and `L`; `lineText`; then `Start.Character` spaces,
`End.Character - Start.Character` carets and " expected" for the expected range;
then the same for the actual range with " actual". The line, a Go string, has at
most `maxAlloc` bytes. -/
theorem DrawLocations_one_line (contents : String) (expected actual : Location)
    (lineText : String)
    (hu : expected.URI = actual.URI) (hne : expected ≠ actual)
    (hs : actual.Range.Start.Line = expected.Range.Start.Line)
    (he : expected.Range.End.Line = expected.Range.Start.Line)
    (ha : actual.Range.End.Line = expected.Range.Start.Line)
    (hl0 : 0 ≤ expected.Range.Start.Line)
    (hl : (stringsSplit contents)[expected.Range.Start.Line.toNat]? = some lineText)
    (hsize : (lineText.utf8ByteSize : Int) ≤ maxAlloc)
    (he0 : 0 ≤ expected.Range.Start.Character)
    (he1 : expected.Range.Start.Character ≤ expected.Range.End.Character)
    (he2 : expected.Range.End.Character ≤ lineText.utf8ByteSize)
    (ha0 : 0 ≤ actual.Range.Start.Character)
    (ha1 : actual.Range.Start.Character ≤ actual.Range.End.Character)
    (ha2 : actual.Range.End.Character ≤ lineText.utf8ByteSize) :
    DrawLocations contents expected actual =
      .ok (expected.URI ++ ":" ++ toString expected.Range.Start.Line ++ "\n" ++
          lineText ++ "\n" ++
          (String.mk (List.replicate expected.Range.Start.Character.toNat ' ') ++
            String.mk (List.replicate
              (expected.Range.End.Character - expected.Range.Start.Character).toNat '^') ++
            " expected") ++ "\n" ++
          (String.mk (List.replicate actual.Range.Start.Character.toNat ' ') ++
            String.mk (List.replicate
              (actual.Range.End.Character - actual.Range.Start.Character).toNat '^') ++
            " actual"), none) := by
  have hsame : sameLine expected actual = true := by
    simp [sameLine, hs, he, ha]
  have hlen : expected.Range.Start.Line.toNat < (stringsSplit contents).length := by
    by_contra hge
    rw [List.getElem?_eq_none (by omega)] at hl
    cases hl
  have hguard : ¬ expected.Range.Start.Line > ((stringsSplit contents).length : Int) := by
    omega
  unfold DrawLocations
  rw [if_neg (not_not.mpr hu), if_neg hne]
  simp only [hsame, if_true]
  rw [if_neg hguard, if_neg (by omega), hl]
  simp only [lineCarets_of_ordered _ _ he0 he1 (by omega),
    lineCarets_of_ordered _ _ ha0 ha1 (by omega), header]
  simp [String.append_assoc]

/-- C21 amended, on the input of `TestDrawsWithOneLineDiff`: line 1 has 30 bytes,
both ranges lie within it, and the drawing is the string the test expects. -/
theorem DrawLocations_one_line_witness :
    ("int exported_function(int a) \x7b" : String).utf8ByteSize = 30 ∧
    DrawLocations "\nint exported_function(int a) \x7b\n\treturn a + 1\n\x7d"
        ⟨"file://example.c", ⟨⟨1, 4⟩, ⟨1, 20⟩⟩⟩ ⟨"file://example.c", ⟨⟨1, 4⟩, ⟨1, 21⟩⟩⟩ =
      .ok ("file://example.c:1\nint exported_function(int a) \x7b\n" ++
        "    ^^^^^^^^^^^^^^^^ expected\n    ^^^^^^^^^^^^^^^^^ actual", none) :=
  ⟨by decide,
    DrawLocations_one_line _ _ _ "int exported_function(int a) \x7b" rfl (by decide) rfl rfl rfl
      (by decide) rfl (by decide) (by decide) (by decide) (by decide) (by decide) (by decide)
      (by decide)⟩

/-- C22 (`Combine` returns nil exactly when nothing failed): for every list of
error values, `Combine` returns nil if and only if every argument is nil; a single
non-nil argument is returned as itself; with two or more non-nil arguments the
result is a multierror whose members are those of the non-nil arguments in argument
order, an argument that is itself a multierror giving its members; for ordinary
errors the members are exactly the non-nil arguments. -/
theorem Combine_spec (errs : List Error) :
    (Combine errs = none ↔ ∀ e ∈ errs, e = none) ∧
    (∀ x, errs.filterMap id = [x] → Combine errs = some x) ∧
    (∀ x y rest, errs.filterMap id = x :: y :: rest →
      Combine errs = some (.multi ((x :: y :: rest).flatMap GoError.members))) ∧
    (∀ msgs : List String, errs.filterMap id = msgs.map GoError.plain → 2 ≤ msgs.length →
      Combine errs = some (.multi msgs)) := by
  refine ⟨?_, ?_, ?_, ?_⟩
  · rw [Combine_foldl_none]
    constructor
    · intro h e he
      cases e with
      | none => rfl
      | some x =>
        have hx : x ∈ errs.filterMap id := by
          rw [List.mem_filterMap]; exact ⟨some x, he, rfl⟩
        cases hl : errs.filterMap id with
        | nil => rw [hl] at hx; cases hx
        | cons y more =>
          rw [hl] at h
          cases more <;> simp at h
    · intro h
      have : errs.filterMap id = [] := by
        rw [List.filterMap_eq_nil_iff]
        intro e he
        rw [h e he]; rfl
      rw [this]
  · intro x h
    rw [Combine_foldl_none, h]
  · intro x y rest h
    rw [Combine_foldl_none, h]
  · intro msgs h hlen
    have hm : (msgs.map GoError.plain).flatMap GoError.members = msgs := by
      clear h hlen
      induction msgs with
      | nil => rfl
      | cons a as ih => simp [List.flatMap_cons, GoError.members, ih]
    rw [Combine_foldl_none, h]
    match msgs, hlen, hm with
    | a :: b :: more, _, hm => simpa using hm

/-- C22 on a concrete call: two failures among four arguments. -/
theorem Combine_spec_witness :
    Combine [none, some (.plain "first"), none, some (.plain "second")] =
      some (.multi ["first", "second"]) :=
  (Combine_spec [none, some (.plain "first"), none, some (.plain "second")]).2.2.2
    ["first", "second"] rfl (by decide)

/-- C23 (`Matches` searches the whole chain): for every error with a finite unwrap
chain and every predicate, `Matches(err, predicate)` is true if and only if the
predicate is true for `err` or for some error reached from it by repeated `Unwrap`;
`Matches(nil, predicate)` is false. -/
theorem Matches_spec (err : Option ChainError) (predicate : ChainError → Bool) :
    (Matches err predicate = true ↔ ∃ e, Reached err e ∧ predicate e = true) ∧
    Matches none predicate = false := by
  refine ⟨?_, rfl⟩
  cases err with
  | none =>
    simp only [Matches]
    constructor
    · intro h; cases h
    · rintro ⟨e, he, _⟩; exact absurd he (Reached_none e)
  | some e => exact matchesLoop_iff predicate e

/-- C23 on a concrete chain: the predicate holds only for the innermost of three
errors, two `Unwrap` steps away. -/
theorem Matches_spec_witness :
    Matches (some (.wrap "read config" (.wrap "open file" (.leaf "not found"))))
      (fun e => decide (e = .leaf "not found")) = true :=
  (Matches_spec (some (.wrap "read config" (.wrap "open file" (.leaf "not found"))))
    (fun e => decide (e = .leaf "not found"))).1.mpr
    ⟨.leaf "not found", ⟨2, rfl⟩, by decide⟩

/-- C24 (the positional merge-join is total) on failing inputs: when the base has
no document at the path, or a document without ranges, line 170 reads `baseRngs[0]`
of an empty slice, whatever the definitions are; when a definition lies after every
base range, the advance of line 173 reads `baseRngs[baseIdx+1]` past the end. Both
are index-out-of-range panics of the pairing loop. -/
theorem merge_join_reads_out_of_bounds :
    (∀ (env : Env) (baseN patchN : Int) (patchResultChunks : ChunkMap) (st : MergeState)
        (path : String) (defs : List (ID × RangeData)),
      mergePath env baseN patchN [] patchResultChunks st (path, defs) =
        .error (.panic .indexOutOfRange) ∧
      mergePath env baseN patchN [(path, { Ranges := [] })] patchResultChunks st (path, defs) =
        .error (.panic .indexOutOfRange)) ∧
    (sortRanges [⟨4, 0, 4, 3, "", ""⟩, ⟨0, 0, 0, 3, "", ""⟩] =
        [⟨0, 0, 0, 3, "", ""⟩, ⟨4, 0, 4, 3, "", ""⟩] ∧
      advance ⟨9, 0, 9, 3, "", ""⟩ ⟨0, 0, 0, 3, "", ""⟩ [⟨4, 0, 4, 3, "", ""⟩] 0 =
        .error (.panic .indexOutOfRange)) ∧
    mergePath demoEnv 1 1
        [("a", { Ranges := [("r1", ⟨4, 0, 4, 3, "", ""⟩), ("r0", ⟨0, 0, 0, 3, "", ""⟩)] })]
        (loadResultChunks movedPatch) { chunks := [(0, fooBaseChunk)], calls := 0 }
        ("a", [("ra1", ⟨9, 0, 9, 3, "defFoo", "pref"⟩)]) =
      .error (.panic .indexOutOfRange) := by
  refine ⟨fun env baseN patchN patchResultChunks st path defs => ⟨rfl, ?_⟩, ⟨by decide, rfl⟩, rfl⟩
  simp [mergePath, mapGet, mapGet?, sortRanges]

/-- C25 (`DrawLocations` guards its line index) on failing inputs: the guard of line
48 is `line > len(splitLines)`, so for every contents a shared line `L` equal to the
number of lines passes it and `splitLines[line]` on line 54 panics; so does a
negative `L`. Only an `L` above the number of lines gets the error. -/
theorem DrawLocations_line_index_unguarded :
    (∀ contents : String,
      DrawLocations contents
          ⟨"file://x.c",
            ⟨⟨(stringsSplit contents).length, 0⟩, ⟨(stringsSplit contents).length, 1⟩⟩⟩
          ⟨"file://x.c",
            ⟨⟨(stringsSplit contents).length, 0⟩, ⟨(stringsSplit contents).length, 2⟩⟩⟩ =
        .error .indexOutOfRange) ∧
    (stringsSplit "a\nb" = ["a", "b"] ∧
      DrawLocations "a\nb" ⟨"file://x.c", ⟨⟨2, 0⟩, ⟨2, 1⟩⟩⟩ ⟨"file://x.c", ⟨⟨2, 0⟩, ⟨2, 2⟩⟩⟩ =
        .error .indexOutOfRange ∧
      DrawLocations "a\nb" ⟨"file://x.c", ⟨⟨-1, 0⟩, ⟨-1, 1⟩⟩⟩
          ⟨"file://x.c", ⟨⟨-1, 0⟩, ⟨-1, 2⟩⟩⟩ =
        .error .indexOutOfRange ∧
      DrawLocations "a\nb" ⟨"file://x.c", ⟨⟨3, 0⟩, ⟨3, 1⟩⟩⟩ ⟨"file://x.c", ⟨⟨3, 0⟩, ⟨3, 2⟩⟩⟩ =
        .ok ("", some (.plain "Line does not exist in contents"))) := by
  refine ⟨fun contents => ?_, rfl, rfl, rfl, rfl⟩
  unfold DrawLocations
  simp [sameLine]

/-- C26 (`DiffFileStatus` is total on git output) on failing inputs: the empty
output splits into one empty line, which has no field, and `fields[0]` on line 28
panics; an output that ends in a line feed has an empty last line, so no such
output ever yields a map; an `R` line with one path panics on `fields[2]`, and a
status letter alone panics on `fields[1]`. -/
theorem DiffFileStatus_indexes_out_of_range :
    (stringsSplit "" = [""] ∧ stringsFields "" = [] ∧
      DiffFileStatus "" none = .error .indexOutOfRange) ∧
    (stringsSplit "M\ta.go\n" = ["M\ta.go", ""] ∧
      DiffFileStatus "M\ta.go\n" none = .error .indexOutOfRange) ∧
    (∀ output statuses, DiffFileStatus (output ++ "\n") none ≠ .ok (some statuses, none)) ∧
    (stringsFields "R100\told.go" = ["R100", "old.go"] ∧
      DiffFileStatus "R100\told.go" none = .error .indexOutOfRange) ∧
    DiffFileStatus "M" none = .error .indexOutOfRange := by
  refine ⟨⟨rfl, rfl, rfl⟩, ⟨rfl, rfl⟩, ?_, ⟨rfl, rfl⟩, rfl⟩
  intro output statuses h
  unfold DiffFileStatus at h
  rw [stringsSplit_trailing] at h
  obtain ⟨a, ha⟩ := forEach_snoc_panics diffLine "" .indexOutOfRange (fun _ => rfl)
    (stringsSplit output) []
  rw [ha] at h
  cases a with
  | panic p => simp at h
  | fail e => simp at h

/-- C27 as stated fails: a rename line whose old path holds a blank is split by
`strings.Fields` into four fields, so the map gets the first word of the old path
as Deleted and its second word as Added, and neither the old nor the new path; and
a line whose first character is a blank, none of the five letters, is classified by
its first field and returns a map, not an error. -/
theorem path_with_blank_split :
    (stringsFields "R100\told name.go\tnew.go" = ["R100", "old", "name.go", "new.go"] ∧
      DiffFileStatus "R100\told name.go\tnew.go" none =
        .ok (some [("old", Deleted), ("name.go", Added)], none)) ∧
    (stringsFields "M\tmy file.txt" = ["M", "my", "file.txt"] ∧
      DiffFileStatus "M\tmy file.txt" none = .ok (some [("my", Modified)], none)) ∧
    (" M\ta.go".toList.head? = some ' ' ∧
      DiffFileStatus " M\ta.go" none = .ok (some [("a.go", Modified)], none)) :=
  ⟨⟨rfl, rfl⟩, ⟨rfl, rfl⟩, ⟨rfl, rfl⟩⟩

/-- C27 amended (`DiffFileStatus` classification): for every output made of
well-formed lines (a status word, then the path or the two paths, separated by
tabs, no path empty or holding white space; a line feed between any two lines and
none at the end), a call whose git command did not fail returns a nil error and a
map in which every path has the status of the last line that names it: Modified
for an `M` line, Deleted for a `D` line, Added for an `A` line, Deleted for the old
path and Added for the new path of an `R` line, Added for the new path of a `C`
line; a path that no line gives a status is not in the map. When such lines are
followed by a line that starts with a character other than `M`, `D`, `A`, `R`, `C`
and other than white space, the call returns the error
"unknown git diff file status" and no map, whatever follows that line. -/
theorem DiffFileStatus_classification (lines : List DiffLine)
    (h : ∀ l ∈ lines, l.WellFormed) :
    (lines ≠ [] → ∃ statuses,
      DiffFileStatus (joinLines (lines.map DiffLine.text)) none = .ok (some statuses, none) ∧
      ∀ path, mapGet? statuses path = lastStatus (lines.flatMap DiffLine.statuses) path) ∧
    (∀ (bad : String) (tail : List String), unknownStatusLine bad →
      DiffFileStatus (joinLines (lines.map DiffLine.text ++ bad :: tail)) none =
        .ok (none, some (.plain "unknown git diff file status"))) := by
  have hlf : ∀ s ∈ lines.map DiffLine.text, '\n' ∉ s.toList := by
    intro s hs
    obtain ⟨l, hl, rfl⟩ := List.mem_map.mp hs
    exact DiffLine_text_no_lf l (h l hl)
  constructor
  · intro hne
    refine ⟨(lines.flatMap DiffLine.statuses).foldl (fun m e => mapSet e.1 e.2 m) [], ?_, ?_⟩
    · unfold DiffFileStatus
      rw [stringsSplit_joinLines _ (by simpa using hne) hlf, forEach_diffLine lines h]
    · intro path
      rw [mapGet?_foldl_assign]
      cases lastStatus (lines.flatMap DiffLine.statuses) path <;> rfl
  · intro bad tail hb
    obtain ⟨after, ha⟩ := stringsSplit_joinLines_append _ hlf bad hb.1 tail
    unfold DiffFileStatus
    rw [ha, forEach_append _ _ _ _ _ (forEach_diffLine lines h []), forEach,
      diffLine_unknown bad hb]

/-- C27 amended, on five lines, one of each kind: the lines are well-formed, their
text is the output shown, and the map and the error are as classified; `old.go`,
deleted by the rename on the second line, is Added by the last line. -/
theorem DiffFileStatus_classification_witness :
    (∀ l ∈ demoLines, l.WellFormed) ∧
    joinLines (demoLines.map DiffLine.text) =
      "M\ta.go\nR100\told.go\tnew.go\nD\tb.go\nC075\ta.go\tc.go\nA\told.go" ∧
    lastStatus (demoLines.flatMap DiffLine.statuses) "old.go" = some Added ∧
    ((demoLines ≠ [] → ∃ statuses,
      DiffFileStatus (joinLines (demoLines.map DiffLine.text)) none =
        .ok (some statuses, none) ∧
      ∀ path, mapGet? statuses path =
        lastStatus (demoLines.flatMap DiffLine.statuses) path) ∧
    (∀ (bad : String) (tail : List String), unknownStatusLine bad →
      DiffFileStatus (joinLines (demoLines.map DiffLine.text ++ bad :: tail)) none =
        .ok (none, some (.plain "unknown git diff file status")))) :=
  have hwf : ∀ l ∈ demoLines, l.WellFormed := by
    intro l hl
    simp only [demoLines, List.mem_cons, List.mem_singleton, List.not_mem_nil, or_false] at hl
    rcases hl with rfl | rfl | rfl | rfl | rfl <;>
      simp only [DiffLine.WellFormed, plainPath, spaceFree] <;> decide
  ⟨hwf, by decide, by decide, DiffFileStatus_classification demoLines hwf⟩

/-- C28 (`DocumentsReferencing` characterisation): when no read fails, a path is in
the result if and only if it is returned by `PathsWithPrefix("")`, its document
exists, and some range of it has a `DefinitionResultID` whose entry list in some
existing result chunk contains an entry resolving, through that chunk's
`DocumentPaths`, to one of the given paths; the result is in `PathsWithPrefix`
order, each of its paths as often as `PathsWithPrefix` lists it, hence exactly
once when the listing has no duplicates; an empty list of given paths yields an
empty result. -/
theorem DocumentsReferencing_spec (db : databaseImpl) (paths : List String)
    (hc : ∀ i, 0 ≤ i → i < db.numResultChunks → (db.getResultChunkByID i).2.2 = none)
    (hp : (db.reader.PathsWithPrefix "").2 = none)
    (hd : ∀ path ∈ (db.reader.PathsWithPrefix "").1, (db.getDocumentData path).2.2 = none) :
    ∃ result, DocumentsReferencing db paths = .ok (result, none) ∧
      (∀ path, path ∈ result ↔
        path ∈ (db.reader.PathsWithPrefix "").1 ∧ References db paths path) ∧
      List.Sublist result (db.reader.PathsWithPrefix "").1 ∧
      (∀ path ∈ result,
        result.count path = (db.reader.PathsWithPrefix "").1.count path) ∧
      ((db.reader.PathsWithPrefix "").1.Nodup → ∀ path ∈ result, result.count path = 1) ∧
      (paths = [] → result = []) := by
  obtain ⟨ids, h1, h2⟩ := forEach_scanChunk db paths (chunkIDs db.numResultChunks)
    (fun i hi => hc i ((mem_chunkIDs _ _).mp hi).1 ((mem_chunkIDs _ _).mp hi).2) []
  have hids : ∀ q, (mapGet? ids q).isSome = true ↔
      ∃ i ∈ chunkIDs db.numResultChunks, PointsInto db paths i q := by
    intro q
    rw [h2 q]
    simp [mapGet?]
  have htest := referencingTest_iff db paths ids hids
  refine ⟨(db.reader.PathsWithPrefix "").1.filter (referencingTest db ids),
    ?_, ?_, ?_, ?_, ?_, ?_⟩
  · unfold DocumentsReferencing
    simp only [h1]
    rcases hx : db.reader.PathsWithPrefix "" with ⟨allPaths, e⟩
    rw [hx] at hp hd
    simp only at hp hd
    subst hp
    simp only [forEach_scanPath db ids allPaths hd [], List.nil_append]
  · intro path
    rw [List.mem_filter, htest]
  · exact List.filter_sublist _
  · intro path hm
    exact List.count_filter (List.mem_filter.mp hm).2
  · intro hn path hm
    exact List.count_eq_one_of_mem (hn.sublist (List.filter_sublist _)) hm
  · intro he
    rw [List.filter_eq_nil_iff]
    intro path _
    rw [htest]
    rintro ⟨_, r, _, i, _, _, _, entry, _, _, e, _, hmem⟩
    rw [he] at hmem
    cases hmem

/-- C28 on the base bundle of the `foo` scenario, asked for the paths referencing
`a`: no read fails, and the result is `a`, `b`, `c`, whose ranges all carry the
definition id `defFoo`, located in `a`. -/
theorem DocumentsReferencing_spec_witness :
    DocumentsReferencing (memDatabaseImpl fooBaseDocs [(0, fooBaseChunk)]) ["a"] =
      .ok (["a", "b", "c"], none) ∧
    ∃ result,
      DocumentsReferencing (memDatabaseImpl fooBaseDocs [(0, fooBaseChunk)]) ["a"] =
        .ok (result, none) ∧
      (∀ path, path ∈ result ↔
        path ∈ ((memDatabaseImpl fooBaseDocs [(0, fooBaseChunk)]).reader.PathsWithPrefix "").1 ∧
          References (memDatabaseImpl fooBaseDocs [(0, fooBaseChunk)]) ["a"] path) ∧
      List.Sublist result
        ((memDatabaseImpl fooBaseDocs [(0, fooBaseChunk)]).reader.PathsWithPrefix "").1 ∧
      (∀ path ∈ result, result.count path =
        ((memDatabaseImpl fooBaseDocs [(0, fooBaseChunk)]).reader.PathsWithPrefix "").1.count
          path) ∧
      (((memDatabaseImpl fooBaseDocs [(0, fooBaseChunk)]).reader.PathsWithPrefix "").1.Nodup →
        ∀ path ∈ result, result.count path = 1) ∧
      (["a"] = [] → result = []) :=
  ⟨rfl, DocumentsReferencing_spec (memDatabaseImpl fooBaseDocs [(0, fooBaseChunk)]) ["a"]
    (fun _ _ _ => rfl) rfl (fun _ _ => rfl)⟩

/-- C29 as stated fails: the pattern holds a line feed, which the `.` of
`predicateRegexp` does not match; `ParseAsPredicate` returns an error and empty
name and params, for which `Get` has no predicate. -/
theorem pattern_with_line_feed_not_parsed :
    FileContainsPredicate.String { Pattern := "a\nb" } = "file:" ++ "contains(a\nb)" ∧
    ParseAsPredicate "contains(a\nb)" =
      ("", "", some (.plain "value 'contains(a\nb)' is not a predicate")) ∧
    DefaultPredicateRegistry.Get "file" "" "" =
      (none, some (.plain "field 'file' has no predicate named ''")) :=
  ⟨by decide, by decide, rfl⟩

/-- C29 amended (predicate text round trip): for every `FileContainsPredicate` `f`
whose pattern has no line feed, removing the "file:" in front of `f.String()`,
parsing the rest with `ParseAsPredicate` and passing the resulting name and params
to `DefaultPredicateRegistry.Get("file", name, params)` succeeds and yields a
predicate with the same pattern as `f`. -/
theorem predicate_text_round_trip (f : FileContainsPredicate)
    (h : '\n' ∉ f.Pattern.toList) (rest : String) (hr : f.String = "file:" ++ rest) :
    ∃ name params, ParseAsPredicate rest = (name, params, none) ∧
      DefaultPredicateRegistry.Get "file" name params = (some (.fileContains f), none) := by
  have e : rest = "contains" ++ "(" ++ f.Pattern ++ ")" := by
    apply String.ext
    have := congrArg String.data hr
    simp only [FileContainsPredicate.String, FileContainsPredicate.Field,
      FileContainsPredicate.Name, FieldFile, String.data_append] at this
    have h2 : ("file:" : String).data ++ rest.data =
        ("file:" : String).data ++ ("contains" ++ "(" ++ f.Pattern ++ ")").data := by
      rw [← this]
      simp [String.data_append]
    exact List.append_cancel_left h2
  refine ⟨"contains", f.Pattern, ?_, rfl⟩
  unfold ParseAsPredicate
  rw [e, FindStringSubmatch_of_parts "contains" f.Pattern (by decide) (by decide) h]

/-- C29 amended, on a pattern that itself holds brackets. -/
theorem predicate_text_round_trip_witness :
    '\n' ∉ ("f(oo)+" : String).toList ∧
    FileContainsPredicate.String { Pattern := "f(oo)+" } =
      "file:" ++ "contains(f(oo)+)" ∧
    ∃ name params, ParseAsPredicate "contains(f(oo)+)" = (name, params, none) ∧
      DefaultPredicateRegistry.Get "file" name params =
        (some (.fileContains { Pattern := "f(oo)+" }), none) :=
  ⟨by decide, by decide,
    predicate_text_round_trip { Pattern := "f(oo)+" } (by decide) "contains(f(oo)+)"
      (by decide)⟩

end Bundles
